import Mathlib

/-!
Verification of the binary-search-tree subsystem of the repository
(crate tree_of_madness: src/node.rs, src/tree.rs, src/tree/iteration.rs).

The Rust code stores nodes behind Rc<RefCell<..>> handles with Weak parent
back-references.  We embed it shallowly as an arena: a heap holding a list of
nodes addressed by natural-number indices.  Strong child links and weak parent
links both become indices; the arena is grow-only (it never frees), which is
observationally equivalent for the modelled operations because no operation
ever follows a parent index of a node that Rust would already have dropped.
Operations that can abort (expect/unwrap on None, explicit panic branches)
return Option, with none modelling the abort.
-/

set_option autoImplicit false

namespace TreeOfMadness

/-- Direction tag, from enum DiretionFromParent in node.rs. -/
inductive Dir where
  | Left
  | Right
  | NoParent
deriving DecidableEq

/-- A tree node, from struct Node in node.rs.  value: the stored value
(Rc sharing is irrelevant for functional behaviour); parent: the Weak
back-reference as an index; dirToParent: which slot of the parent this node
occupies; left, right: owning child links as indices. -/
structure Node (T : Type) where
  value : T
  parent : Option Nat
  dirToParent : Dir
  left : Option Nat
  right : Option Nat
deriving DecidableEq

/-- The arena of allocated nodes. -/
structure Heap (T : Type) where
  nodes : List (Node T)
deriving DecidableEq

variable {T : Type}

def Heap.get? (h : Heap T) (i : Nat) : Option (Node T) :=
  h.nodes.get? i

def Heap.set (h : Heap T) (i : Nat) (n : Node T) : Heap T :=
  ⟨h.nodes.set i n⟩

def Heap.size (h : Heap T) : Nat :=
  h.nodes.length

/-- Allocation of a fresh node (Rc::new in Rust); returns the new heap and the
index of the new node. -/
def Heap.alloc (h : Heap T) (n : Node T) : Heap T × Nat :=
  (⟨h.nodes ++ [n]⟩, h.nodes.length)

namespace Node

/-- Node::new in node.rs: a leaf with no parent, direction NoParent. -/
def mkNew (v : T) : Node T :=
  ⟨v, none, Dir.NoParent, none, none⟩

/-- Node::new allocated into the heap. -/
def newInHeap (h : Heap T) (v : T) : Heap T × Nat :=
  h.alloc (mkNew v)

/-- Node::set_parent: store the parent back-reference and direction tag in the
child. -/
def setParent (h : Heap T) (parent child : Nat) (d : Dir) : Option (Heap T) := do
  let cn ← h.get? child
  pure (h.set child { cn with parent := some parent, dirToParent := d })

/-- Node::unset_parent. -/
def unsetParent (h : Heap T) (child : Nat) : Option (Heap T) := do
  let cn ← h.get? child
  pure (h.set child { cn with parent := none, dirToParent := Dir.NoParent })

/-- Node::get_parent: upgrade of the Weak parent reference.  In the grow-only
arena the upgrade of a stored index always succeeds, matching Rust for every
state in which the parent is still reachable. -/
def getParent (h : Heap T) (child : Nat) : Option (Option Nat) := do
  let cn ← h.get? child
  pure cn.parent

/-- Node::spawn_left_child: allocate a leaf, store it as left child, set its
back-reference. -/
def spawnLeftChild (h : Heap T) (parent : Nat) (v : T) : Option (Heap T) := do
  let (h1, child) := newInHeap h v
  let pn ← h1.get? parent
  let h2 := h1.set parent { pn with left := some child }
  setParent h2 parent child Dir.Left

/-- Node::spawn_right_child. -/
def spawnRightChild (h : Heap T) (parent : Nat) (v : T) : Option (Heap T) := do
  let (h1, child) := newInHeap h v
  let pn ← h1.get? parent
  let h2 := h1.set parent { pn with right := some child }
  setParent h2 parent child Dir.Right

/-- Node::take_left_child: detach and return the left child as an orphan. -/
def takeLeftChild (h : Heap T) (parent : Nat) : Option (Heap T × Option Nat) := do
  let pn ← h.get? parent
  match pn.left with
  | none => pure (h, none)
  | some orphan =>
      let h1 := h.set parent { pn with left := none }
      let h2 ← unsetParent h1 orphan
      pure (h2, some orphan)

/-- Node::take_right_child. -/
def takeRightChild (h : Heap T) (parent : Nat) : Option (Heap T × Option Nat) := do
  let pn ← h.get? parent
  match pn.right with
  | none => pure (h, none)
  | some orphan =>
      let h1 := h.set parent { pn with right := none }
      let h2 ← unsetParent h1 orphan
      pure (h2, some orphan)

/-- Node::take_child_from_parent: remove the given node from its parent,
according to its direction tag.  For NoParent it does nothing.  The expect
calls on a missing parent become the none outcome. -/
def takeChildFromParent (h : Heap T) (child : Nat) : Option (Heap T) := do
  let cn ← h.get? child
  match cn.dirToParent with
  | Dir.NoParent => pure h
  | Dir.Left => do
      let p ← cn.parent
      let (h1, _) ← takeLeftChild h p
      pure h1
  | Dir.Right => do
      let p ← cn.parent
      let (h1, _) ← takeRightChild h p
      pure h1

/-- Node::replace_left_child_with: set the new child's back-reference, install
it in the left slot, clear the old occupant's back-reference, return the old
occupant. -/
def replaceLeftChildWith (h : Heap T) (parent newChild : Nat) :
    Option (Heap T × Option Nat) := do
  let h1 ← setParent h parent newChild Dir.Left
  let pn ← h1.get? parent
  let old := pn.left
  let h2 := h1.set parent { pn with left := some newChild }
  match old with
  | some orphan => do
      let h3 ← unsetParent h2 orphan
      pure (h3, some orphan)
  | none => pure (h2, none)

/-- Node::replace_right_child_with. -/
def replaceRightChildWith (h : Heap T) (parent newChild : Nat) :
    Option (Heap T × Option Nat) := do
  let h1 ← setParent h parent newChild Dir.Right
  let pn ← h1.get? parent
  let old := pn.right
  let h2 := h1.set parent { pn with right := some newChild }
  match old with
  | some orphan => do
      let h3 ← unsetParent h2 orphan
      pure (h3, some orphan)
  | none => pure (h2, none)

/-- Node::let_parent_replace_child_with: the parent of oldChild replaces
oldChild with newChild in the corresponding slot; returns the parent, or the
inner none when oldChild had no parent.  A resolvable parent together with a
NoParent direction tag hits the explicit panic branch (outer none). -/
def letParentReplaceChildWith (h : Heap T) (oldChild newChild : Nat) :
    Option (Heap T × Option Nat) := do
  let cn ← h.get? oldChild
  match cn.parent with
  | some parent =>
      match cn.dirToParent with
      | Dir.Left => do
          let (h1, _) ← replaceLeftChildWith h parent newChild
          pure (h1, some parent)
      | Dir.Right => do
          let (h1, _) ← replaceRightChildWith h parent newChild
          pure (h1, some parent)
      | Dir.NoParent => none
  | none => pure (h, none)

/-- The loop of Node::find_greatest_node_from: keep following right children;
prev is the last node visited.  fuel bounds the iteration count; for every
represented tree the supplied fuel is sufficient. -/
def findGreatestFuel (h : Heap T) : Nat → Option Nat → Option Nat → Option (Option Nat)
  | _, prev, none => some prev
  | 0, _, some _ => none
  | fuel + 1, _, some j => do
      let jn ← h.get? j
      findGreatestFuel h fuel (some j) jn.right

/-- Node::find_greatest_node_from: walk right children starting from the right
child of the argument; the argument itself is never returned. -/
def findGreatestNodeFrom (h : Heap T) (i : Nat) : Option (Option Nat) := do
  let n ← h.get? i
  findGreatestFuel h h.size none n.right

/-- Node::extract_greatest_node_from: find the greatest right-descendant,
detach it (promoting its left child into the vacated slot when it has one)
and return it as an orphan; inner none when the argument has no right child. -/
def extractGreatestNodeFrom (h : Heap T) (i : Nat) :
    Option (Heap T × Option Nat) := do
  let largestOpt ← findGreatestNodeFrom h i
  match largestOpt with
  | none => pure (h, none)
  | some largest => do
      let (h1, leftTaken) ← takeLeftChild h largest
      match leftTaken with
      | some lc => do
          let (h2, _) ← letParentReplaceChildWith h1 largest lc
          pure (h2, some largest)
      | none => do
          let h2 ← takeChildFromParent h1 largest
          pure (h2, some largest)

/-- Node::left_right_taken. -/
def leftRightTaken (n : Node T) : Bool × Bool :=
  (n.left.isSome, n.right.isSome)

end Node

/-- The container, from struct Tree in tree.rs; the heap is the ambient
Rc arena made explicit. -/
structure Tree (T : Type) where
  heap : Heap T
  root : Option Nat
deriving DecidableEq

/-- Search outcome, from enum SearchResult in tree.rs. -/
inductive SearchResult where
  | TreeEmpty
  | Found (i : Nat)
  | ClosestToValue (i : Nat) (d : Dir)
deriving DecidableEq

namespace Tree

/-- Tree::new. -/
def mkNew : Tree T :=
  ⟨⟨[]⟩, none⟩

variable [LinearOrder T]

/-- The descent loop of Tree::find_value_from.  fuel bounds the number of
steps; for every represented tree the supplied fuel is sufficient. -/
def findValueFromFuel (h : Heap T) : Nat → Nat → T → Option SearchResult
  | 0, _, _ => none
  | fuel + 1, cur, wanted => do
      let n ← h.get? cur
      match compare wanted n.value with
      | Ordering.eq => pure (SearchResult.Found cur)
      | Ordering.lt =>
          match n.left with
          | some l => findValueFromFuel h fuel l wanted
          | none => pure (SearchResult.ClosestToValue cur Dir.Left)
      | Ordering.gt =>
          match n.right with
          | some r => findValueFromFuel h fuel r wanted
          | none => pure (SearchResult.ClosestToValue cur Dir.Right)

/-- Tree::find_value_from. -/
def findValueFrom (h : Heap T) (root : Option Nat) (wanted : T) :
    Option SearchResult :=
  match root with
  | none => some SearchResult.TreeEmpty
  | some r => findValueFromFuel h (h.size + 1) r wanted

/-- Tree::add. -/
def add (t : Tree T) (newValue : T) : Option (Bool × Tree T) := do
  let sr ← findValueFrom t.heap t.root newValue
  match sr with
  | SearchResult.TreeEmpty =>
      let (h1, i) := Node.newInHeap t.heap newValue
      pure (true, ⟨h1, some i⟩)
  | SearchResult.Found _ => pure (false, t)
  | SearchResult.ClosestToValue attachTo d =>
      match d with
      | Dir.Left => do
          let h1 ← Node.spawnLeftChild t.heap attachTo newValue
          pure (true, ⟨h1, t.root⟩)
      | Dir.Right => do
          let h1 ← Node.spawnRightChild t.heap attachTo newValue
          pure (true, ⟨h1, t.root⟩)
      | Dir.NoParent => none

/-- Tree::contains. -/
def contains (t : Tree T) (searched : T) : Option Bool := do
  let sr ← findValueFrom t.heap t.root searched
  match sr with
  | SearchResult.Found _ => pure true
  | _ => pure false

/-- Local function replace_found_with_taken_child inside Tree::delete:
let the deleted node's parent adopt the promoted child; when there is no
parent the deleted node was the root and the root reference is updated. -/
def replaceFoundWithTakenChild (t : Tree T) (goneWithIt newChild : Nat) :
    Option (Tree T) := do
  let (h1, changedParent) ← Node.letParentReplaceChildWith t.heap goneWithIt newChild
  match changedParent with
  | none => pure ⟨h1, some newChild⟩
  | some _ => pure ⟨h1, t.root⟩

/-- Tree::delete.  In the (true, true) branch the source applies
replace_left_child_with / replace_right_child_with / let_parent_replace_child_with
directly to the Option returned by extract_greatest_node_from; reading those
calls at the node the Option must carry, the none case is the abort outcome,
modelled as the outer none.  Note that this branch never updates the root
reference, and the (false, false) branch does nothing at all when the deleted
node has no parent: both facts are faithful to the source. -/
def delete (t : Tree T) (toDelete : T) : Option (Bool × Tree T) := do
  let sr ← findValueFrom t.heap t.root toDelete
  match sr with
  | SearchResult.TreeEmpty => pure (false, t)
  | SearchResult.ClosestToValue _ _ => pure (false, t)
  | SearchResult.Found goneWithIt => do
      let gn ← t.heap.get? goneWithIt
      match Node.leftRightTaken gn with
      | (false, false) => do
          let h1 ← Node.takeChildFromParent t.heap goneWithIt
          pure (true, ⟨h1, t.root⟩)
      | (false, true) => do
          let (h1, rc) ← Node.takeRightChild t.heap goneWithIt
          let newRightChild ← rc
          let t1 ← replaceFoundWithTakenChild ⟨h1, t.root⟩ goneWithIt newRightChild
          pure (true, t1)
      | (true, false) => do
          let (h1, lc) ← Node.takeLeftChild t.heap goneWithIt
          let newLeftChild ← lc
          let t1 ← replaceFoundWithTakenChild ⟨h1, t.root⟩ goneWithIt newLeftChild
          pure (true, t1)
      | (true, true) => do
          let (h1, lo) ← Node.takeLeftChild t.heap goneWithIt
          let leftDetached ← lo
          let (h2, ro) ← Node.takeRightChild h1 goneWithIt
          let rightDetached ← ro
          let (h3, largestOpt) ← Node.extractGreatestNodeFrom h2 leftDetached
          let largestNode ← largestOpt
          let (h4, _) ← Node.replaceLeftChildWith h3 largestNode leftDetached
          let (h5, _) ← Node.replaceRightChildWith h4 largestNode rightDetached
          let (h6, _) ← Node.letParentReplaceChildWith h5 goneWithIt largestNode
          pure (true, ⟨h6, t.root⟩)

end Tree

/-- Iterator state, from struct IterShared in tree/iteration.rs: the VecDeque
of pending node handles. -/
structure IterShared where
  nodes : List Nat
deriving DecidableEq

/-- Tree::iter_shared: a fresh queue seeded with the current root. -/
def Tree.iterShared (t : Tree T) : IterShared :=
  ⟨match t.root with
   | some r => [r]
   | none => []⟩

/-- IterShared::next: pop the front node, enqueue its left child then its
right child, yield its shared value.  The inner none is exhaustion. -/
def IterShared.next (h : Heap T) (it : IterShared) :
    Option (Option (T × IterShared)) :=
  match it.nodes with
  | [] => some none
  | i :: rest => do
      let n ← h.get? i
      let q1 := rest ++ (match n.left with | some l => [l] | none => [])
                     ++ (match n.right with | some r => [r] | none => [])
      pure (some (n.value, ⟨q1⟩))

/-- Driving the iterator to exhaustion, collecting the yielded values.  fuel
bounds the number of next calls; for every represented tree the supplied fuel
is sufficient. -/
def IterShared.collect (h : Heap T) : Nat → IterShared → Option (List T)
  | 0, it => match it.nodes with | [] => some [] | _ :: _ => none
  | fuel + 1, it => do
      let step ← it.next h
      match step with
      | none => pure []
      | some (v, it1) => do
          let rest ← it1.collect h fuel
          pure (v :: rest)

/-- The full level-order traversal sequence of a tree. -/
def Tree.iterAll (t : Tree T) : Option (List T) :=
  (t.iterShared).collect t.heap t.heap.size

/-! ## Abstract functional trees

The verification relates the arena to ordinary inductive binary trees. -/

/-- Pure binary trees, the abstraction of the node graph. -/
inductive BTree (T : Type) where
  | leaf
  | node (l : BTree T) (v : T) (r : BTree T)
deriving DecidableEq

namespace BTree

variable {T : Type}

def size : BTree T → Nat
  | leaf => 0
  | node l _ r => l.size + r.size + 1

/-- In-order value sequence. -/
def values : BTree T → List T
  | leaf => []
  | node l v r => l.values ++ v :: r.values

end BTree

/-- Value v lies strictly inside the optional open interval (lo, hi). -/
def OBnd {T : Type} [LT T] (lo : Option T) (v : T) (hi : Option T) : Prop :=
  (∀ x ∈ lo, x < v) ∧ (∀ y ∈ hi, v < y)

/-- Binary-search-tree ordering with optional bounds: every node value lies
inside the bounds and the bounds tighten along children.  This is exactly the
node-local ordering requirement of the design spec. -/
def BSTB {T : Type} [LT T] : Option T → Option T → BTree T → Prop
  | _, _, BTree.leaf => True
  | lo, hi, BTree.node l v r => OBnd lo v hi ∧ BSTB lo (some v) l ∧ BSTB (some v) hi r

/-- Unbounded BST ordering. -/
def BST {T : Type} [LT T] (t : BTree T) : Prop :=
  BSTB none none t

/-! ## Paths (contexts with one hole) -/

/-- A path from the root of a tree down to one slot (the hole). -/
inductive Path (T : Type) where
  | here
  | left (v : T) (r : BTree T) (rest : Path T)
  | right (l : BTree T) (v : T) (rest : Path T)

namespace Path

variable {T : Type}

/-- Plug a subtree into the hole. -/
def fill : Path T → BTree T → BTree T
  | here, b => b
  | left v r rest, b => BTree.node (rest.fill b) v r
  | right l v rest, b => BTree.node l v (rest.fill b)

/-- The open interval of values admissible at the hole. -/
def holeBounds : Path T → Option T × Option T → Option T × Option T
  | here, bnds => bnds
  | left v _ rest, (lo, _) => rest.holeBounds (lo, some v)
  | right _ v rest, (_, hi) => rest.holeBounds (some v, hi)

/-- BST ordering of the part of the tree outside the hole. -/
def Ok [LT T] : Option T → Option T → Path T → Prop
  | _, _, here => True
  | lo, hi, left v r rest => OBnd lo v hi ∧ BSTB (some v) hi r ∧ Ok lo (some v) rest
  | lo, hi, right l v rest => OBnd lo v hi ∧ BSTB lo (some v) l ∧ Ok (some v) hi rest

/-- The values stored outside the hole. -/
def values : Path T → List T
  | here => []
  | left v r rest => rest.values ++ v :: r.values
  | right l v rest => l.values ++ v :: rest.values

/-- A path that only ever descends to the right. -/
def rightOnly : Path T → Prop
  | here => True
  | left _ _ _ => False
  | right _ _ rest => rest.rightOnly

end Path

/-! ## Representation relations -/

/-- ReprNode h p d oi t s: in heap h, the slot whose expected parent is p and
expected direction is d currently holds the subtree handle oi, and that
subtree is the faithful graph picture of the abstract tree t; s lists the
arena indices used, in pre-order.  The node constructor forces the stored
parent back-reference and direction tag to match the slot, so link
consistency is part of representation. -/
inductive ReprNode {T : Type} (h : Heap T) :
    Option Nat → Dir → Option Nat → BTree T → List Nat → Prop where
  | leaf (p : Option Nat) (d : Dir) : ReprNode h p d none BTree.leaf []
  | node (p : Option Nat) (d : Dir) (i : Nat) (v : T) (l r : Option Nat)
      (tl tr : BTree T) (sl sr : List Nat)
      (hget : h.get? i = some ⟨v, p, d, l, r⟩)
      (hl : ReprNode h (some i) Dir.Left l tl sl)
      (hr : ReprNode h (some i) Dir.Right r tr sr) :
      ReprNode h p d (some i) (BTree.node tl v tr) (i :: (sl ++ sr))

/-- ReprPath h p d oi q hp hd hcur s: starting at the slot (p, d) holding oi,
the heap realises the path q down to the hole slot (hp, hd), whose current
content is hcur; s lists the indices of the path nodes and their off-path
subtrees. -/
inductive ReprPath {T : Type} (h : Heap T) :
    Option Nat → Dir → Option Nat → Path T →
    Option Nat → Dir → Option Nat → List Nat → Prop where
  | here (p : Option Nat) (d : Dir) (oi : Option Nat) :
      ReprPath h p d oi Path.here p d oi []
  | left (p : Option Nat) (d : Dir) (i : Nat) (v : T) (l r : Option Nat)
      (tr : BTree T) (rest : Path T) (hp : Option Nat) (hd : Dir)
      (hcur : Option Nat) (sl sr : List Nat)
      (hget : h.get? i = some ⟨v, p, d, l, r⟩)
      (hrest : ReprPath h (some i) Dir.Left l rest hp hd hcur sl)
      (hr : ReprNode h (some i) Dir.Right r tr sr) :
      ReprPath h p d (some i) (Path.left v tr rest) hp hd hcur (i :: (sl ++ sr))
  | right (p : Option Nat) (d : Dir) (i : Nat) (v : T) (l r : Option Nat)
      (tl : BTree T) (rest : Path T) (hp : Option Nat) (hd : Dir)
      (hcur : Option Nat) (sl sr : List Nat)
      (hget : h.get? i = some ⟨v, p, d, l, r⟩)
      (hl : ReprNode h (some i) Dir.Left l tl sl)
      (hrest : ReprPath h (some i) Dir.Right r rest hp hd hcur sr) :
      ReprPath h p d (some i) (Path.right tl v rest) hp hd hcur (i :: (sl ++ sr))

/-- The whole-tree invariant: the heap together with the root reference
represents some abstract tree through distinct arena indices, and that tree
is BST-ordered. -/
def Tree.Inv {T : Type} [LinearOrder T] (t : Tree T) : Prop :=
  ∃ bt s, ReprNode t.heap none Dir.NoParent t.root bt s ∧ s.Nodup ∧ BST bt

/-- The states reachable from the empty tree through the public surface.
A step is recorded only when the operation completes (returns), matching
observable program states. -/
inductive Reachable {T : Type} [LinearOrder T] : Tree T → Prop where
  | empty : Reachable Tree.mkNew
  | add (t t' : Tree T) (b : Bool) (v : T) :
      Reachable t → t.add v = some (b, t') → Reachable t'
  | delete (t t' : Tree T) (b : Bool) (v : T) :
      Reachable t → t.delete v = some (b, t') → Reachable t'

/-! ## Derived observations and auxiliary functional definitions -/

/-- Lower bound a is at most as restrictive as lower bound b. -/
def lbLe {T : Type} [Preorder T] : Option T → Option T → Prop
  | none, _ => True
  | some x, some y => x ≤ y
  | some _, none => False

/-- Upper bound b is at least as permissive as upper bound a. -/
def ubLe {T : Type} [Preorder T] : Option T → Option T → Prop
  | _, none => True
  | some x, some y => x ≤ y
  | none, some _ => False

/-- The build_tree! macro from tree.rs applied step by step: insert the
values in sequence order, ignoring the boolean results. -/
def Tree.ofListAux {T : Type} [LinearOrder T] (t : Tree T) :
    List T → Option (Tree T)
  | [] => some t
  | v :: vs =>
      match t.add v with
      | some (_, t1) => Tree.ofListAux t1 vs
      | none => none

/-- Construction from an ordered sequence of values. -/
def Tree.ofList {T : Type} [LinearOrder T] (vs : List T) : Option (Tree T) :=
  Tree.ofListAux Tree.mkNew vs

/-- In-order collection of the values stored under a slot.  fuel bounds the
recursion depth; for every represented tree the supplied fuel is
sufficient. -/
def collectInFuel {T : Type} (h : Heap T) : Nat → Option Nat → Option (List T)
  | _, none => some []
  | 0, some _ => none
  | fuel + 1, some i => do
      let n ← h.get? i
      let lvs ← collectInFuel h fuel n.left
      let rvs ← collectInFuel h fuel n.right
      pure (lvs ++ n.value :: rvs)

/-- Node-local BST ordering check over the reachable node graph: at every
node, every value collected in the left subtree is smaller than the node
value and every value collected in the right subtree is greater. -/
def bstOkFuel {T : Type} [LinearOrder T] (h : Heap T) :
    Nat → Option Nat → Option Bool
  | _, none => some true
  | 0, some _ => none
  | fuel + 1, some i => do
      let n ← h.get? i
      let lvs ← collectInFuel h fuel n.left
      let rvs ← collectInFuel h fuel n.right
      let bl ← bstOkFuel h fuel n.left
      let br ← bstOkFuel h fuel n.right
      pure (lvs.all (fun x => decide (x < n.value)) &&
            rvs.all (fun y => decide (n.value < y)) && bl && br)

/-- The node-local BST ordering property of a tree state, as a computable
check. -/
def Tree.bstOk {T : Type} [LinearOrder T] (t : Tree T) : Option Bool :=
  bstOkFuel t.heap t.heap.size t.root

/-- One link-consistency check: when a child handle is stored, the child's
parent back-reference resolves to the owner and its direction tag matches
the slot. -/
def linkChildOk {T : Type} (h : Heap T) (owner : Nat) (d : Dir) :
    Option Nat → Option Bool
  | none => some true
  | some c => do
      let cn ← h.get? c
      pure (decide (cn.parent = some owner) && decide (cn.dirToParent = d))

/-- Link consistency over every node reachable from a slot. -/
def linkOkFuel {T : Type} (h : Heap T) : Nat → Option Nat → Option Bool
  | _, none => some true
  | 0, some _ => none
  | fuel + 1, some i => do
      let n ← h.get? i
      let okl ← linkChildOk h i Dir.Left n.left
      let okr ← linkChildOk h i Dir.Right n.right
      let bl ← linkOkFuel h fuel n.left
      let br ← linkOkFuel h fuel n.right
      pure (okl && okr && bl && br)

/-- Link consistency of a tree state: every reachable child link is matched
by its back-reference, and the root (if any) carries no parent and the
NoParent direction. -/
def Tree.linkOk {T : Type} (t : Tree T) : Option Bool :=
  match t.root with
  | none => some true
  | some r => do
      let rn ← t.heap.get? r
      let rest ← linkOkFuel t.heap t.heap.size (some r)
      pure (decide (rn.parent = none) &&
            decide (rn.dirToParent = Dir.NoParent) && rest)

/-- A traversal queue of represented subtrees with their abstract pictures:
each pending handle represents one nonempty abstract subtree. -/
inductive ReprQueue {T : Type} (h : Heap T) :
    List Nat → List (BTree T) → List Nat → Prop where
  | nil : ReprQueue h [] [] []
  | cons (p : Option Nat) (d : Dir) (i : Nat) (t : BTree T) (s : List Nat)
      (is : List Nat) (ts : List (BTree T)) (ss : List Nat) :
      ReprNode h p d (some i) t s → ReprQueue h is ts ss →
      ReprQueue h (i :: is) (t :: ts) (s ++ ss)

/-! ## Heap lemmas -/

variable {T : Type}

theorem Heap.lt_size_of_get? {h : Heap T} {i : Nat} {n : Node T}
    (hg : h.get? i = some n) : i < h.size := by
  by_contra hlt
  push_neg at hlt
  rw [Heap.get?, List.get?_eq_none.2 hlt] at hg
  exact Option.noConfusion hg

theorem Heap.get?_set_self (h : Heap T) {i : Nat} (n : Node T)
    (hi : i < h.size) : (h.set i n).get? i = some n := by
  simp only [Heap.get?, Heap.set]
  exact List.get?_set_eq_of_lt n hi

theorem Heap.get?_set_ne (h : Heap T) {i j : Nat} (n : Node T)
    (hij : i ≠ j) : (h.set i n).get? j = h.get? j := by
  simp only [Heap.get?, Heap.set]
  exact List.get?_set_ne n _ hij

theorem Heap.size_set (h : Heap T) (i : Nat) (n : Node T) :
    (h.set i n).size = h.size := by
  simp [Heap.size, Heap.set]

theorem Heap.get?_alloc_lt (h : Heap T) (n : Node T) {j : Nat}
    (hj : j < h.size) : (h.alloc n).1.get? j = h.get? j := by
  simp only [Heap.get?, Heap.alloc]
  exact List.get?_append hj

theorem Heap.get?_alloc_self (h : Heap T) (n : Node T) :
    (h.alloc n).1.get? h.size = some n := by
  simp only [Heap.get?, Heap.alloc, Heap.size]
  exact List.get?_concat_length h.nodes n

theorem Heap.size_alloc (h : Heap T) (n : Node T) :
    (h.alloc n).1.size = h.size + 1 := by
  simp [Heap.size, Heap.alloc]

theorem Heap.alloc_snd (h : Heap T) (n : Node T) : (h.alloc n).2 = h.size :=
  rfl

/-- A duplicate-free list of indices below n has length at most n. -/
theorem nodup_bounded_length_le {s : List Nat} {n : Nat}
    (hnd : s.Nodup) (hbd : ∀ j ∈ s, j < n) : s.length ≤ n := by
  classical
  have hc : s.toFinset.card = s.length := List.toFinset_card_of_nodup hnd
  have hsub : s.toFinset ⊆ Finset.range n := by
    intro j hj
    exact Finset.mem_range.2 (hbd j (List.mem_toFinset.1 hj))
  have := Finset.card_le_card hsub
  rw [hc, Finset.card_range] at this
  exact this

/-! ## ReprNode structural lemmas -/

theorem ReprNode.mem_lt_size {h : Heap T} {p : Option Nat} {d : Dir}
    {oi : Option Nat} {t : BTree T} {s : List Nat}
    (hr : ReprNode h p d oi t s) : ∀ j ∈ s, j < h.size := by
  induction hr with
  | leaf => intro j hj; exact absurd hj (List.not_mem_nil j)
  | node p d i v l r tl tr sl sr hget hl hr ihl ihr =>
      intro j hj
      rcases List.mem_cons.1 hj with hj | hj
      · subst hj; exact Heap.lt_size_of_get? hget
      · rcases List.mem_append.1 hj with hj | hj
        · exact ihl j hj
        · exact ihr j hj

theorem ReprNode.length_eq_size {h : Heap T} {p : Option Nat} {d : Dir}
    {oi : Option Nat} {t : BTree T} {s : List Nat}
    (hr : ReprNode h p d oi t s) : s.length = t.size := by
  induction hr with
  | leaf => rfl
  | node p d i v l r tl tr sl sr hget hl hr ihl ihr =>
      simp [BTree.size, List.length_append, ihl, ihr]

theorem ReprNode.size_le {h : Heap T} {p : Option Nat} {d : Dir}
    {oi : Option Nat} {t : BTree T} {s : List Nat}
    (hr : ReprNode h p d oi t s) (hnd : s.Nodup) : t.size ≤ h.size := by
  rw [← hr.length_eq_size]
  exact nodup_bounded_length_le hnd hr.mem_lt_size

/-- Agreement on the used indices preserves representation. -/
theorem ReprNode.mono {h h2 : Heap T} {p : Option Nat} {d : Dir}
    {oi : Option Nat} {t : BTree T} {s : List Nat}
    (hr : ReprNode h p d oi t s)
    (hag : ∀ j ∈ s, h2.get? j = h.get? j) :
    ReprNode h2 p d oi t s := by
  induction hr with
  | leaf p d => exact ReprNode.leaf p d
  | node p d i v l r tl tr sl sr hget hl hr ihl ihr =>
      refine ReprNode.node p d i v l r tl tr sl sr ?_ ?_ ?_
      · rw [hag i (List.mem_cons_self i _)]; exact hget
      · exact ihl fun j hj =>
          hag j (List.mem_cons_of_mem i (List.mem_append.2 (Or.inl hj)))
      · exact ihr fun j hj =>
          hag j (List.mem_cons_of_mem i (List.mem_append.2 (Or.inr hj)))

theorem ReprNode.frame_set {h : Heap T} {p : Option Nat} {d : Dir}
    {oi : Option Nat} {t : BTree T} {s : List Nat} {j : Nat} {n : Node T}
    (hr : ReprNode h p d oi t s) (hj : j ∉ s) :
    ReprNode (h.set j n) p d oi t s :=
  hr.mono fun k hk => Heap.get?_set_ne h n fun he => hj (he ▸ hk)

theorem ReprNode.frame_alloc {h : Heap T} {p : Option Nat} {d : Dir}
    {oi : Option Nat} {t : BTree T} {s : List Nat} {n : Node T}
    (hr : ReprNode h p d oi t s) :
    ReprNode (h.alloc n).1 p d oi t s :=
  hr.mono fun k hk => Heap.get?_alloc_lt h n (hr.mem_lt_size k hk)

/-- Inversion at an empty slot. -/
theorem ReprNode.none_inv {h : Heap T} {p : Option Nat} {d : Dir}
    {t : BTree T} {s : List Nat}
    (hr : ReprNode h p d none t s) : t = BTree.leaf ∧ s = [] := by
  cases hr; exact ⟨rfl, rfl⟩

/-- Inversion at an occupied slot. -/
theorem ReprNode.some_inv {h : Heap T} {p : Option Nat} {d : Dir} {i : Nat}
    {t : BTree T} {s : List Nat}
    (hr : ReprNode h p d (some i) t s) :
    ∃ v l r tl tr sl sr, t = BTree.node tl v tr ∧ s = i :: (sl ++ sr) ∧
      h.get? i = some ⟨v, p, d, l, r⟩ ∧
      ReprNode h (some i) Dir.Left l tl sl ∧
      ReprNode h (some i) Dir.Right r tr sr := by
  cases hr with
  | node p d i v l r tl tr sl sr hget hl hr =>
      exact ⟨v, l, r, tl, tr, sl, sr, rfl, rfl, hget, hl, hr⟩

/-- Rewriting only the parent back-reference and direction tag of the root
node of a represented subtree re-roots it at any other slot. -/
theorem ReprNode.reparent {h : Heap T} {p : Option Nat} {d : Dir} {i : Nat}
    {t : BTree T} {s : List Nat}
    (hr : ReprNode h p d (some i) t s) (hnd : s.Nodup)
    (p' : Option Nat) (d' : Dir) :
    ∃ v l r, h.get? i = some ⟨v, p, d, l, r⟩ ∧
      ReprNode (h.set i ⟨v, p', d', l, r⟩) p' d' (some i) t s := by
  rcases hr.some_inv with ⟨v, l, r, tl, tr, sl, sr, ht, hs, hget, hl, hrr⟩
  subst ht; subst hs
  have hnmem : i ∉ sl ++ sr := (List.nodup_cons.1 hnd).1
  refine ⟨v, l, r, hget, ?_⟩
  refine ReprNode.node p' d' i v l r tl tr sl sr ?_ ?_ ?_
  · exact Heap.get?_set_self h _ (Heap.lt_size_of_get? hget)
  · exact hl.frame_set fun hc => hnmem (List.mem_append.2 (Or.inl hc))
  · exact hrr.frame_set fun hc => hnmem (List.mem_append.2 (Or.inr hc))

/-! ## ReprPath structural lemmas -/

theorem ReprPath.mem_lt_size_path {h : Heap T} {p : Option Nat} {d : Dir}
    {oi : Option Nat} {q : Path T} {hp : Option Nat} {hd : Dir}
    {hcur : Option Nat} {s : List Nat}
    (hq : ReprPath h p d oi q hp hd hcur s) : ∀ j ∈ s, j < h.size := by
  induction hq with
  | here => intro j hj; exact absurd hj (List.not_mem_nil j)
  | left p d i v l r tr rest hp hd hcur sl sr hget hrest hr ih =>
      intro j hj
      rcases List.mem_cons.1 hj with hj | hj
      · subst hj; exact Heap.lt_size_of_get? hget
      · rcases List.mem_append.1 hj with hj | hj
        · exact ih j hj
        · exact hr.mem_lt_size j hj
  | right p d i v l r tl rest hp hd hcur sl sr hget hl hrest ih =>
      intro j hj
      rcases List.mem_cons.1 hj with hj | hj
      · subst hj; exact Heap.lt_size_of_get? hget
      · rcases List.mem_append.1 hj with hj | hj
        · exact hl.mem_lt_size j hj
        · exact ih j hj

theorem ReprPath.mono_path {h h2 : Heap T} {p : Option Nat} {d : Dir}
    {oi : Option Nat} {q : Path T} {hp : Option Nat} {hd : Dir}
    {hcur : Option Nat} {s : List Nat}
    (hq : ReprPath h p d oi q hp hd hcur s)
    (hag : ∀ j ∈ s, h2.get? j = h.get? j) :
    ReprPath h2 p d oi q hp hd hcur s := by
  induction hq with
  | here p d oi => exact ReprPath.here p d oi
  | left p d i v l r tr rest hp hd hcur sl sr hget hrest hr ih =>
      refine ReprPath.left p d i v l r tr rest hp hd hcur sl sr ?_ ?_ ?_
      · rw [hag i (List.mem_cons_self i _)]; exact hget
      · exact ih fun j hj =>
          hag j (List.mem_cons_of_mem i (List.mem_append.2 (Or.inl hj)))
      · exact hr.mono fun j hj =>
          hag j (List.mem_cons_of_mem i (List.mem_append.2 (Or.inr hj)))
  | right p d i v l r tl rest hp hd hcur sl sr hget hl hrest ih =>
      refine ReprPath.right p d i v l r tl rest hp hd hcur sl sr ?_ ?_ ?_
      · rw [hag i (List.mem_cons_self i _)]; exact hget
      · exact hl.mono fun j hj =>
          hag j (List.mem_cons_of_mem i (List.mem_append.2 (Or.inl hj)))
      · exact ih fun j hj =>
          hag j (List.mem_cons_of_mem i (List.mem_append.2 (Or.inr hj)))

theorem ReprPath.frame_set_path {h : Heap T} {p : Option Nat} {d : Dir}
    {oi : Option Nat} {q : Path T} {hp : Option Nat} {hd : Dir}
    {hcur : Option Nat} {s : List Nat} {j : Nat} {n : Node T}
    (hq : ReprPath h p d oi q hp hd hcur s) (hj : j ∉ s) :
    ReprPath (h.set j n) p d oi q hp hd hcur s :=
  hq.mono_path fun k hk => Heap.get?_set_ne h n fun he => hj (he ▸ hk)

/-- Filling the hole of a represented path with a represented subtree yields
a representation of the filled tree. -/
theorem ReprPath.fill_repr {h : Heap T} {p : Option Nat} {d : Dir}
    {oi : Option Nat} {q : Path T} {hp : Option Nat} {hd : Dir}
    {hcur : Option Nat} {sq : List Nat}
    (hq : ReprPath h p d oi q hp hd hcur sq)
    {b : BTree T} {sb : List Nat}
    (hb : ReprNode h hp hd hcur b sb) :
    ∃ s, ReprNode h p d oi (q.fill b) s ∧ s.Perm (sq ++ sb) := by
  induction hq with
  | here p d oi => exact ⟨sb, hb, by simp⟩
  | left p d i v l r tr rest hp hd hcur sl sr hget hrest hr ih =>
      rcases ih hb with ⟨sf, hf, hperm⟩
      refine ⟨i :: (sf ++ sr),
        ReprNode.node p d i v l r (rest.fill b) tr sf sr hget hf hr, ?_⟩
      have h1 : (sf ++ sr).Perm ((sl ++ sb) ++ sr) := hperm.append_right sr
      have h2 : ((sl ++ sb) ++ sr).Perm ((sl ++ sr) ++ sb) := by
        rw [List.append_assoc, List.append_assoc]
        exact (@List.perm_append_comm _ sb sr).append_left sl
      have h3 : (i :: (sf ++ sr)).Perm (i :: ((sl ++ sr) ++ sb)) :=
        (h1.trans h2).cons i
      rw [List.cons_append]
      exact h3
  | right p d i v l r tl rest hp hd hcur sl sr hget hl hrest ih =>
      rcases ih hb with ⟨sf, hf, hperm⟩
      refine ⟨i :: (sl ++ sf),
        ReprNode.node p d i v l r tl (rest.fill b) sl sf hget hl hf, ?_⟩
      have h1 : (sl ++ sf).Perm (sl ++ (sr ++ sb)) := hperm.append_left sl
      have h3 : (i :: (sl ++ sf)).Perm (i :: ((sl ++ sr) ++ sb)) := by
        rw [List.append_assoc]
        exact h1.cons i
      rw [List.cons_append]
      exact h3

/-- The hole of a represented path is either the starting slot itself, or a
child slot of a path node whose heap cell stores the hole content. -/
theorem ReprPath.hole_cases {h : Heap T} {p : Option Nat} {d : Dir}
    {oi : Option Nat} {q : Path T} {hp : Option Nat} {hd : Dir}
    {hcur : Option Nat} {s : List Nat}
    (hq : ReprPath h p d oi q hp hd hcur s) :
    (q = Path.here ∧ hp = p ∧ hd = d ∧ hcur = oi ∧ s = []) ∨
    (∃ j n, hp = some j ∧ j ∈ s ∧ h.get? j = some n ∧
      ((hd = Dir.Left ∧ n.left = hcur) ∨ (hd = Dir.Right ∧ n.right = hcur))) := by
  induction hq with
  | here p d oi => exact Or.inl ⟨rfl, rfl, rfl, rfl, rfl⟩
  | left p d i v l r tr rest hp hd hcur sl sr hget hrest hr ih =>
      refine Or.inr ?_
      rcases ih with ⟨hq0, hhp, hhd, hc, hs⟩ | ⟨j, n, hhp, hj, hgn, hslot⟩
      · exact ⟨i, _, hhp, List.mem_cons_self i _, hget,
          Or.inl ⟨hhd, hc.symm⟩⟩
      · exact ⟨j, n, hhp,
          List.mem_cons_of_mem i (List.mem_append.2 (Or.inl hj)), hgn, hslot⟩
  | right p d i v l r tl rest hp hd hcur sl sr hget hl hrest ih =>
      refine Or.inr ?_
      rcases ih with ⟨hq0, hhp, hhd, hc, hs⟩ | ⟨j, n, hhp, hj, hgn, hslot⟩
      · exact ⟨i, _, hhp, List.mem_cons_self i _, hget,
          Or.inr ⟨hhd, hc.symm⟩⟩
      · exact ⟨j, n, hhp,
          List.mem_cons_of_mem i (List.mem_append.2 (Or.inr hj)), hgn, hslot⟩

/-- At the top-level slot, a NoParent hole direction means the path is empty. -/
theorem ReprPath.noParent_here {h : Heap T} {oi : Option Nat} {q : Path T}
    {hp : Option Nat} {hcur : Option Nat} {s : List Nat}
    (hq : ReprPath h none Dir.NoParent oi q hp Dir.NoParent hcur s) :
    q = Path.here ∧ hp = none ∧ hcur = oi ∧ s = [] := by
  rcases hq.hole_cases with ⟨hq0, hhp, _, hc, hs⟩ | ⟨j, n, _, _, _, hslot⟩
  · exact ⟨hq0, hhp, hc, hs⟩
  · rcases hslot with ⟨hhd, _⟩ | ⟨hhd, _⟩ <;> exact absurd hhd (by simp)

/-- Same, keyed on the hole parent being unresolved. -/
theorem ReprPath.noHoleParent_here {h : Heap T} {oi : Option Nat} {q : Path T}
    {hd : Dir} {hcur : Option Nat} {s : List Nat}
    (hq : ReprPath h none Dir.NoParent oi q none hd hcur s) :
    q = Path.here ∧ hd = Dir.NoParent ∧ hcur = oi ∧ s = [] := by
  rcases hq.hole_cases with ⟨hq0, _, hhd, hc, hs⟩ | ⟨j, n, hhp, _, _, _⟩
  · exact ⟨hq0, hhd, hc, hs⟩
  · exact absurd hhp (by simp)

/-- Rewriting the hole slot of a represented path: writing a new content into
the child field of the hole parent designated by the hole direction leaves the
path represented with the new content. -/
theorem ReprPath.write_slot {h : Heap T} {p : Option Nat} {d : Dir}
    {oi : Option Nat} {q : Path T} {hp : Option Nat} {hd : Dir}
    {hcur : Option Nat} {s : List Nat}
    (hq : ReprPath h p d oi q hp hd hcur s) :
    ∀ {j : Nat} {v : T} {pj : Option Nat} {dj : Dir} {l r : Option Nat}
      (newC : Option Nat),
      hp = some j → s.Nodup → q ≠ Path.here →
      h.get? j = some ⟨v, pj, dj, l, r⟩ →
      ((hd = Dir.Left →
         ReprPath (h.set j ⟨v, pj, dj, newC, r⟩) p d oi q (some j) Dir.Left newC s) ∧
       (hd = Dir.Right →
         ReprPath (h.set j ⟨v, pj, dj, l, newC⟩) p d oi q (some j) Dir.Right newC s)) := by
  induction hq with
  | here p d oi =>
      intro j v pj dj l r newC hhp hnd hne hget
      exact absurd rfl hne
  | left p d i v0 l0 r0 tr rest hp hd hcur sl sr hget0 hrest hr ih =>
      intro j v pj dj l r newC hhp hnd hne hget
      have hinotin : i ∉ sl ++ sr := (List.nodup_cons.1 hnd).1
      have hndtail : (sl ++ sr).Nodup := (List.nodup_cons.1 hnd).2
      rcases hrest.hole_cases with ⟨hrh, hhp2, hhd2, hc2, hs2⟩ |
        ⟨j2, n2, hhp2, hj2, _, _⟩
      · -- the hole is the left slot of node i itself
        subst hrh; subst hs2
        have hij : i = j := by
          rw [hhp2] at hhp; exact Option.some.inj hhp
        subst hij
        have heq : (⟨v0, p, d, l0, r0⟩ : Node T) = ⟨v, pj, dj, l, r⟩ :=
          Option.some.inj (hget0.symm.trans hget)
        cases heq
        constructor
        · intro _
          refine ReprPath.left p d i v0 newC r0 tr Path.here
            (some i) Dir.Left newC [] sr ?_ (ReprPath.here _ _ _) ?_
          · exact Heap.get?_set_self h _ (Heap.lt_size_of_get? hget)
          · exact hr.frame_set fun hc => hinotin (by simpa using hc)
        · intro hRd; rw [hhd2] at hRd; exact absurd hRd (by simp)
      · -- the hole is deeper inside the left subtree
        have hjsl : j ∈ sl := by
          rw [hhp2] at hhp
          exact (Option.some.inj hhp) ▸ hj2
        have hrh : rest ≠ Path.here := by
          intro he; subst he
          cases hrest
          exact absurd hjsl (List.not_mem_nil j)
        have hij : i ≠ j := fun he =>
          hinotin (List.mem_append.2 (Or.inl (he ▸ hjsl)))
        have hjsr : j ∉ sr := fun hc =>
          (List.disjoint_of_nodup_append hndtail) hjsl hc
        have hndl : sl.Nodup := hndtail.of_append_left
        rcases ih newC hhp hndl hrh hget with ⟨ihL, ihR⟩
        constructor
        · intro hLd
          refine ReprPath.left p d i v0 l0 r0 tr rest
            (some j) Dir.Left newC sl sr ?_ (ihL hLd) ?_
          · rw [Heap.get?_set_ne h _ (fun he => hij he.symm)]; exact hget0
          · exact hr.frame_set hjsr
        · intro hRd
          refine ReprPath.left p d i v0 l0 r0 tr rest
            (some j) Dir.Right newC sl sr ?_ (ihR hRd) ?_
          · rw [Heap.get?_set_ne h _ (fun he => hij he.symm)]; exact hget0
          · exact hr.frame_set hjsr
  | right p d i v0 l0 r0 tl rest hp hd hcur sl sr hget0 hl hrest ih =>
      intro j v pj dj l r newC hhp hnd hne hget
      have hinotin : i ∉ sl ++ sr := (List.nodup_cons.1 hnd).1
      have hndtail : (sl ++ sr).Nodup := (List.nodup_cons.1 hnd).2
      rcases hrest.hole_cases with ⟨hrh, hhp2, hhd2, hc2, hs2⟩ |
        ⟨j2, n2, hhp2, hj2, _, _⟩
      · -- the hole is the right slot of node i itself
        subst hrh; subst hs2
        have hij : i = j := by
          rw [hhp2] at hhp; exact Option.some.inj hhp
        subst hij
        have heq : (⟨v0, p, d, l0, r0⟩ : Node T) = ⟨v, pj, dj, l, r⟩ :=
          Option.some.inj (hget0.symm.trans hget)
        cases heq
        constructor
        · intro hLd; rw [hhd2] at hLd; exact absurd hLd (by simp)
        · intro _
          refine ReprPath.right p d i v0 l0 newC tl Path.here
            (some i) Dir.Right newC sl [] ?_ ?_ (ReprPath.here _ _ _)
          · exact Heap.get?_set_self h _ (Heap.lt_size_of_get? hget)
          · exact hl.frame_set fun hc => hinotin (by simpa using hc)
      · -- the hole is deeper inside the right subtree
        have hjsr : j ∈ sr := by
          rw [hhp2] at hhp
          exact (Option.some.inj hhp) ▸ hj2
        have hrh : rest ≠ Path.here := by
          intro he; subst he
          cases hrest
          exact absurd hjsr (List.not_mem_nil j)
        have hij : i ≠ j := fun he =>
          hinotin (List.mem_append.2 (Or.inr (he ▸ hjsr)))
        have hjsl : j ∉ sl := fun hc =>
          (List.disjoint_of_nodup_append hndtail) hc hjsr
        have hndr : sr.Nodup := hndtail.of_append_right
        rcases ih newC hhp hndr hrh hget with ⟨ihL, ihR⟩
        constructor
        · intro hLd
          refine ReprPath.right p d i v0 l0 r0 tl rest
            (some j) Dir.Left newC sl sr ?_ ?_ (ihL hLd)
          · rw [Heap.get?_set_ne h _ (fun he => hij he.symm)]; exact hget0
          · exact hl.frame_set hjsl
        · intro hRd
          refine ReprPath.right p d i v0 l0 r0 tl rest
            (some j) Dir.Right newC sl sr ?_ ?_ (ihR hRd)
          · rw [Heap.get?_set_ne h _ (fun he => hij he.symm)]; exact hget0
          · exact hl.frame_set hjsl

/-! ## Ordering lemmas on abstract trees and paths -/

section Ordering

variable [LinearOrder T]

theorem lbLe_refl (a : Option T) : lbLe a a := by
  cases a <;> simp [lbLe]

theorem ubLe_refl (a : Option T) : ubLe a a := by
  cases a <;> simp [ubLe]

theorem lbLe_trans {a b c : Option T} (h1 : lbLe a b) (h2 : lbLe b c) :
    lbLe a c := by
  cases a <;> cases b <;> cases c <;> simp_all [lbLe]
  exact h1.trans h2

theorem ubLe_trans {a b c : Option T} (h1 : ubLe a b) (h2 : ubLe b c) :
    ubLe a c := by
  cases a <;> cases b <;> cases c <;> simp_all [ubLe]
  exact h1.trans h2

theorem OBnd.mono_bnd {lo hi lo' hi' : Option T} {v : T}
    (h : OBnd lo v hi) (h1 : lbLe lo' lo) (h2 : ubLe hi hi') :
    OBnd lo' v hi' := by
  obtain ⟨ha, hb⟩ := h
  constructor
  · intro x hx
    cases lo' with
    | none => exact absurd hx (by simp)
    | some x' =>
        cases lo with
        | none => exact absurd h1 (by simp [lbLe])
        | some y =>
            have hxx : x' = x := by simpa using hx
            subst hxx
            exact lt_of_le_of_lt h1 (ha y rfl)
  · intro y hy
    cases hi' with
    | none => exact absurd hy (by simp)
    | some y' =>
        cases hi with
        | none => exact absurd h2 (by simp [ubLe])
        | some z =>
            have hyy : y' = y := by simpa using hy
            subst hyy
            exact lt_of_lt_of_le (hb z rfl) h2

theorem BSTB.mono_bstb {lo hi lo' hi' : Option T} {t : BTree T}
    (h : BSTB lo hi t) (h1 : lbLe lo' lo) (h2 : ubLe hi hi') :
    BSTB lo' hi' t := by
  induction t generalizing lo hi lo' hi' with
  | leaf => trivial
  | node l v r ihl ihr =>
      obtain ⟨hv, hl, hr⟩ := h
      exact ⟨hv.mono_bnd h1 h2, ihl hl h1 (ubLe_refl _), ihr hr (lbLe_refl _) h2⟩

theorem BSTB.mem_bounds {lo hi : Option T} {t : BTree T}
    (h : BSTB lo hi t) : ∀ x ∈ t.values, OBnd lo x hi := by
  induction t generalizing lo hi with
  | leaf => intro x hx; exact absurd hx (by simp [BTree.values])
  | node l v r ihl ihr =>
      obtain ⟨hv, hl, hr⟩ := h
      intro x hx
      rcases List.mem_append.1 hx with hx | hx
      · exact (ihl hl x hx).mono_bnd (lbLe_refl _) (by
          cases hi with
          | none => simp [ubLe]
          | some u => exact (hv.2 u rfl).le)
      · rcases List.mem_cons.1 hx with hx | hx
        · subst hx; exact hv
        · exact (ihr hr x hx).mono_bnd (by
            cases lo with
            | none => simp [lbLe]
            | some u => exact (hv.1 u rfl).le) (ubLe_refl _)

/-- Filling a hole with an in-bounds BST subtree yields a BST. -/
theorem Path.bstb_fill {q : Path T} {lo hi : Option T} {b : BTree T}
    (hok : Path.Ok lo hi q)
    (hb : BSTB (q.holeBounds (lo, hi)).1 (q.holeBounds (lo, hi)).2 b) :
    BSTB lo hi (q.fill b) := by
  induction q generalizing lo hi with
  | here => exact hb
  | left v r rest ih =>
      obtain ⟨hv, hr, hrest⟩ := hok
      exact ⟨hv, ih hrest hb, hr⟩
  | right l v rest ih =>
      obtain ⟨hv, hl, hrest⟩ := hok
      exact ⟨hv, hl, ih hrest hb⟩

/-- Conversely, a BST filled tree decomposes into an ordered path and an
in-bounds BST subtree. -/
theorem Path.bstb_fill_inv {q : Path T} {lo hi : Option T} {b : BTree T}
    (h : BSTB lo hi (q.fill b)) :
    Path.Ok lo hi q ∧
      BSTB (q.holeBounds (lo, hi)).1 (q.holeBounds (lo, hi)).2 b := by
  induction q generalizing lo hi with
  | here => exact ⟨trivial, h⟩
  | left v r rest ih =>
      obtain ⟨hv, hfl, hr⟩ := h
      rcases ih hfl with ⟨hok, hb⟩
      exact ⟨⟨hv, hr, hok⟩, hb⟩
  | right l v rest ih =>
      obtain ⟨hv, hl, hfr⟩ := h
      rcases ih hfr with ⟨hok, hb⟩
      exact ⟨⟨hv, hl, hok⟩, hb⟩

/-- The hole interval is nested inside the outer interval. -/
theorem Path.holeBounds_nest {q : Path T} {lo hi : Option T}
    (hok : Path.Ok lo hi q) :
    lbLe lo (q.holeBounds (lo, hi)).1 ∧ ubLe (q.holeBounds (lo, hi)).2 hi := by
  induction q generalizing lo hi with
  | here => exact ⟨lbLe_refl _, ubLe_refl _⟩
  | left v r rest ih =>
      obtain ⟨hv, _, hrest⟩ := hok
      rcases ih hrest with ⟨h1, h2⟩
      refine ⟨h1, ubLe_trans h2 ?_⟩
      cases hi with
      | none => simp [ubLe]
      | some u => exact (hv.2 u rfl).le
  | right l v rest ih =>
      obtain ⟨hv, _, hrest⟩ := hok
      rcases ih hrest with ⟨h1, h2⟩
      refine ⟨lbLe_trans ?_ h1, h2⟩
      cases lo with
      | none => simp [lbLe]
      | some u => exact (hv.1 u rfl).le

/-- Values of a filled tree are the path values plus the subtree values. -/
theorem Path.values_fill_perm (q : Path T) (b : BTree T) :
    (q.fill b).values.Perm (q.values ++ b.values) := by
  induction q with
  | here => simp [Path.fill, Path.values]
  | left v r rest ih =>
      show ((rest.fill b).values ++ v :: r.values).Perm
        ((rest.values ++ v :: r.values) ++ b.values)
      have h1 : ((rest.fill b).values ++ (v :: r.values)).Perm
          ((rest.values ++ b.values) ++ (v :: r.values)) :=
        ih.append_right _
      have h2 : ((rest.values ++ b.values) ++ (v :: r.values)).Perm
          ((rest.values ++ (v :: r.values)) ++ b.values) := by
        rw [List.append_assoc, List.append_assoc]
        exact (@List.perm_append_comm _ b.values (v :: r.values)).append_left rest.values
      exact h1.trans h2
  | right l v rest ih =>
      show (l.values ++ v :: (rest.fill b).values).Perm
        ((l.values ++ v :: rest.values) ++ b.values)
      have h1 : (l.values ++ (v :: (rest.fill b).values)).Perm
          (l.values ++ (v :: (rest.values ++ b.values))) :=
        (ih.cons v).append_left l.values
      have h2 : l.values ++ (v :: (rest.values ++ b.values)) =
          (l.values ++ v :: rest.values) ++ b.values := by
        simp
      rw [h2] at h1
      exact h1

/-- A value strictly inside the hole interval does not occur outside the
hole. -/
theorem Path.not_mem_of_hole_bounds {q : Path T} {lo hi : Option T} {x : T}
    (hok : Path.Ok lo hi q)
    (hx : OBnd (q.holeBounds (lo, hi)).1 x (q.holeBounds (lo, hi)).2) :
    x ∉ q.values := by
  induction q generalizing lo hi with
  | here => simp [Path.values]
  | left v r rest ih =>
      obtain ⟨hv, hr, hrest⟩ := hok
      have hx2 : OBnd (rest.holeBounds (lo, some v)).1 x
          (rest.holeBounds (lo, some v)).2 := hx
      have hxlt : x < v := by
        rcases (Path.holeBounds_nest hrest) with ⟨_, h2⟩
        rcases hub : (rest.holeBounds (lo, some v)).2 with _ | u
        · rw [hub] at h2; exact absurd h2 (by simp [ubLe])
        · have hxu : x < u := hx2.2 u (by rw [hub]; rfl)
          have huv : u ≤ v := by
            rw [hub] at h2; exact h2
          exact lt_of_lt_of_le hxu huv
      intro hmem
      rcases List.mem_append.1 hmem with hmem | hmem
      · exact ih hrest hx2 hmem
      · rcases List.mem_cons.1 hmem with hmem | hmem
        · exact absurd (hmem ▸ hxlt) (lt_irrefl v)
        · have := (hr.mem_bounds x hmem).1 v rfl
          exact absurd (this.trans hxlt) (lt_irrefl v)
  | right l v rest ih =>
      obtain ⟨hv, hl, hrest⟩ := hok
      have hx2 : OBnd (rest.holeBounds (some v, hi)).1 x
          (rest.holeBounds (some v, hi)).2 := hx
      have hxgt : v < x := by
        rcases (Path.holeBounds_nest hrest) with ⟨h1, _⟩
        rcases hlb : (rest.holeBounds (some v, hi)).1 with _ | u
        · rw [hlb] at h1; exact absurd h1 (by simp [lbLe])
        · have hux : u < x := hx2.1 u (by rw [hlb]; rfl)
          have hvu : v ≤ u := by
            rw [hlb] at h1; exact h1
          exact lt_of_le_of_lt hvu hux
      intro hmem
      rcases List.mem_append.1 hmem with hmem | hmem
      · have := (hl.mem_bounds x hmem).2 v rfl
        exact absurd (hxgt.trans this) (lt_irrefl v)
      · rcases List.mem_cons.1 hmem with hmem | hmem
        · exact absurd (hmem ▸ hxgt) (lt_irrefl v)
        · exact ih hrest hx2 hmem

/-- Along a right-only path, the value at the bottom node with empty right
child bounds every value of the filled tree from above. -/
theorem Path.le_max_of_fill_right {q : Path T} {lo hi : Option T}
    {tml : BTree T} {mv : T}
    (hro : q.rightOnly)
    (hb : BSTB lo hi (q.fill (BTree.node tml mv BTree.leaf))) :
    ∀ x ∈ (q.fill (BTree.node tml mv BTree.leaf)).values, x ≤ mv := by
  induction q generalizing lo hi with
  | here =>
      obtain ⟨hv, hl, _⟩ := hb
      intro x hx
      rcases List.mem_append.1 hx with hx | hx
      · exact ((hl.mem_bounds x hx).2 mv rfl).le
      · rcases List.mem_cons.1 hx with hx | hx
        · exact hx.le
        · exact absurd hx (by simp [BTree.values])
  | left v r rest ih => exact absurd hro (by simp [Path.rightOnly])
  | right l v rest ih =>
      obtain ⟨hv, hl, hfr⟩ := hb
      intro x hx
      have hmv : mv ∈ (rest.fill (BTree.node tml mv BTree.leaf)).values := by
        have := (Path.values_fill_perm rest (BTree.node tml mv BTree.leaf)).mem_iff
          (a := mv)
        rw [this]
        exact List.mem_append.2 (Or.inr (by simp [BTree.values]))
      have hvmv : v < mv := (hfr.mem_bounds mv hmv).1 v rfl
      rcases List.mem_append.1 hx with hx | hx
      · exact (((hl.mem_bounds x hx).2 v rfl).trans hvmv).le
      · rcases List.mem_cons.1 hx with hx | hx
        · subst hx; exact hvmv.le
        · exact ih hro hfr x hx

/-- Removing the bottom node of a right-only path and promoting its left
child keeps BST ordering, with the removed value as the new upper bound. -/
theorem Path.bstb_drop_max {q : Path T} {lo hi : Option T}
    {tml : BTree T} {mv : T}
    (hro : q.rightOnly)
    (hb : BSTB lo hi (q.fill (BTree.node tml mv BTree.leaf))) :
    BSTB lo (some mv) (q.fill tml) := by
  induction q generalizing lo hi with
  | here => exact hb.2.1
  | left v r rest ih => exact absurd hro (by simp [Path.rightOnly])
  | right l v rest ih =>
      obtain ⟨hv, hl, hfr⟩ := hb
      have hmv : mv ∈ (rest.fill (BTree.node tml mv BTree.leaf)).values := by
        have := (Path.values_fill_perm rest (BTree.node tml mv BTree.leaf)).mem_iff
          (a := mv)
        rw [this]
        exact List.mem_append.2 (Or.inr (by simp [BTree.values]))
      have hvmv : v < mv := (hfr.mem_bounds mv hmv).1 v rfl
      refine ⟨⟨hv.1, ?_⟩, hl, ih hro hfr⟩
      intro y hy
      have hyy : mv = y := by simpa using hy
      subst hyy
      exact hvmv

/-- The in-order value list of a BST is strictly increasing. -/
theorem BSTB.pairwise_lt {lo hi : Option T} {t : BTree T}
    (h : BSTB lo hi t) : t.values.Pairwise (· < ·) := by
  induction t generalizing lo hi with
  | leaf => simp [BTree.values]
  | node l v r ihl ihr =>
      obtain ⟨hv, hl, hr⟩ := h
      rw [BTree.values, List.pairwise_append]
      refine ⟨ihl hl, ?_, ?_⟩
      · rw [List.pairwise_cons]
        exact ⟨fun y hy => (hr.mem_bounds y hy).1 v rfl, ihr hr⟩
      · intro x hx y hy
        have hxv : x < v := (hl.mem_bounds x hx).2 v rfl
        rcases List.mem_cons.1 hy with hy | hy
        · subst hy; exact hxv
        · exact hxv.trans ((hr.mem_bounds y hy).1 v rfl)

theorem BST.nodup_values {t : BTree T} (h : BST t) : t.values.Nodup :=
  (BSTB.pairwise_lt h).imp ne_of_lt

end Ordering

/-! ## Simulation of the search descent -/

theorem perm_cons_append_left {α : Type} {i : α} {sl sr sq sg : List α}
    (hperm : sl.Perm (sq ++ sg)) :
    (i :: (sl ++ sr)).Perm ((i :: (sq ++ sr)) ++ sg) := by
  have h1 : (sl ++ sr).Perm ((sq ++ sg) ++ sr) := hperm.append_right sr
  have h2 : ((sq ++ sg) ++ sr).Perm ((sq ++ sr) ++ sg) := by
    rw [List.append_assoc, List.append_assoc]
    exact (@List.perm_append_comm _ sg sr).append_left sq
  rw [List.cons_append]
  exact (h1.trans h2).cons i

theorem perm_cons_append_right {α : Type} {i : α} {sl sr sq sg : List α}
    (hperm : sr.Perm (sq ++ sg)) :
    (i :: (sl ++ sr)).Perm ((i :: (sl ++ sq)) ++ sg) := by
  have h1 : (sl ++ sr).Perm (sl ++ (sq ++ sg)) := hperm.append_left sl
  rw [List.cons_append, List.append_assoc]
  exact h1.cons i

section FindSpec

variable [LinearOrder T]

/-- Full characterisation of the search loop on a represented BST subtree:
it either finds the node holding the searched value, or stops at the node
owning the empty slot where the value would have to live. -/
theorem findValueFromFuel_spec {h : Heap T} {v : T} :
    ∀ {bt : BTree T} {p : Option Nat} {d : Dir} {i : Nat}
      {s : List Nat} {lo hi : Option T} {fuel : Nat},
      ReprNode h p d (some i) bt s → BSTB lo hi bt → OBnd lo v hi →
      bt.size < fuel →
      (∃ q hp hd g sq sg tl tr,
          Tree.findValueFromFuel h fuel i v = some (SearchResult.Found g) ∧
          bt = q.fill (BTree.node tl v tr) ∧
          ReprPath h p d (some i) q hp hd (some g) sq ∧
          ReprNode h hp hd (some g) (BTree.node tl v tr) sg ∧
          s.Perm (sq ++ sg)) ∨
      (∃ q j dj sq,
          Tree.findValueFromFuel h fuel i v =
            some (SearchResult.ClosestToValue j dj) ∧
          bt = q.fill BTree.leaf ∧
          ReprPath h p d (some i) q (some j) dj none sq ∧
          s.Perm sq ∧
          OBnd (q.holeBounds (lo, hi)).1 v (q.holeBounds (lo, hi)).2 ∧
          q ≠ Path.here) := by
  intro bt
  induction bt with
  | leaf =>
      intro p d i s lo hi fuel hrep
      rcases hrep.some_inv with ⟨_, _, _, _, _, _, _, hcontra, _⟩
      exact absurd hcontra (by simp)
  | node tl w tr ihl ihr =>
      intro p d i s lo hi fuel hrep hbst hv hfuel
      rcases hrep.some_inv with
        ⟨w0, l, r, tl0, tr0, sl, sr, hteq, hseq, hget, hl, hr⟩
      injection hteq with h1 h2 h3
      subst h1; subst h2; subst h3; subst hseq
      obtain ⟨hbw, hbl, hbr⟩ := hbst
      cases fuel with
      | zero => exact absurd hfuel (by simp)
      | succ f =>
          rcases lt_trichotomy v w with hlt | heq | hgt
          · -- descend left
            have hcmp : compare v w = Ordering.lt := compare_lt_iff_lt.2 hlt
            have hvb : OBnd lo v (some w) :=
              ⟨hv.1, fun y hy => by
                have hwy : w = y := by simpa using hy
                exact hwy ▸ hlt⟩
            cases hlc : l with
            | none =>
                subst hlc
                rcases hl.none_inv with ⟨htleaf, hsnil⟩
                subst htleaf; subst hsnil
                refine Or.inr ⟨Path.left w tr Path.here, i, Dir.Left,
                  i :: ([] ++ sr), ?_, ?_, ?_, ?_, ?_, ?_⟩
                · simp [Tree.findValueFromFuel, hget, hcmp]
                · simp [Path.fill]
                · exact ReprPath.left p d i w none r tr Path.here
                    (some i) Dir.Left none [] sr hget
                    (ReprPath.here _ _ _) hr
                · simp
                · exact hvb
                · simp
            | some lc =>
                subst hlc
                have hstep : Tree.findValueFromFuel h (f + 1) i v =
                    Tree.findValueFromFuel h f lc v := by
                  simp [Tree.findValueFromFuel, hget, hcmp]
                have hfl : tl.size < f := by
                  have hsz : (BTree.node tl w tr).size = tl.size + tr.size + 1 := rfl
                  omega
                rcases ihl hl hbl hvb hfl with
                  ⟨q, hp, hd, g, sq, sg, tl1, tr1, hfind, hfill, hpath,
                    hnode, hperm⟩ |
                  ⟨q, j, dj, sq, hfind, hfill, hpath, hperm, hob, hqne⟩
                · refine Or.inl ⟨Path.left w tr q, hp, hd, g,
                    i :: (sq ++ sr), sg, tl1, tr1, ?_, ?_, ?_, hnode, ?_⟩
                  · rw [hstep]; exact hfind
                  · simp [Path.fill, ← hfill]
                  · exact ReprPath.left p d i w (some lc) r tr q
                      hp hd (some g) sq sr hget hpath hr
                  · exact perm_cons_append_left hperm
                · refine Or.inr ⟨Path.left w tr q, j, dj,
                    i :: (sq ++ sr), ?_, ?_, ?_, ?_, hob, ?_⟩
                  · rw [hstep]; exact hfind
                  · simp [Path.fill, ← hfill]
                  · exact ReprPath.left p d i w (some lc) r tr q
                      (some j) dj none sq sr hget hpath hr
                  · exact (hperm.append_right sr).cons i
                  · simp
          · -- value found here
            subst heq
            have hcmp : compare v v = Ordering.eq := compare_eq_iff_eq.2 rfl
            refine Or.inl ⟨Path.here, p, d, i, [], i :: (sl ++ sr), tl, tr,
              ?_, rfl, ReprPath.here p d (some i), ?_, by simp⟩
            · simp [Tree.findValueFromFuel, hget, hcmp]
            · exact ReprNode.node p d i v l r tl tr sl sr hget hl hr
          · -- descend right
            have hcmp : compare v w = Ordering.gt := compare_gt_iff_gt.2 hgt
            have hvb : OBnd (some w) v hi :=
              ⟨fun y hy => by
                have hwy : w = y := by simpa using hy
                exact hwy ▸ hgt, hv.2⟩
            cases hrc : r with
            | none =>
                subst hrc
                rcases hr.none_inv with ⟨htleaf, hsnil⟩
                subst htleaf; subst hsnil
                refine Or.inr ⟨Path.right tl w Path.here, i, Dir.Right,
                  i :: (sl ++ []), ?_, ?_, ?_, ?_, ?_, ?_⟩
                · simp [Tree.findValueFromFuel, hget, hcmp]
                · simp [Path.fill]
                · exact ReprPath.right p d i w l none tl Path.here
                    (some i) Dir.Right none sl [] hget
                    hl (ReprPath.here _ _ _)
                · simp
                · exact hvb
                · simp
            | some rc =>
                subst hrc
                have hstep : Tree.findValueFromFuel h (f + 1) i v =
                    Tree.findValueFromFuel h f rc v := by
                  simp [Tree.findValueFromFuel, hget, hcmp]
                have hfr : tr.size < f := by
                  have hsz : (BTree.node tl w tr).size = tl.size + tr.size + 1 := rfl
                  omega
                rcases ihr hr hbr hvb hfr with
                  ⟨q, hp, hd, g, sq, sg, tl1, tr1, hfind, hfill, hpath,
                    hnode, hperm⟩ |
                  ⟨q, j, dj, sq, hfind, hfill, hpath, hperm, hob, hqne⟩
                · refine Or.inl ⟨Path.right tl w q, hp, hd, g,
                    i :: (sl ++ sq), sg, tl1, tr1, ?_, ?_, ?_, hnode, ?_⟩
                  · rw [hstep]; exact hfind
                  · simp [Path.fill, ← hfill]
                  · exact ReprPath.right p d i w l (some rc) tl q
                      hp hd (some g) sl sq hget hl hpath
                  · exact perm_cons_append_right hperm
                · refine Or.inr ⟨Path.right tl w q, j, dj,
                    i :: (sl ++ sq), ?_, ?_, ?_, ?_, hob, ?_⟩
                  · rw [hstep]; exact hfind
                  · simp [Path.fill, ← hfill]
                  · exact ReprPath.right p d i w l (some rc) tl q
                      (some j) dj none sl sq hget hl hpath
                  · exact (hperm.append_left sl).cons i
                  · simp

/-- Top-level characterisation of Tree::find_value_from on an invariant
state. -/
theorem findValueFrom_spec {h : Heap T} {root : Option Nat} {bt : BTree T}
    {s : List Nat} (v : T)
    (hrep : ReprNode h none Dir.NoParent root bt s) (hnd : s.Nodup)
    (hbst : BST bt) :
    (Tree.findValueFrom h root v = some SearchResult.TreeEmpty ∧
      root = none ∧ bt = BTree.leaf) ∨
    (∃ q hp hd g sq sg tl tr,
        Tree.findValueFrom h root v = some (SearchResult.Found g) ∧
        bt = q.fill (BTree.node tl v tr) ∧
        ReprPath h none Dir.NoParent root q hp hd (some g) sq ∧
        ReprNode h hp hd (some g) (BTree.node tl v tr) sg ∧
        s.Perm (sq ++ sg) ∧ v ∈ bt.values) ∨
    (∃ q j dj sq,
        Tree.findValueFrom h root v =
          some (SearchResult.ClosestToValue j dj) ∧
        bt = q.fill BTree.leaf ∧
        ReprPath h none Dir.NoParent root q (some j) dj none sq ∧
        s.Perm sq ∧
        OBnd (q.holeBounds ((none : Option T), (none : Option T))).1 v
          (q.holeBounds ((none : Option T), (none : Option T))).2 ∧
        q ≠ Path.here ∧ (dj = Dir.Left ∨ dj = Dir.Right) ∧
        v ∉ bt.values) := by
  cases root with
  | none =>
      rcases hrep.none_inv with ⟨ht, hs⟩
      exact Or.inl ⟨rfl, rfl, ht⟩
  | some r0 =>
      have hfuel : bt.size < h.size + 1 :=
        Nat.lt_succ_of_le (hrep.size_le hnd)
      have hob : OBnd (none : Option T) v (none : Option T) := by
        constructor <;> intro x hx <;> exact absurd hx (by simp)
      rcases findValueFromFuel_spec hrep hbst hob hfuel with
        ⟨q, hp, hd, g, sq, sg, tl, tr, hfind, hfill, hpath, hnode, hperm⟩ |
        ⟨q, j, dj, sq, hfind, hfill, hpath, hperm, hobh, hqne⟩
      · refine Or.inr (Or.inl ⟨q, hp, hd, g, sq, sg, tl, tr, hfind, hfill,
          hpath, hnode, hperm, ?_⟩)
        rw [hfill, (Path.values_fill_perm q _).mem_iff]
        exact List.mem_append.2 (Or.inr (by simp [BTree.values]))
      · refine Or.inr (Or.inr ⟨q, j, dj, sq, hfind, hfill, hpath, hperm,
          hobh, hqne, ?_, ?_⟩)
        · rcases hpath.hole_cases with ⟨hq0, _, _, _, _⟩ | ⟨_, _, _, _, _, hsl⟩
          · exact absurd hq0 hqne
          · rcases hsl with ⟨hdj, _⟩ | ⟨hdj, _⟩
            · exact Or.inl hdj
            · exact Or.inr hdj
        · intro hmem
          rw [hfill, (Path.values_fill_perm q _).mem_iff] at hmem
          rcases List.mem_append.1 hmem with hmem | hmem
          · have hok := (Path.bstb_fill_inv (hfill ▸ hbst)).1
            exact Path.not_mem_of_hole_bounds hok hobh hmem
          · exact absurd hmem (by simp [BTree.values])

/-- Values in a represented state are exactly those contains reports. -/
theorem contains_spec {h : Heap T} {root : Option Nat} {bt : BTree T}
    {s : List Nat} (v : T)
    (hrep : ReprNode h none Dir.NoParent root bt s) (hnd : s.Nodup)
    (hbst : BST bt) :
    Tree.contains ⟨h, root⟩ v = some (decide (v ∈ bt.values)) := by
  rcases findValueFrom_spec v hrep hnd hbst with
    ⟨hfind, hroot, hbt⟩ |
    ⟨q, hp, hd, g, sq, sg, tl, tr, hfind, hfill, hpath, hnode, hperm, hmem⟩ |
    ⟨q, j, dj, sq, hfind, hfill, hpath, hperm, hobh, hqne, hdj, hnmem⟩
  · subst hbt
    simp [Tree.contains, hfind, BTree.values]
  · simp [Tree.contains, hfind, hmem]
  · simp [Tree.contains, hfind, hnmem]

/-! ## Simulation of Tree::add -/

/-- Full characterisation of Tree::add on an invariant state: a present value
is rejected with the state untouched; an absent value is planted as a fresh
leaf in the empty slot the descent reached, preserving the invariant. -/
theorem add_sim {h : Heap T} {root : Option Nat} {bt : BTree T} {s : List Nat}
    (v : T) (hrep : ReprNode h none Dir.NoParent root bt s) (hnd : s.Nodup)
    (hbst : BST bt) :
    (v ∈ bt.values ∧ Tree.add ⟨h, root⟩ v = some (false, ⟨h, root⟩)) ∨
    (v ∉ bt.values ∧ ∃ t' bt' s',
        Tree.add ⟨h, root⟩ v = some (true, t') ∧
        ReprNode t'.heap none Dir.NoParent t'.root bt' s' ∧
        s'.Nodup ∧ BST bt' ∧ bt'.values.Perm (v :: bt.values) ∧
        t'.heap.size = h.size + 1 ∧
        ((root = none ∧ t'.root = some h.size ∧
            t'.heap.get? h.size = some (Node.mkNew v)) ∨
         (∃ j dj nj, t'.root = root ∧
            Tree.findValueFrom h root v =
              some (SearchResult.ClosestToValue j dj) ∧
            h.get? j = some nj ∧
            ((dj = Dir.Left ∧ nj.left = none ∧
                t'.heap.get? h.size =
                  some ⟨v, some j, Dir.Left, none, none⟩ ∧
                t'.heap.get? j = some { nj with left := some h.size }) ∨
             (dj = Dir.Right ∧ nj.right = none ∧
                t'.heap.get? h.size =
                  some ⟨v, some j, Dir.Right, none, none⟩ ∧
                t'.heap.get? j =
                  some { nj with right := some h.size }))))) := by
  rcases findValueFrom_spec v hrep hnd hbst with
    ⟨hfind, hroot, hbt⟩ |
    ⟨q, hp, hd, g, sq, sg, tl, tr, hfind, hfill, hpath, hnode, hperm, hmem⟩ |
    ⟨q, j, dj, sq, hfind, hfill, hpath, hperm, hobh, hqne, hdj, hnmem⟩
  · -- empty tree: the new node becomes the root
    subst hroot; subst hbt
    refine Or.inr ⟨by simp [BTree.values], ⟨(h.alloc (Node.mkNew v)).1,
      some h.size⟩, BTree.node BTree.leaf v BTree.leaf, [h.size], ?_, ?_, ?_,
      ?_, ?_, ?_, Or.inl ⟨rfl, rfl, Heap.get?_alloc_self h _⟩⟩
    · simp [Tree.add, hfind, Node.newInHeap, Heap.alloc, Heap.size]
    · refine ReprNode.node none Dir.NoParent h.size v none none
        BTree.leaf BTree.leaf [] [] ?_ (ReprNode.leaf _ _) (ReprNode.leaf _ _)
      exact Heap.get?_alloc_self h _
    · simp
    · exact ⟨⟨by simp, by simp⟩, trivial, trivial⟩
    · simp [BTree.values]
    · exact Heap.size_alloc h _
  · -- value already present
    exact Or.inl ⟨hmem, by simp [Tree.add, hfind]⟩
  · -- absent value: spawn a leaf at the reached empty slot
    -- the hole parent node
    rcases hpath.hole_cases with ⟨hq0, _, _, _, _⟩ |
      ⟨j0, nj, hj0, hjs, hgn, hslot⟩
    · exact absurd hq0 hqne
    have hjj : j = j0 := Option.some.inj hj0
    subst hjj
    have hjlt : j < h.size := Heap.lt_size_of_get? hgn
    have hchildnotin : h.size ∉ sq := fun hc =>
      absurd (hpath.mem_lt_size_path h.size hc) (by simp)
    have hjne : j ≠ h.size := Nat.ne_of_lt hjlt
    have hndq : sq.Nodup := hperm.nodup_iff.1 hnd
    -- common pieces
    have hok : Path.Ok (none : Option T) none q :=
      (Path.bstb_fill_inv (hfill ▸ hbst)).1
    have hvalperm : ∀ bt' : BTree T,
        bt' = q.fill (BTree.node BTree.leaf v BTree.leaf) →
        bt'.values.Perm (v :: bt.values) := by
      intro bt' hbt'
      subst hbt'
      have h1 := Path.values_fill_perm q (BTree.node BTree.leaf v BTree.leaf)
      have h2 := Path.values_fill_perm q (BTree.leaf (T := T))
      have h3 : (BTree.node BTree.leaf v BTree.leaf).values = [v] := by
        simp [BTree.values]
      rw [h3] at h1
      have h4 : (q.values ++ [v]).Perm (v :: q.values) :=
        List.perm_append_comm
      have h5 : (v :: q.values).Perm (v :: bt.values) := by
        refine List.Perm.cons v ?_
        rw [hfill]
        simpa [BTree.values] using h2.symm
      exact (h1.trans h4).trans h5
    have hbst' : BST (q.fill (BTree.node BTree.leaf v BTree.leaf)) := by
      refine Path.bstb_fill hok ?_
      exact ⟨hobh, trivial, trivial⟩
    rcases hdj with hdjL | hdjR
    · -- left slot
      subst hdjL
      rcases hslot with ⟨_, hleft⟩ | ⟨hcontra, _⟩
      swap
      · exact absurd hcontra (by simp)
      -- heap after the spawn
      have hnjleft : nj.left = none := hleft
      set h1 : Heap T := (h.alloc (Node.mkNew v)).1 with hh1
      have hj1 : h1.get? j = some nj :=
        (Heap.get?_alloc_lt h _ hjlt).trans hgn
      set h2 : Heap T := h1.set j { nj with left := some h.size } with hh2
      have hchild2 : h2.get? h.size = some (Node.mkNew v) := by
        rw [hh2, Heap.get?_set_ne h1 _ hjne, hh1]
        exact Heap.get?_alloc_self h _
      set h3 : Heap T := h2.set h.size ⟨v, some j, Dir.Left, none, none⟩
        with hh3
      have hspawn : Node.spawnLeftChild h j v = some h3 := by
        simp [Node.spawnLeftChild, Node.newInHeap, Node.setParent,
          Heap.alloc_snd, ← hh1, hj1, ← hh2, hchild2, ← hh3]
        rfl
      have hadd : Tree.add ⟨h, root⟩ v = some (true, ⟨h3, root⟩) := by
        simp [Tree.add, hfind, hspawn]
      -- representation in the new heap
      have hpath3 : ReprPath h3 none Dir.NoParent root q (some j) Dir.Left
          (some h.size) sq := by
        have hw := ((hpath.write_slot (some h.size) rfl hndq hqne hgn).1) rfl
        refine hw.mono_path ?_
        intro k hk
        by_cases hkj : k = j
        · subst hkj
          rw [hh3, Heap.get?_set_ne h2 _ (Ne.symm hjne), hh2,
            Heap.get?_set_self h1 _ (by rw [hh1, Heap.size_alloc]; omega),
            Heap.get?_set_self h _ hjlt]
        · have hklt : k < h.size := hpath.mem_lt_size_path k hk
          rw [hh3, Heap.get?_set_ne h2 _ (Ne.symm (Nat.ne_of_lt hklt)), hh2,
            Heap.get?_set_ne h1 _ (fun he => hkj he.symm), hh1,
            Heap.get?_alloc_lt h _ hklt,
            Heap.get?_set_ne h _ (fun he => hkj he.symm)]
      have hnew3 : ReprNode h3 (some j) Dir.Left (some h.size)
          (BTree.node BTree.leaf v BTree.leaf) [h.size] := by
        refine ReprNode.node (some j) Dir.Left h.size v none none
          BTree.leaf BTree.leaf [] [] ?_ (ReprNode.leaf _ _) (ReprNode.leaf _ _)
        rw [hh3]
        refine Heap.get?_set_self h2 _ ?_
        rw [hh2, Heap.size_set, hh1, Heap.size_alloc]
        omega
      rcases hpath3.fill_repr hnew3 with ⟨s', hrep', hperm'⟩
      refine Or.inr ⟨hnmem, ⟨h3, root⟩, _, s', hadd, hrep', ?_, hbst',
        hvalperm _ rfl, ?_, Or.inr ⟨j, Dir.Left, nj, rfl, hfind, hgn,
          Or.inl ⟨rfl, hnjleft, ?_, ?_⟩⟩⟩
      · refine hperm'.nodup_iff.2 ?_
        rw [List.nodup_append]
        exact ⟨hndq, by simp, by
          intro a ha hb
          have : a = h.size := by simpa using hb
          exact hchildnotin (this ▸ ha)⟩
      · rw [hh3, Heap.size_set, hh2, Heap.size_set, hh1, Heap.size_alloc]
      · rw [hh3]
        refine Heap.get?_set_self h2 _ ?_
        rw [hh2, Heap.size_set, hh1, Heap.size_alloc]
        omega
      · rw [hh3, Heap.get?_set_ne h2 _ (Ne.symm hjne), hh2,
          Heap.get?_set_self h1 _ (by rw [hh1, Heap.size_alloc]; omega)]
    · -- right slot
      subst hdjR
      rcases hslot with ⟨hcontra, _⟩ | ⟨_, hright⟩
      · exact absurd hcontra (by simp)
      have hnjright : nj.right = none := hright
      set h1 : Heap T := (h.alloc (Node.mkNew v)).1 with hh1
      have hj1 : h1.get? j = some nj :=
        (Heap.get?_alloc_lt h _ hjlt).trans hgn
      set h2 : Heap T := h1.set j { nj with right := some h.size } with hh2
      have hchild2 : h2.get? h.size = some (Node.mkNew v) := by
        rw [hh2, Heap.get?_set_ne h1 _ hjne, hh1]
        exact Heap.get?_alloc_self h _
      set h3 : Heap T := h2.set h.size ⟨v, some j, Dir.Right, none, none⟩
        with hh3
      have hspawn : Node.spawnRightChild h j v = some h3 := by
        simp [Node.spawnRightChild, Node.newInHeap, Node.setParent,
          Heap.alloc_snd, ← hh1, hj1, ← hh2, hchild2, ← hh3]
        rfl
      have hadd : Tree.add ⟨h, root⟩ v = some (true, ⟨h3, root⟩) := by
        simp [Tree.add, hfind, hspawn]
      have hpath3 : ReprPath h3 none Dir.NoParent root q (some j) Dir.Right
          (some h.size) sq := by
        have hw := ((hpath.write_slot (some h.size) rfl hndq hqne hgn).2) rfl
        refine hw.mono_path ?_
        intro k hk
        by_cases hkj : k = j
        · subst hkj
          rw [hh3, Heap.get?_set_ne h2 _ (Ne.symm hjne), hh2,
            Heap.get?_set_self h1 _ (by rw [hh1, Heap.size_alloc]; omega),
            Heap.get?_set_self h _ hjlt]
        · have hklt : k < h.size := hpath.mem_lt_size_path k hk
          rw [hh3, Heap.get?_set_ne h2 _ (Ne.symm (Nat.ne_of_lt hklt)), hh2,
            Heap.get?_set_ne h1 _ (fun he => hkj he.symm), hh1,
            Heap.get?_alloc_lt h _ hklt,
            Heap.get?_set_ne h _ (fun he => hkj he.symm)]
      have hnew3 : ReprNode h3 (some j) Dir.Right (some h.size)
          (BTree.node BTree.leaf v BTree.leaf) [h.size] := by
        refine ReprNode.node (some j) Dir.Right h.size v none none
          BTree.leaf BTree.leaf [] [] ?_ (ReprNode.leaf _ _) (ReprNode.leaf _ _)
        rw [hh3]
        refine Heap.get?_set_self h2 _ ?_
        rw [hh2, Heap.size_set, hh1, Heap.size_alloc]
        omega
      rcases hpath3.fill_repr hnew3 with ⟨s', hrep', hperm'⟩
      refine Or.inr ⟨hnmem, ⟨h3, root⟩, _, s', hadd, hrep', ?_, hbst',
        hvalperm _ rfl, ?_, Or.inr ⟨j, Dir.Right, nj, rfl, hfind, hgn,
          Or.inr ⟨rfl, hnjright, ?_, ?_⟩⟩⟩
      · refine hperm'.nodup_iff.2 ?_
        rw [List.nodup_append]
        exact ⟨hndq, by simp, by
          intro a ha hb
          have : a = h.size := by simpa using hb
          exact hchildnotin (this ▸ ha)⟩
      · rw [hh3, Heap.size_set, hh2, Heap.size_set, hh1, Heap.size_alloc]
      · rw [hh3]
        refine Heap.get?_set_self h2 _ ?_
        rw [hh2, Heap.size_set, hh1, Heap.size_alloc]
        omega
      · rw [hh3, Heap.get?_set_ne h2 _ (Ne.symm hjne), hh2,
          Heap.get?_set_self h1 _ (by rw [hh1, Heap.size_alloc]; omega)]

end FindSpec

/-! ## Simulation of the greatest-descendant search and extraction -/

/-- The loop of Node::find_greatest_node_from walks the right spine of a
represented subtree to its bottom node and returns it together with the spine
decomposition of the subtree. -/
theorem findGreatestFuel_go {h : Heap T} :
    ∀ {tr : BTree T} {pp c : Nat} {sc : List Nat} {fuel : Nat}
      (prev : Option Nat),
      ReprNode h (some pp) Dir.Right (some c) tr sc →
      tr.size ≤ fuel →
      ∃ qR pm m mv oml tml sqR sml,
        Node.findGreatestFuel h fuel prev (some c) = some (some m) ∧
        tr = qR.fill (BTree.node tml mv BTree.leaf) ∧
        qR.rightOnly ∧
        ReprPath h (some pp) Dir.Right (some c) qR
          (some pm) Dir.Right (some m) sqR ∧
        h.get? m = some ⟨mv, some pm, Dir.Right, oml, none⟩ ∧
        ReprNode h (some m) Dir.Left oml tml sml ∧
        sc.Perm (sqR ++ m :: sml) := by
  intro tr
  induction tr with
  | leaf =>
      intro pp c sc fuel prev hrep
      rcases hrep.some_inv with ⟨_, _, _, _, _, _, _, hcontra, _⟩
      exact absurd hcontra (by simp)
  | node tl1 w1 tr1 ihl ihr =>
      intro pp c sc fuel prev hrep hfuel
      rcases hrep.some_inv with
        ⟨w0, l1, r1, tl0, tr0, sl1, sr1, hteq, hseq, hget, hl, hr⟩
      injection hteq with he1 he2 he3
      subst he1; subst he2; subst he3; subst hseq
      have hsz : (BTree.node tl1 w1 tr1).size = tl1.size + tr1.size + 1 := rfl
      cases fuel with
      | zero => exact absurd hfuel (by omega)
      | succ f =>
          have hstep : Node.findGreatestFuel h (f + 1) prev (some c) =
              Node.findGreatestFuel h f (some c) r1 := by
            simp [Node.findGreatestFuel, hget]
          cases hr1 : r1 with
          | none =>
              subst hr1
              rcases hr.none_inv with ⟨htleaf, hsnil⟩
              subst htleaf; subst hsnil
              refine ⟨Path.here, pp, c, w1, l1, tl1, [], sl1, ?_, by
                simp [Path.fill], trivial, ReprPath.here _ _ _, hget, hl, ?_⟩
              · rw [hstep]
                cases f <;> simp [Node.findGreatestFuel]
              · simp
          | some rc =>
              subst hr1
              have hfr : tr1.size ≤ f := by omega
              rcases ihr (some c) hr hfr with
                ⟨qR, pm, m, mv, oml, tml, sqR, sml, hfind, hfill, hro,
                  hpath, hgm, hml, hperm⟩
              refine ⟨Path.right tl1 w1 qR, pm, m, mv, oml, tml,
                c :: (sl1 ++ sqR), sml, ?_, ?_, hro, ?_, hgm, hml, ?_⟩
              · rw [hstep]; exact hfind
              · simp [Path.fill, ← hfill]
              · exact ReprPath.right (some pp) Dir.Right c w1 l1 (some rc)
                  tl1 qR (some pm) Dir.Right (some m) sl1 sqR hget hl hpath
              · exact perm_cons_append_right hperm

/-- Node::find_greatest_node_from on a represented subtree: none exactly when
the subtree root has no right child, otherwise the bottom of the right spine
together with the spine decomposition of the whole subtree. -/
theorem findGreatest_spec {h : Heap T} {P : Option Nat} {D : Dir} {i : Nat}
    {t : BTree T} {s : List Nat}
    (hrep : ReprNode h P D (some i) t s) (hnd : s.Nodup) :
    ∃ tl0 w0 tr0 l0 r0 sl0 sr0,
      t = BTree.node tl0 w0 tr0 ∧
      h.get? i = some ⟨w0, P, D, l0, r0⟩ ∧
      ReprNode h (some i) Dir.Left l0 tl0 sl0 ∧
      ReprNode h (some i) Dir.Right r0 tr0 sr0 ∧
      s = i :: (sl0 ++ sr0) ∧
      ((r0 = none ∧ tr0 = BTree.leaf ∧
          Node.findGreatestNodeFrom h i = some none) ∨
       (∃ qFull pm m mv oml tml sqF sml,
          Node.findGreatestNodeFrom h i = some (some m) ∧
          t = qFull.fill (BTree.node tml mv BTree.leaf) ∧
          qFull.rightOnly ∧ qFull ≠ Path.here ∧
          ReprPath h P D (some i) qFull (some pm) Dir.Right (some m) sqF ∧
          h.get? m = some ⟨mv, some pm, Dir.Right, oml, none⟩ ∧
          ReprNode h (some m) Dir.Left oml tml sml ∧
          s.Perm (sqF ++ m :: sml) ∧ m ≠ i)) := by
  rcases hrep.some_inv with
    ⟨w0, l0, r0, tl0, tr0, sl0, sr0, hteq, hseq, hget, hl, hr⟩
  subst hteq; subst hseq
  refine ⟨tl0, w0, tr0, l0, r0, sl0, sr0, rfl, hget, hl, hr, rfl, ?_⟩
  cases hr0 : r0 with
  | none =>
      subst hr0
      rcases hr.none_inv with ⟨htleaf, hsnil⟩
      refine Or.inl ⟨rfl, htleaf, ?_⟩
      simp [Node.findGreatestNodeFrom, hget, Node.findGreatestFuel]
  | some c =>
      subst hr0
      have hfuel : tr0.size ≤ h.size := by
        have h1 : tr0.size ≤ (BTree.node tl0 w0 tr0).size := by
          simp [BTree.size]; omega
        exact h1.trans (hrep.size_le hnd)
      rcases findGreatestFuel_go none hr hfuel with
        ⟨qR, pm, m, mv, oml, tml, sqR, sml, hfind, hfill, hro,
          hpath, hgm, hml, hperm⟩
      have hmem : m ∈ sr0 := by
        rw [hperm.mem_iff]
        exact List.mem_append.2 (Or.inr (List.mem_cons_self _ _))
      have hmne : m ≠ i := by
        intro he
        have : i ∈ i :: (sl0 ++ sr0) := List.mem_cons_self _ _
        have hnodup := hnd
        rw [List.nodup_cons] at hnodup
        exact hnodup.1 (List.mem_append.2 (Or.inr (he ▸ hmem)))
      refine Or.inr ⟨Path.right tl0 w0 qR, pm, m, mv, oml, tml,
        i :: (sl0 ++ sqR), sml, ?_, ?_, hro, by simp, ?_, hgm, hml, ?_, hmne⟩
      · simp only [Node.findGreatestNodeFrom, hget, Option.bind_eq_bind,
          Option.some_bind]
        exact hfind
      · simp [Path.fill, ← hfill]
      · exact ReprPath.right P D i w0 l0 (some c) tl0 qR
          (some pm) Dir.Right (some m) sl0 sqR hget hl hpath
      · exact perm_cons_append_right hperm

/-- Node::extract_greatest_node_from on a represented subtree: it returns the
inner none exactly when the subtree root has no right child; otherwise it
detaches the bottom of the right spine as a childless orphan, promotes that
node's left child (or nothing) into the vacated slot, and the heap again
represents the subtree with the spine bottom removed. -/
theorem extract_sim {h : Heap T} {P : Option Nat} {D : Dir} {i : Nat}
    {t : BTree T} {s : List Nat}
    (hrep : ReprNode h P D (some i) t s) (hnd : s.Nodup) :
    (∃ n, h.get? i = some n ∧ n.right = none ∧
       Node.extractGreatestNodeFrom h i = some (h, none)) ∨
    (∃ hF m mv qFull tml s' pm npm oml,
       Node.extractGreatestNodeFrom h i = some (hF, some m) ∧
       t = qFull.fill (BTree.node tml mv BTree.leaf) ∧
       qFull.rightOnly ∧ qFull ≠ Path.here ∧
       ReprNode hF P D (some i) (qFull.fill tml) s' ∧
       s.Perm (m :: s') ∧ s'.Nodup ∧ m ∈ s ∧ m ≠ i ∧
       hF.get? m = some ⟨mv, none, Dir.NoParent, none, none⟩ ∧
       hF.size = h.size ∧
       (∀ k, k ∉ s → hF.get? k = h.get? k) ∧
       h.get? m = some ⟨mv, some pm, Dir.Right, oml, none⟩ ∧
       h.get? pm = some npm ∧ npm.right = some m ∧
       hF.get? pm = some { npm with right := oml } ∧
       pm ∈ s) := by
  rcases findGreatest_spec hrep hnd with
    ⟨tl0, w0, tr0, l0, r0, sl0, sr0, hteq, hgi, hl0, hr0, hseq, hcases⟩
  rcases hcases with ⟨hr0n, htr0, hfindG⟩ |
    ⟨qFull, pm, m, mv, oml, tml, sqF, sml, hfindG, hfill, hro, hqne,
      hqpath, hgm, hml, hperm, hmne⟩
  · -- no right child: find returns none, extract passes it through
    refine Or.inl ⟨⟨w0, P, D, l0, r0⟩, hgi, by simp [hr0n], ?_⟩
    simp [Node.extractGreatestNodeFrom, hfindG]
  · -- a right spine exists
    have hnds : (sqF ++ m :: sml).Nodup := hperm.nodup_iff.1 hnd
    have hmem_m : m ∈ s := hperm.mem_iff.2
      (List.mem_append.2 (Or.inr (List.mem_cons_self _ _)))
    have hdisj := List.disjoint_of_nodup_append hnds
    have hm_nmemF : m ∉ sqF := fun hc =>
      (hdisj hc (List.mem_cons_self _ _)).elim
    have hndF : sqF.Nodup := hnds.of_append_left
    have hndtail : (m :: sml).Nodup := hnds.of_append_right
    have hm_nmeml : m ∉ sml := (List.nodup_cons.1 hndtail).1
    have hndml : sml.Nodup := (List.nodup_cons.1 hndtail).2
    -- the hole parent of the spine path
    rcases hqpath.hole_cases with ⟨hq0, _, _, _, _⟩ |
      ⟨pm0, npm, hpm0, hpmF, hgpm, hslot⟩
    · exact absurd hq0 hqne
    have hpmeq : pm = pm0 := Option.some.inj hpm0
    subst hpmeq
    rcases hslot with ⟨hcontra, _⟩ | ⟨_, hpmright⟩
    · exact absurd hcontra (by simp)
    have hmem_pm : pm ∈ s := hperm.mem_iff.2
      (List.mem_append.2 (Or.inl hpmF))
    have hpm_ne_m : pm ≠ m := fun he => hm_nmemF (he ▸ hpmF)
    have hpm_nmeml : pm ∉ sml := fun hc =>
      (hdisj hpmF (List.mem_cons_of_mem _ hc)).elim
    -- frame targets
    have hsnodup' : (sqF ++ sml).Nodup := by
      refine List.Nodup.sublist ?_ hnds
      exact List.Sublist.append_left (List.sublist_cons_self m sml) sqF
    cases holm : oml with
    | some ml =>
        -- the spine bottom has a left child to promote
        subst holm
        rcases hml.some_inv with
          ⟨mlv, mll, mlr, tmll, tmlr, smll, smlr, htmleq, hsmleq,
            hgml, hmll, hmlr⟩
        have hml_in_sml : ml ∈ sml := by rw [hsmleq]; exact List.mem_cons_self _ _
        have hml_ne_m : ml ≠ m := fun he => hm_nmeml (he ▸ hml_in_sml)
        have hml_ne_pm : ml ≠ pm := fun he => hpm_nmeml (he ▸ hml_in_sml)
        have hmem_ml : ml ∈ s := hperm.mem_iff.2
          (List.mem_append.2 (Or.inr (List.mem_cons_of_mem _ hml_in_sml)))
        -- heap chain
        set h1 : Heap T := h.set m ⟨mv, some pm, Dir.Right, none, none⟩
          with hh1
        have hml1 : h1.get? ml = some ⟨mlv, some m, Dir.Left, mll, mlr⟩ := by
          rw [hh1, Heap.get?_set_ne h _ (fun he => hml_ne_m he.symm)]
          exact hgml
        set h2 : Heap T := h1.set ml ⟨mlv, none, Dir.NoParent, mll, mlr⟩
          with hh2
        have htake : Node.takeLeftChild h m = some (h2, some ml) := by
          simp [Node.takeLeftChild, hgm, Node.unsetParent, ← hh1, hml1, ← hh2]
        have hm2 : h2.get? m = some ⟨mv, some pm, Dir.Right, none, none⟩ := by
          rw [hh2, Heap.get?_set_ne h1 _ hml_ne_m, hh1,
            Heap.get?_set_self h _ (Heap.lt_size_of_get? hgm)]
        have hml2 : h2.get? ml = some ⟨mlv, none, Dir.NoParent, mll, mlr⟩ := by
          rw [hh2]
          exact Heap.get?_set_self h1 _
            (by rw [hh1, Heap.size_set]; exact Heap.lt_size_of_get? hgml)
        set h3 : Heap T := h2.set ml ⟨mlv, some pm, Dir.Right, mll, mlr⟩
          with hh3
        have hpm3 : h3.get? pm = some npm := by
          rw [hh3, Heap.get?_set_ne h2 _ hml_ne_pm, hh2,
            Heap.get?_set_ne h1 _ hml_ne_pm, hh1,
            Heap.get?_set_ne h _ (fun he => hpm_ne_m he.symm)]
          exact hgpm
        set h4 : Heap T := h3.set pm { npm with right := some ml } with hh4
        have hm4 : h4.get? m = some ⟨mv, some pm, Dir.Right, none, none⟩ := by
          rw [hh4, Heap.get?_set_ne h3 _ hpm_ne_m, hh3,
            Heap.get?_set_ne h2 _ hml_ne_m]
          exact hm2
        set h5 : Heap T := h4.set m ⟨mv, none, Dir.NoParent, none, none⟩
          with hh5
        have hlet : Node.letParentReplaceChildWith h2 m ml =
            some (h5, some pm) := by
          simp [Node.letParentReplaceChildWith, hm2,
            Node.replaceRightChildWith, Node.setParent, hml2, ← hh3,
            hpm3, hpmright, ← hh4, Node.unsetParent, hm4, ← hh5]
        have hextract : Node.extractGreatestNodeFrom h i =
            some (h5, some m) := by
          simp [Node.extractGreatestNodeFrom, hfindG, htake, hlet]
        -- final heap facts
        have hsz5 : h5.size = h.size := by
          rw [hh5, Heap.size_set, hh4, Heap.size_set, hh3, Heap.size_set,
            hh2, Heap.size_set, hh1, Heap.size_set]
        have hget5 : ∀ k, k ≠ m → k ≠ ml → k ≠ pm →
            h5.get? k = h.get? k := by
          intro k hkm hkml hkpm
          rw [hh5, Heap.get?_set_ne h4 _ (fun he => hkm he.symm), hh4,
            Heap.get?_set_ne h3 _ (fun he => hkpm he.symm), hh3,
            Heap.get?_set_ne h2 _ (fun he => hkml he.symm), hh2,
            Heap.get?_set_ne h1 _ (fun he => hkml he.symm), hh1,
            Heap.get?_set_ne h _ (fun he => hkm he.symm)]
        have hm5 : h5.get? m = some ⟨mv, none, Dir.NoParent, none, none⟩ := by
          rw [hh5]
          exact Heap.get?_set_self h4 _
            (by rw [hh4, Heap.size_set, hh3, Heap.size_set, hh2,
              Heap.size_set, hh1, Heap.size_set]
                exact Heap.lt_size_of_get? hgm)
        have hml5 : h5.get? ml = some ⟨mlv, some pm, Dir.Right, mll, mlr⟩ := by
          rw [hh5, Heap.get?_set_ne h4 _ hml_ne_m.symm, hh4,
            Heap.get?_set_ne h3 _ hml_ne_pm.symm, hh3]
          exact Heap.get?_set_self h2 _
            (by rw [hh2, Heap.size_set, hh1, Heap.size_set]
                exact Heap.lt_size_of_get? hgml)
        have hpm5 : h5.get? pm = some { npm with right := some ml } := by
          rw [hh5, Heap.get?_set_ne h4 _ hpm_ne_m.symm, hh4]
          exact Heap.get?_set_self h3 _
            (by rw [hh3, Heap.size_set, hh2, Heap.size_set, hh1,
              Heap.size_set]
                exact Heap.lt_size_of_get? hgpm)
        -- representation in the final heap
        have hpathF : ReprPath h5 P D (some i) qFull (some pm) Dir.Right
            (some ml) sqF := by
          have hw := ((hqpath.write_slot (some ml) rfl hndF hqne hgpm).2) rfl
          refine hw.mono_path ?_
          intro k hk
          by_cases hkpm : k = pm
          · subst hkpm
            rw [hpm5, Heap.get?_set_self h _ (Heap.lt_size_of_get? hgpm)]
          · have hkm : k ≠ m := fun he => hm_nmemF (he ▸ hk)
            have hkml : k ≠ ml := fun he =>
              (hdisj (he ▸ hk) (List.mem_cons_of_mem _ hml_in_sml)).elim
            rw [hget5 k hkm hkml hkpm,
              Heap.get?_set_ne h _ (fun he => hkpm he.symm)]
        have hsub5 : ReprNode h5 (some pm) Dir.Right (some ml) tml sml := by
          rcases hml.reparent hndml (some pm) Dir.Right with
            ⟨v', l', r', hget', hrep'⟩
          have hv' : (⟨mlv, some m, Dir.Left, mll, mlr⟩ : Node T) =
              ⟨v', some m, Dir.Left, l', r'⟩ :=
            Option.some.inj (hgml.symm.trans hget')
          injection hv' with e1 e2 e3 e4 e5
          subst e1; subst e4; subst e5
          refine hrep'.mono ?_
          intro k hk
          by_cases hkml : k = ml
          · subst hkml
            rw [hml5, Heap.get?_set_self h _ (Heap.lt_size_of_get? hgml)]
          · have hkm : k ≠ m := fun he => hm_nmeml (he ▸ hk)
            have hkpm : k ≠ pm := fun he => hpm_nmeml (he ▸ hk)
            rw [hget5 k hkm hkml hkpm,
              Heap.get?_set_ne h _ (fun he => hkml he.symm)]
        rcases hpathF.fill_repr hsub5 with ⟨s', hrepF, hpermF⟩
        refine Or.inr ⟨h5, m, mv, qFull, tml, s', pm, npm, some ml,
          hextract, hteq ▸ hfill, hro, hqne, hrepF, ?_, ?_, hmem_m, hmne,
          hm5, hsz5, ?_, hgm, hgpm, hpmright, hpm5, hmem_pm⟩
        · refine hperm.trans ?_
          refine List.Perm.trans ?_ ((hpermF.symm).cons m)
          exact List.perm_middle
        · exact hpermF.nodup_iff.2 hsnodup'
        · intro k hks
          have hkm : k ≠ m := fun he => hks (he ▸ hmem_m)
          have hkml : k ≠ ml := fun he => hks (he ▸ hmem_ml)
          have hkpm : k ≠ pm := fun he => hks (he ▸ hmem_pm)
          exact hget5 k hkm hkml hkpm
    | none =>
        -- the spine bottom is a leaf: simply detach it
        subst holm
        rcases hml.none_inv with ⟨html, hsml⟩
        subst html; subst hsml
        set h1 : Heap T := h.set pm { npm with right := none } with hh1
        have hm1 : h1.get? m = some ⟨mv, some pm, Dir.Right, none, none⟩ := by
          rw [hh1, Heap.get?_set_ne h _ hpm_ne_m]
          exact hgm
        set h2 : Heap T := h1.set m ⟨mv, none, Dir.NoParent, none, none⟩
          with hh2
        have htake : Node.takeLeftChild h m = some (h, none) := by
          simp [Node.takeLeftChild, hgm]
        have htcf : Node.takeChildFromParent h m = some h2 := by
          simp [Node.takeChildFromParent, hgm, Node.takeRightChild, hgpm,
            hpmright, Node.unsetParent, ← hh1, hm1, ← hh2]
        have hextract : Node.extractGreatestNodeFrom h i =
            some (h2, some m) := by
          simp [Node.extractGreatestNodeFrom, hfindG, htake, htcf]
        have hsz2 : h2.size = h.size := by
          rw [hh2, Heap.size_set, hh1, Heap.size_set]
        have hget2 : ∀ k, k ≠ m → k ≠ pm → h2.get? k = h.get? k := by
          intro k hkm hkpm
          rw [hh2, Heap.get?_set_ne h1 _ (fun he => hkm he.symm), hh1,
            Heap.get?_set_ne h _ (fun he => hkpm he.symm)]
        have hm2 : h2.get? m = some ⟨mv, none, Dir.NoParent, none, none⟩ := by
          rw [hh2]
          exact Heap.get?_set_self h1 _
            (by rw [hh1, Heap.size_set]; exact Heap.lt_size_of_get? hgm)
        have hpm2 : h2.get? pm = some { npm with right := none } := by
          rw [hh2, Heap.get?_set_ne h1 _ hpm_ne_m.symm, hh1]
          exact Heap.get?_set_self h _ (Heap.lt_size_of_get? hgpm)
        have hpathF : ReprPath h2 P D (some i) qFull (some pm) Dir.Right
            none sqF := by
          have hw := ((hqpath.write_slot none rfl hndF hqne hgpm).2) rfl
          refine hw.mono_path ?_
          intro k hk
          by_cases hkpm : k = pm
          · subst hkpm
            rw [hpm2, Heap.get?_set_self h _ (Heap.lt_size_of_get? hgpm)]
          · have hkm : k ≠ m := fun he => hm_nmemF (he ▸ hk)
            rw [hget2 k hkm hkpm,
              Heap.get?_set_ne h _ (fun he => hkpm he.symm)]
        rcases hpathF.fill_repr (ReprNode.leaf (h := h2) (some pm) Dir.Right)
          with ⟨s', hrepF, hpermF⟩
        refine Or.inr ⟨h2, m, mv, qFull, BTree.leaf, s', pm, npm, none,
          hextract, hteq ▸ hfill, hro, hqne, hrepF, ?_, ?_, hmem_m, hmne,
          hm2, hsz2, ?_, hgm, hgpm, hpmright, hpm2, hmem_pm⟩
        · refine hperm.trans ?_
          have hpermF' : s'.Perm sqF := by simpa using hpermF
          refine List.Perm.trans ?_ ((hpermF'.symm).cons m)
          simpa using (@List.perm_middle _ m sqF ([] : List Nat))
        · exact hpermF.nodup_iff.2 (by simpa using hndF)
        · intro k hks
          have hkm : k ≠ m := fun he => hks (he ▸ hmem_m)
          have hkpm : k ≠ pm := fun he => hks (he ▸ hmem_pm)
          exact hget2 k hkm hkpm

/-! ## Simulation of Tree::delete, two-children branch -/

section DeleteTwo

variable [LinearOrder T]

set_option maxHeartbeats 2000000

/-- The two-children branch of Tree::delete on an invariant state.  When the
detached left child has no right child the extraction comes back empty and
the branch aborts.  Otherwise the in-order predecessor (the greatest node of
the detached left subtree) is installed with the detached subtrees as its
children; it is hung into the deleted node's former parent slot when there is
one, and the root reference is never updated (faithful to the source), so a
deleted root node stays installed as a childless root. -/
theorem delete_two_spec {h : Heap T} {root : Option Nat} {bt : BTree T}
    {s : List Nat} {v : T} {q : Path T} {hp : Option Nat} {hd : Dir}
    {g lc rc : Nat} {sq sl sr : List Nat} {tl tr : BTree T}
    (hfind : Tree.findValueFrom h root v = some (SearchResult.Found g))
    (hpath : ReprPath h none Dir.NoParent root q hp hd (some g) sq)
    (hgn : h.get? g = some ⟨v, hp, hd, some lc, some rc⟩)
    (hl : ReprNode h (some g) Dir.Left (some lc) tl sl)
    (hr : ReprNode h (some g) Dir.Right (some rc) tr sr)
    (hfillbt : bt = q.fill (BTree.node tl v tr))
    (hperm : s.Perm (sq ++ g :: (sl ++ sr)))
    (hnd : s.Nodup) (hbst : BST bt) :
    (∃ nlc, h.get? lc = some nlc ∧ nlc.right = none ∧
       Tree.delete ⟨h, root⟩ v = none) ∨
    (∃ t' bt' s' m nm,
       Tree.delete ⟨h, root⟩ v = some (true, t') ∧
       t'.root = root ∧
       ReprNode t'.heap none Dir.NoParent t'.root bt' s' ∧
       s'.Nodup ∧ BST bt' ∧
       t'.heap.get? m = some nm ∧
       nm.left = some lc ∧ nm.right = some rc ∧ m ≠ g ∧
       nm.value ∈ tl.values ∧ (∀ x ∈ tl.values, x ≤ nm.value) ∧
       ((hp = none ∧ root = some g ∧ nm.parent = none ∧
           t'.heap.get? g = some ⟨v, none, Dir.NoParent, none, none⟩ ∧
           bt' = BTree.node BTree.leaf v BTree.leaf) ∨
        (∃ pg npg, hp = some pg ∧ nm.parent = some pg ∧
           nm.dirToParent = hd ∧ h.get? pg = some npg ∧
           ((hd = Dir.Left ∧
               t'.heap.get? pg = some { npg with left := some m }) ∨
            (hd = Dir.Right ∧
               t'.heap.get? pg = some { npg with right := some m }))))) := by
  -- distinctness bookkeeping
  have hnds : (sq ++ g :: (sl ++ sr)).Nodup := hperm.nodup_iff.1 hnd
  have hdisj := List.disjoint_of_nodup_append hnds
  have hndq : sq.Nodup := hnds.of_append_left
  have hndtail : (g :: (sl ++ sr)).Nodup := hnds.of_append_right
  have hg_nmem : g ∉ sl ++ sr := (List.nodup_cons.1 hndtail).1
  have hndlr : (sl ++ sr).Nodup := (List.nodup_cons.1 hndtail).2
  have hndsl : sl.Nodup := hndlr.of_append_left
  have hndsr : sr.Nodup := hndlr.of_append_right
  have hdisjlr := List.disjoint_of_nodup_append hndlr
  have hg_nsl : g ∉ sl := fun hc => hg_nmem (List.mem_append.2 (Or.inl hc))
  have hg_nsr : g ∉ sr := fun hc => hg_nmem (List.mem_append.2 (Or.inr hc))
  have hg_nsq : g ∉ sq := fun hc =>
    (hdisj hc (List.mem_cons_self _ _)).elim
  rcases hl.some_inv with
    ⟨lcv, lcl, lcr, tll, tlr, sll, slr, htleq, hsleq, hglc, hll, hlr⟩
  rcases hr.some_inv with
    ⟨rcv, rcl, rcr, trl, trr, srl, srr, htreq, hsreq, hgrc, hrl, hrr⟩
  have hlc_sl : lc ∈ sl := by rw [hsleq]; exact List.mem_cons_self _ _
  have hrc_sr : rc ∈ sr := by rw [hsreq]; exact List.mem_cons_self _ _
  have hlc_ne_g : lc ≠ g := fun he => hg_nsl (he ▸ hlc_sl)
  have hrc_ne_g : rc ≠ g := fun he => hg_nsr (he ▸ hrc_sr)
  have hlc_ne_rc : lc ≠ rc := fun he =>
    (hdisjlr (he ▸ hlc_sl) hrc_sr).elim
  -- the two detachments
  set gnL : Node T := ⟨v, hp, hd, none, some rc⟩ with hgnL
  set gnLR : Node T := ⟨v, hp, hd, none, none⟩ with hgnLR
  set h1 : Heap T :=
    (h.set g gnL).set lc ⟨lcv, none, Dir.NoParent, lcl, lcr⟩ with hh1
  have hlc0 : (h.set g gnL).get? lc = some ⟨lcv, some g, Dir.Left, lcl, lcr⟩ := by
    rw [Heap.get?_set_ne h _ (fun he => hlc_ne_g he.symm)]
    exact hglc
  have htakeL : Node.takeLeftChild h g = some (h1, some lc) := by
    simp [Node.takeLeftChild, hgn, Node.unsetParent, hlc0, ← hgnL, ← hh1]
  have hg1 : h1.get? g = some gnL := by
    rw [hh1, Heap.get?_set_ne _ _ hlc_ne_g,
      Heap.get?_set_self h _ (Heap.lt_size_of_get? hgn)]
  have hrc1 : h1.get? rc = some ⟨rcv, some g, Dir.Right, rcl, rcr⟩ := by
    rw [hh1, Heap.get?_set_ne _ _ hlc_ne_rc,
      Heap.get?_set_ne h _ (fun he => hrc_ne_g he.symm)]
    exact hgrc
  set h2 : Heap T :=
    (h1.set g gnLR).set rc ⟨rcv, none, Dir.NoParent, rcl, rcr⟩ with hh2
  have hrc1b : (h1.set g gnLR).get? rc =
      some ⟨rcv, some g, Dir.Right, rcl, rcr⟩ := by
    rw [Heap.get?_set_ne h1 _ (fun he => hrc_ne_g he.symm)]
    exact hrc1
  have htakeR : Node.takeRightChild h1 g = some (h2, some rc) := by
    simp [Node.takeRightChild, hg1, hgnL, Node.unsetParent, hrc1b, ← hgnLR,
      ← hh2]
  have hsz1 : h1.size = h.size := by
    rw [hh1, Heap.size_set, Heap.size_set]
  have hsz2 : h2.size = h.size := by
    rw [hh2, Heap.size_set, Heap.size_set, hsz1]
  have hget2 : ∀ k, k ≠ g → k ≠ lc → k ≠ rc → h2.get? k = h.get? k := by
    intro k hkg hklc hkrc
    rw [hh2, Heap.get?_set_ne _ _ (fun he => hkrc he.symm),
      Heap.get?_set_ne _ _ (fun he => hkg he.symm), hh1,
      Heap.get?_set_ne _ _ (fun he => hklc he.symm),
      Heap.get?_set_ne _ _ (fun he => hkg he.symm)]
  have hg2 : h2.get? g = some gnLR := by
    rw [hh2, Heap.get?_set_ne _ _ hrc_ne_g]
    exact Heap.get?_set_self h1 _ (by rw [hsz1]; exact Heap.lt_size_of_get? hgn)
  have hlc2 : h2.get? lc = some ⟨lcv, none, Dir.NoParent, lcl, lcr⟩ := by
    rw [hh2, Heap.get?_set_ne _ _ hlc_ne_rc.symm,
      Heap.get?_set_ne _ _ (fun he => hlc_ne_g he.symm), hh1]
    exact Heap.get?_set_self _ _
      (by rw [Heap.size_set]; exact Heap.lt_size_of_get? hglc)
  have hrc2 : h2.get? rc = some ⟨rcv, none, Dir.NoParent, rcl, rcr⟩ := by
    rw [hh2]
    exact Heap.get?_set_self _ _
      (by rw [Heap.size_set, hsz1]; exact Heap.lt_size_of_get? hgrc)
  -- the detached left subtree is represented at a rootless slot in h2
  have hl2 : ReprNode h2 none Dir.NoParent (some lc) tl sl := by
    rcases hl.reparent hndsl none Dir.NoParent with ⟨v', l', r', hget', hrep'⟩
    have he : (⟨lcv, some g, Dir.Left, lcl, lcr⟩ : Node T) =
        ⟨v', some g, Dir.Left, l', r'⟩ :=
      Option.some.inj (hglc.symm.trans hget')
    injection he with e1 e2 e3 e4 e5
    subst e1; subst e4; subst e5
    refine hrep'.mono ?_
    intro k hk
    have hkg : k ≠ g := fun he => hg_nsl (he ▸ hk)
    have hkrc : k ≠ rc := fun he => (hdisjlr (he ▸ hk) hrc_sr).elim
    by_cases hklc : k = lc
    · subst hklc
      rw [hlc2, Heap.get?_set_self h _ (Heap.lt_size_of_get? hglc)]
    · rw [hget2 k hkg hklc hkrc,
        Heap.get?_set_ne h _ (fun he => hklc he.symm)]
  -- run the extraction on the detached left subtree
  rcases extract_sim hl2 hndsl with
    ⟨nlc2, hnlc2, hnlcr, hextract⟩ |
    ⟨h3, m, mv, qF, tml, sE, pm, npm, oml, hextract, hfillE, hroE, hqneE,
      hrepE, hpermE, hndE, hmE, hmneE, hm3, hsz3, hframe3, hgm2, hgpm2,
      hpmr2, hpm3, hpmE⟩
  · -- the detached left child has no right child: the branch aborts
    have hlcrnone : lcr = none := by
      have he : (⟨lcv, none, Dir.NoParent, lcl, lcr⟩ : Node T) = nlc2 :=
        Option.some.inj (hlc2.symm.trans hnlc2)
      rw [← he] at hnlcr
      exact hnlcr
    refine Or.inl ⟨⟨lcv, some g, Dir.Left, lcl, lcr⟩, hglc, by simp [hlcrnone], ?_⟩
    simp [Tree.delete, hfind, hgn, Node.leftRightTaken, htakeL, htakeR,
      hextract]
  · -- the extraction succeeded
    -- membership and distinctness of the new pieces
    have hm_sl : m ∈ sl := hmE
    have hpm_sl : pm ∈ sl := hpmE
    have hndmE : (m :: sE).Nodup := hpermE.nodup_iff.1 hndsl
    have hm_nsE : m ∉ sE := (List.nodup_cons.1 hndmE).1
    have hsE_sub : ∀ k ∈ sE, k ∈ sl := by
      intro k hk
      exact hpermE.mem_iff.2 (List.mem_cons_of_mem _ hk)
    have hm_ne_g : m ≠ g := fun he => hg_nsl (he ▸ hm_sl)
    have hm_nsr : m ∉ sr := fun hc => (hdisjlr hm_sl hc).elim
    have hm_ne_rc : m ≠ rc := fun he => hm_nsr (he ▸ hrc_sr)
    have hm_nsq : m ∉ sq := fun hc =>
      (hdisj hc (List.mem_cons_of_mem _ (List.mem_append.2 (Or.inl hm_sl)))).elim
    have hlc_sE : lc ∈ sE := by
      rcases hrepE.some_inv with ⟨_, _, _, _, _, _, _, _, hseq', _, _, _⟩
      rw [hseq']
      exact List.mem_cons_self _ _
    have hm_ne_lc : m ≠ lc := fun he => hm_nsE (he ▸ hlc_sE)
    -- the extracted node in h3
    rcases hrepE.some_inv with
      ⟨lcv3, lcl3, lcr3, tE1, tE2, sE1, sE2, htEeq, hsEeq, hglc3, hlE, hrE⟩
    -- chain: attach the detached subtrees under m
    set h4a : Heap T := h3.set lc ⟨lcv3, some m, Dir.Left, lcl3, lcr3⟩
      with hh4a
    have hm4a : h4a.get? m = some ⟨mv, none, Dir.NoParent, none, none⟩ := by
      rw [hh4a, Heap.get?_set_ne h3 _ (fun he => hm_ne_lc he.symm)]
      exact hm3
    set h4 : Heap T := h4a.set m ⟨mv, none, Dir.NoParent, some lc, none⟩
      with hh4
    have hreplL : Node.replaceLeftChildWith h3 m lc = some (h4, none) := by
      simp [Node.replaceLeftChildWith, Node.setParent, hglc3, ← hh4a,
        hm4a, ← hh4]
    have hrc4 : h4.get? rc = some ⟨rcv, none, Dir.NoParent, rcl, rcr⟩ := by
      rw [hh4, Heap.get?_set_ne h4a _ hm_ne_rc, hh4a,
        Heap.get?_set_ne h3 _ hlc_ne_rc,
        hframe3 rc (fun hc => (hdisjlr hc hrc_sr).elim)]
      exact hrc2
    set h5a : Heap T := h4.set rc ⟨rcv, some m, Dir.Right, rcl, rcr⟩
      with hh5a
    have hmlt0 : m < h.size := by
      have hx := Heap.lt_size_of_get? hgm2
      rwa [hsz2] at hx
    have hm5a : h5a.get? m =
        some ⟨mv, none, Dir.NoParent, some lc, none⟩ := by
      rw [hh5a, Heap.get?_set_ne h4 _ (fun he => hm_ne_rc he.symm), hh4]
      refine Heap.get?_set_self h4a _ ?_
      rw [hh4a, Heap.size_set, hsz3, hsz2]
      exact hmlt0
    set h5 : Heap T := h5a.set m ⟨mv, none, Dir.NoParent, some lc, some rc⟩
      with hh5
    have hreplR : Node.replaceRightChildWith h4 m rc = some (h5, none) := by
      simp [Node.replaceRightChildWith, Node.setParent, hrc4, ← hh5a,
        hm5a, ← hh5]
    -- bookkeeping in h5
    have hmlt : m < h.size := by
      have hx := Heap.lt_size_of_get? hgm2
      rwa [hsz2] at hx
    have hsz5 : h5.size = h.size := by
      rw [hh5, Heap.size_set, hh5a, Heap.size_set, hh4, Heap.size_set,
        hh4a, Heap.size_set, hsz3, hsz2]
    have hget5 : ∀ k, k ≠ g → k ≠ lc → k ≠ m → k ≠ rc → k ∉ sl →
        h5.get? k = h.get? k := by
      intro k hkg hklc hkm hkrc hksl
      rw [hh5, Heap.get?_set_ne _ _ (fun he => hkm he.symm), hh5a,
        Heap.get?_set_ne _ _ (fun he => hkrc he.symm), hh4,
        Heap.get?_set_ne _ _ (fun he => hkm he.symm), hh4a,
        Heap.get?_set_ne _ _ (fun he => hklc he.symm), hframe3 k hksl]
      exact hget2 k hkg hklc hkrc
    have hm5 : h5.get? m =
        some ⟨mv, none, Dir.NoParent, some lc, some rc⟩ := by
      rw [hh5]
      refine Heap.get?_set_self h5a _ ?_
      rw [hh5a, Heap.size_set, hh4, Heap.size_set, hh4a, Heap.size_set,
        hsz3, hsz2]
      exact hmlt
    have hg5 : h5.get? g = some gnLR := by
      rw [hh5, Heap.get?_set_ne _ _ hm_ne_g, hh5a,
        Heap.get?_set_ne _ _ hrc_ne_g, hh4,
        Heap.get?_set_ne _ _ hm_ne_g, hh4a,
        Heap.get?_set_ne _ _ hlc_ne_g, hframe3 g hg_nsl]
      exact hg2
    have hlc5 : h5.get? lc = some ⟨lcv3, some m, Dir.Left, lcl3, lcr3⟩ := by
      rw [hh5, Heap.get?_set_ne _ _ hm_ne_lc, hh5a,
        Heap.get?_set_ne _ _ hlc_ne_rc.symm, hh4,
        Heap.get?_set_ne _ _ hm_ne_lc, hh4a]
      refine Heap.get?_set_self h3 _ ?_
      rw [hsz3, hsz2]
      exact Heap.lt_size_of_get? hglc
    have hrc5 : h5.get? rc = some ⟨rcv, some m, Dir.Right, rcl, rcr⟩ := by
      rw [hh5, Heap.get?_set_ne _ _ hm_ne_rc, hh5a]
      refine Heap.get?_set_self h4 _ ?_
      rw [hh4, Heap.size_set, hh4a, Heap.size_set, hsz3, hsz2]
      exact Heap.lt_size_of_get? hgrc
    -- ordering data shared by both root cases
    have hOk : Path.Ok (none : Option T) none q :=
      (Path.bstb_fill_inv (hfillbt ▸ hbst)).1
    have hsubB : BSTB (q.holeBounds ((none : Option T), none)).1
        (q.holeBounds ((none : Option T), none)).2 (BTree.node tl v tr) :=
      (Path.bstb_fill_inv (hfillbt ▸ hbst)).2
    obtain ⟨hOv, hbtl, hbtr⟩ := hsubB
    have hmvmem : mv ∈ tl.values := by
      rw [hfillE, (Path.values_fill_perm qF _).mem_iff]
      exact List.mem_append.2 (Or.inr (by simp [BTree.values]))
    have hmvlt : mv < v := (hbtl.mem_bounds mv hmvmem).2 v rfl
    have hmvmax : ∀ x ∈ tl.values, x ≤ mv := by
      rw [hfillE]
      exact Path.le_max_of_fill_right hroE (hfillE ▸ hbtl)
    have hdropB : BSTB (q.holeBounds ((none : Option T), none)).1 (some mv)
        (qF.fill tml) :=
      Path.bstb_drop_max hroE (hfillE ▸ hbtl)
    -- subtree representations in h5 and beyond are built per root case
    cases hhp : hp with
    | none =>
        subst hhp
        rcases hpath.noHoleParent_here with ⟨hq0, hhd0, hc0, hsq0⟩
        subst hq0; subst hhd0; subst hsq0
        have hrooteq : root = some g := hc0.symm
        have hlet : Node.letParentReplaceChildWith h5 g m =
            some (h5, none) := by
          simp [Node.letParentReplaceChildWith, hg5, hgnLR]
        have hdel : Tree.delete ⟨h, root⟩ v = some (true, ⟨h5, root⟩) := by
          simp [Tree.delete, hfind, hgn, Node.leftRightTaken, htakeL,
            htakeR, hextract, hreplL, hreplR, hlet]
        refine Or.inr ⟨⟨h5, root⟩, BTree.node BTree.leaf v BTree.leaf, [g],
          m, ⟨mv, none, Dir.NoParent, some lc, some rc⟩, hdel, rfl, ?_, by
            simp, ⟨⟨by simp, by simp⟩, trivial, trivial⟩, hm5, rfl, rfl,
          hm_ne_g, hmvmem, hmvmax,
          Or.inl ⟨rfl, hrooteq, rfl, ?_, rfl⟩⟩
        · rw [hrooteq]
          exact ReprNode.node none Dir.NoParent g v none none
            BTree.leaf BTree.leaf [] [] hg5 (ReprNode.leaf _ _)
            (ReprNode.leaf _ _)
        · exact hg5
    | some pg =>
        subst hhp
        -- the hole slot facts
        have hqne2 : q ≠ Path.here := by
          intro he
          subst he
          cases hpath
        rcases hpath.hole_cases with ⟨hq0, _, _, _, _⟩ |
          ⟨pg0, npg, hpg0, hpgq, hgpg, hslot⟩
        · exact absurd hq0 hqne2
        have hpgeq : pg = pg0 := Option.some.inj hpg0
        subst hpgeq
        have hpg_nlr : pg ∉ g :: (sl ++ sr) := fun hc => (hdisj hpgq hc).elim
        have hpg_ne_g : pg ≠ g := fun he =>
          hpg_nlr (he ▸ List.mem_cons_self _ _)
        have hpg_nsl : pg ∉ sl := fun hc =>
          hpg_nlr (List.mem_cons_of_mem _ (List.mem_append.2 (Or.inl hc)))
        have hpg_nsr : pg ∉ sr := fun hc =>
          hpg_nlr (List.mem_cons_of_mem _ (List.mem_append.2 (Or.inr hc)))
        have hpg_ne_lc : pg ≠ lc := fun he => hpg_nsl (he ▸ hlc_sl)
        have hpg_ne_rc : pg ≠ rc := fun he => hpg_nsr (he ▸ hrc_sr)
        have hpg_ne_m : pg ≠ m := fun he => hpg_nsl (he ▸ hm_sl)
        have hpg5 : h5.get? pg = some npg :=
          (hget5 pg hpg_ne_g hpg_ne_lc hpg_ne_m hpg_ne_rc hpg_nsl).trans hgpg
        have hpglt : pg < h.size := Heap.lt_size_of_get? hgpg
        -- nodup of the final index list
        have hnodupFin : (sq ++ m :: (sE ++ sr)).Nodup := by
          have hsub : (sq ++ (sl ++ sr)).Nodup := by
            refine List.Nodup.sublist ?_ hnds
            exact List.Sublist.append_left
              (List.sublist_cons_self g (sl ++ sr)) sq
          have hpm2 : (sl ++ sr).Perm (m :: (sE ++ sr)) := by
            have h1p : (sl ++ sr).Perm ((m :: sE) ++ sr) :=
              hpermE.append_right sr
            simpa using h1p
          exact (hpm2.append_left sq).nodup_iff.1 hsub
        -- final heap chain per direction
        rcases hslot with ⟨hhdL, hslotL⟩ | ⟨hhdR, hslotR⟩
        · -- the deleted node was a left child
          subst hhdL
          set nmFin : Node T := ⟨mv, some pg, Dir.Left, some lc, some rc⟩
            with hnmFin
          set h6a : Heap T := h5.set m nmFin with hh6a
          have hpg6a : h6a.get? pg = some npg := by
            rw [hh6a, Heap.get?_set_ne _ _ hpg_ne_m.symm]
            exact hpg5
          set npgFin : Node T := { npg with left := some m } with hnpgFin
          set h6b : Heap T := h6a.set pg npgFin with hh6b
          have hg6b : h6b.get? g = some gnLR := by
            rw [hh6b, Heap.get?_set_ne _ _ hpg_ne_g, hh6a,
              Heap.get?_set_ne _ _ hm_ne_g]
            exact hg5
          set h6 : Heap T := h6b.set g ⟨v, none, Dir.NoParent, none, none⟩
            with hh6
          have hreplPg : Node.replaceLeftChildWith h5 pg m =
              some (h6, some g) := by
            simp [Node.replaceLeftChildWith, Node.setParent, hm5, ← hnmFin,
              ← hh6a, hpg6a, hslotL, ← hnpgFin, ← hh6b, Node.unsetParent,
              hg6b, hgnLR, ← hh6]
          have hlet : Node.letParentReplaceChildWith h5 g m =
              some (h6, some pg) := by
            simp [Node.letParentReplaceChildWith, hg5, hgnLR, hreplPg]
          have hdel : Tree.delete ⟨h, root⟩ v = some (true, ⟨h6, root⟩) := by
            simp [Tree.delete, hfind, hgn, Node.leftRightTaken, htakeL,
              htakeR, hextract, hreplL, hreplR, hlet]
          have hsz6 : h6.size = h.size := by
            rw [hh6, Heap.size_set, hh6b, Heap.size_set, hh6a,
              Heap.size_set, hsz5]
          have hget6 : ∀ k, k ≠ g → k ≠ pg → k ≠ lc → k ≠ m → k ≠ rc →
              k ∉ sl → h6.get? k = h.get? k := by
            intro k hkg hkpg hklc hkm hkrc hksl
            rw [hh6, Heap.get?_set_ne _ _ hkg.symm, hh6b,
              Heap.get?_set_ne _ _ hkpg.symm, hh6a,
              Heap.get?_set_ne _ _ hkm.symm]
            exact hget5 k hkg hklc hkm hkrc hksl
          have hget63 : ∀ k, k ≠ g → k ≠ pg → k ≠ lc → k ≠ m → k ≠ rc →
              h6.get? k = h3.get? k := by
            intro k hkg hkpg hklc hkm hkrc
            rw [hh6, Heap.get?_set_ne _ _ hkg.symm, hh6b,
              Heap.get?_set_ne _ _ hkpg.symm, hh6a,
              Heap.get?_set_ne _ _ hkm.symm, hh5,
              Heap.get?_set_ne _ _ hkm.symm, hh5a,
              Heap.get?_set_ne _ _ hkrc.symm, hh4,
              Heap.get?_set_ne _ _ hkm.symm, hh4a,
              Heap.get?_set_ne _ _ hklc.symm]
          have hm6 : h6.get? m = some nmFin := by
            rw [hh6, Heap.get?_set_ne _ _ hm_ne_g.symm, hh6b,
              Heap.get?_set_ne _ _ hpg_ne_m, hh6a]
            refine Heap.get?_set_self h5 _ ?_
            rw [hsz5]
            exact hmlt0
          have hlc6 : h6.get? lc =
              some ⟨lcv3, some m, Dir.Left, lcl3, lcr3⟩ := by
            rw [hh6, Heap.get?_set_ne _ _ hlc_ne_g.symm, hh6b,
              Heap.get?_set_ne _ _ hpg_ne_lc, hh6a,
              Heap.get?_set_ne _ _ hm_ne_lc]
            exact hlc5
          have hrc6 : h6.get? rc =
              some ⟨rcv, some m, Dir.Right, rcl, rcr⟩ := by
            rw [hh6, Heap.get?_set_ne _ _ hrc_ne_g.symm, hh6b,
              Heap.get?_set_ne _ _ hpg_ne_rc, hh6a,
              Heap.get?_set_ne _ _ hm_ne_rc]
            exact hrc5
          have hpg6 : h6.get? pg = some npgFin := by
            rw [hh6, Heap.get?_set_ne _ _ hpg_ne_g.symm, hh6b]
            refine Heap.get?_set_self h6a _ ?_
            rw [hh6a, Heap.size_set, hsz5]
            exact hpglt
          have hlcsub6 : ReprNode h6 (some m) Dir.Left (some lc)
              (qF.fill tml) sE := by
            rcases hrepE.reparent hndE (some m) Dir.Left with
              ⟨v', l', r', hget', hrep'⟩
            have he : (⟨lcv3, none, Dir.NoParent, lcl3, lcr3⟩ : Node T) =
                ⟨v', none, Dir.NoParent, l', r'⟩ :=
              Option.some.inj (hglc3.symm.trans hget')
            injection he with e1 e2 e3 e4 e5
            subst e1; subst e4; subst e5
            refine hrep'.mono ?_
            intro k hk
            by_cases hklc : k = lc
            · subst hklc
              rw [hlc6]
              rw [Heap.get?_set_self h3 _ (by
                rw [hsz3, hsz2]; exact Heap.lt_size_of_get? hglc)]
            · have hkm : k ≠ m := fun he2 => hm_nsE (he2 ▸ hk)
              have hksl : k ∈ sl := hsE_sub k hk
              have hkg : k ≠ g := fun he2 => hg_nsl (he2 ▸ hksl)
              have hkpg : k ≠ pg := fun he2 => hpg_nsl (he2 ▸ hksl)
              have hkrc : k ≠ rc := fun he2 =>
                (hdisjlr (he2 ▸ hksl) hrc_sr).elim
              rw [hget63 k hkg hkpg hklc hkm hkrc,
                Heap.get?_set_ne h3 _ (fun he2 => hklc he2.symm)]
          have hrcsub6 : ReprNode h6 (some m) Dir.Right (some rc) tr sr := by
            rcases hr.reparent hndsr (some m) Dir.Right with
              ⟨v', l', r', hget', hrep'⟩
            have he : (⟨rcv, some g, Dir.Right, rcl, rcr⟩ : Node T) =
                ⟨v', some g, Dir.Right, l', r'⟩ :=
              Option.some.inj (hgrc.symm.trans hget')
            injection he with e1 e2 e3 e4 e5
            subst e1; subst e4; subst e5
            refine hrep'.mono ?_
            intro k hk
            by_cases hkrc : k = rc
            · subst hkrc
              rw [hrc6, Heap.get?_set_self h _ (Heap.lt_size_of_get? hgrc)]
            · have hkg : k ≠ g := fun he2 => hg_nsr (he2 ▸ hk)
              have hkpg : k ≠ pg := fun he2 => hpg_nsr (he2 ▸ hk)
              have hksl : k ∉ sl := fun hc => (hdisjlr hc hk).elim
              have hklc : k ≠ lc := fun he2 => hksl (he2 ▸ hlc_sl)
              have hkm : k ≠ m := fun he2 => hksl (he2 ▸ hm_sl)
              rw [hget6 k hkg hkpg hklc hkm hkrc hksl,
                Heap.get?_set_ne h _ (fun he2 => hkrc he2.symm)]
          have hmsub6 : ReprNode h6 (some pg) Dir.Left (some m)
              (BTree.node (qF.fill tml) mv tr) (m :: (sE ++ sr)) :=
            ReprNode.node (some pg) Dir.Left m mv (some lc) (some rc)
              (qF.fill tml) tr sE sr hm6 hlcsub6 hrcsub6
          have hpath6 : ReprPath h6 none Dir.NoParent root q (some pg)
              Dir.Left (some m) sq := by
            have hw := ((hpath.write_slot (some m) rfl hndq hqne2 hgpg).1) rfl
            refine hw.mono_path ?_
            intro k hk
            by_cases hkpg : k = pg
            · subst hkpg
              rw [hpg6, Heap.get?_set_self h _ hpglt]
            · have hkg : k ≠ g := fun he2 => hg_nsq (he2 ▸ hk)
              have hknlr : k ∉ g :: (sl ++ sr) := fun hc =>
                (hdisj hk hc).elim
              have hksl : k ∉ sl := fun hc => hknlr
                (List.mem_cons_of_mem _ (List.mem_append.2 (Or.inl hc)))
              have hklc : k ≠ lc := fun he2 => hksl (he2 ▸ hlc_sl)
              have hkm : k ≠ m := fun he2 => hksl (he2 ▸ hm_sl)
              have hkrc : k ≠ rc := fun he2 => hknlr
                (List.mem_cons_of_mem _
                  (List.mem_append.2 (Or.inr (he2 ▸ hrc_sr))))
              rw [hget6 k hkg hkpg hklc hkm hkrc hksl,
                Heap.get?_set_ne h _ (fun he2 => hkpg he2.symm)]
          have hObmv : OBnd (q.holeBounds ((none : Option T), none)).1 mv
              (q.holeBounds ((none : Option T), none)).2 :=
            ⟨(hbtl.mem_bounds mv hmvmem).1,
             fun y hy => hmvlt.trans (hOv.2 y hy)⟩
          have htrB : BSTB (some mv)
              (q.holeBounds ((none : Option T), none)).2 tr := by
            refine hbtr.mono_bstb ?_ (ubLe_refl _)
            exact hmvlt.le
          have hbstFin : BST (q.fill (BTree.node (qF.fill tml) mv tr)) :=
            Path.bstb_fill hOk ⟨hObmv, hdropB, htrB⟩
          rcases hpath6.fill_repr hmsub6 with ⟨sFin, hrepFin, hpermFin⟩
          exact Or.inr ⟨⟨h6, root⟩,
            q.fill (BTree.node (qF.fill tml) mv tr), sFin, m, nmFin, hdel,
            rfl, hrepFin, hpermFin.nodup_iff.2 hnodupFin, hbstFin, hm6,
            rfl, rfl, hm_ne_g, hmvmem, hmvmax,
            Or.inr ⟨pg, npg, rfl, rfl, rfl, hgpg,
              Or.inl ⟨rfl, hpg6⟩⟩⟩
        · -- the deleted node was a right child
          subst hhdR
          set nmFin : Node T := ⟨mv, some pg, Dir.Right, some lc, some rc⟩
            with hnmFin
          set h6a : Heap T := h5.set m nmFin with hh6a
          have hpg6a : h6a.get? pg = some npg := by
            rw [hh6a, Heap.get?_set_ne _ _ hpg_ne_m.symm]
            exact hpg5
          set npgFin : Node T := { npg with right := some m } with hnpgFin
          set h6b : Heap T := h6a.set pg npgFin with hh6b
          have hg6b : h6b.get? g = some gnLR := by
            rw [hh6b, Heap.get?_set_ne _ _ hpg_ne_g, hh6a,
              Heap.get?_set_ne _ _ hm_ne_g]
            exact hg5
          set h6 : Heap T := h6b.set g ⟨v, none, Dir.NoParent, none, none⟩
            with hh6
          have hreplPg : Node.replaceRightChildWith h5 pg m =
              some (h6, some g) := by
            simp [Node.replaceRightChildWith, Node.setParent, hm5, ← hnmFin,
              ← hh6a, hpg6a, hslotR, ← hnpgFin, ← hh6b, Node.unsetParent,
              hg6b, hgnLR, ← hh6]
          have hlet : Node.letParentReplaceChildWith h5 g m =
              some (h6, some pg) := by
            simp [Node.letParentReplaceChildWith, hg5, hgnLR, hreplPg]
          have hdel : Tree.delete ⟨h, root⟩ v = some (true, ⟨h6, root⟩) := by
            simp [Tree.delete, hfind, hgn, Node.leftRightTaken, htakeL,
              htakeR, hextract, hreplL, hreplR, hlet]
          have hsz6 : h6.size = h.size := by
            rw [hh6, Heap.size_set, hh6b, Heap.size_set, hh6a,
              Heap.size_set, hsz5]
          have hget6 : ∀ k, k ≠ g → k ≠ pg → k ≠ lc → k ≠ m → k ≠ rc →
              k ∉ sl → h6.get? k = h.get? k := by
            intro k hkg hkpg hklc hkm hkrc hksl
            rw [hh6, Heap.get?_set_ne _ _ hkg.symm, hh6b,
              Heap.get?_set_ne _ _ hkpg.symm, hh6a,
              Heap.get?_set_ne _ _ hkm.symm]
            exact hget5 k hkg hklc hkm hkrc hksl
          have hget63 : ∀ k, k ≠ g → k ≠ pg → k ≠ lc → k ≠ m → k ≠ rc →
              h6.get? k = h3.get? k := by
            intro k hkg hkpg hklc hkm hkrc
            rw [hh6, Heap.get?_set_ne _ _ hkg.symm, hh6b,
              Heap.get?_set_ne _ _ hkpg.symm, hh6a,
              Heap.get?_set_ne _ _ hkm.symm, hh5,
              Heap.get?_set_ne _ _ hkm.symm, hh5a,
              Heap.get?_set_ne _ _ hkrc.symm, hh4,
              Heap.get?_set_ne _ _ hkm.symm, hh4a,
              Heap.get?_set_ne _ _ hklc.symm]
          have hm6 : h6.get? m = some nmFin := by
            rw [hh6, Heap.get?_set_ne _ _ hm_ne_g.symm, hh6b,
              Heap.get?_set_ne _ _ hpg_ne_m, hh6a]
            refine Heap.get?_set_self h5 _ ?_
            rw [hsz5]
            exact hmlt0
          have hlc6 : h6.get? lc =
              some ⟨lcv3, some m, Dir.Left, lcl3, lcr3⟩ := by
            rw [hh6, Heap.get?_set_ne _ _ hlc_ne_g.symm, hh6b,
              Heap.get?_set_ne _ _ hpg_ne_lc, hh6a,
              Heap.get?_set_ne _ _ hm_ne_lc]
            exact hlc5
          have hrc6 : h6.get? rc =
              some ⟨rcv, some m, Dir.Right, rcl, rcr⟩ := by
            rw [hh6, Heap.get?_set_ne _ _ hrc_ne_g.symm, hh6b,
              Heap.get?_set_ne _ _ hpg_ne_rc, hh6a,
              Heap.get?_set_ne _ _ hm_ne_rc]
            exact hrc5
          have hpg6 : h6.get? pg = some npgFin := by
            rw [hh6, Heap.get?_set_ne _ _ hpg_ne_g.symm, hh6b]
            refine Heap.get?_set_self h6a _ ?_
            rw [hh6a, Heap.size_set, hsz5]
            exact hpglt
          have hlcsub6 : ReprNode h6 (some m) Dir.Left (some lc)
              (qF.fill tml) sE := by
            rcases hrepE.reparent hndE (some m) Dir.Left with
              ⟨v', l', r', hget', hrep'⟩
            have he : (⟨lcv3, none, Dir.NoParent, lcl3, lcr3⟩ : Node T) =
                ⟨v', none, Dir.NoParent, l', r'⟩ :=
              Option.some.inj (hglc3.symm.trans hget')
            injection he with e1 e2 e3 e4 e5
            subst e1; subst e4; subst e5
            refine hrep'.mono ?_
            intro k hk
            by_cases hklc : k = lc
            · subst hklc
              rw [hlc6]
              rw [Heap.get?_set_self h3 _ (by
                rw [hsz3, hsz2]; exact Heap.lt_size_of_get? hglc)]
            · have hkm : k ≠ m := fun he2 => hm_nsE (he2 ▸ hk)
              have hksl : k ∈ sl := hsE_sub k hk
              have hkg : k ≠ g := fun he2 => hg_nsl (he2 ▸ hksl)
              have hkpg : k ≠ pg := fun he2 => hpg_nsl (he2 ▸ hksl)
              have hkrc : k ≠ rc := fun he2 =>
                (hdisjlr (he2 ▸ hksl) hrc_sr).elim
              rw [hget63 k hkg hkpg hklc hkm hkrc,
                Heap.get?_set_ne h3 _ (fun he2 => hklc he2.symm)]
          have hrcsub6 : ReprNode h6 (some m) Dir.Right (some rc) tr sr := by
            rcases hr.reparent hndsr (some m) Dir.Right with
              ⟨v', l', r', hget', hrep'⟩
            have he : (⟨rcv, some g, Dir.Right, rcl, rcr⟩ : Node T) =
                ⟨v', some g, Dir.Right, l', r'⟩ :=
              Option.some.inj (hgrc.symm.trans hget')
            injection he with e1 e2 e3 e4 e5
            subst e1; subst e4; subst e5
            refine hrep'.mono ?_
            intro k hk
            by_cases hkrc : k = rc
            · subst hkrc
              rw [hrc6, Heap.get?_set_self h _ (Heap.lt_size_of_get? hgrc)]
            · have hkg : k ≠ g := fun he2 => hg_nsr (he2 ▸ hk)
              have hkpg : k ≠ pg := fun he2 => hpg_nsr (he2 ▸ hk)
              have hksl : k ∉ sl := fun hc => (hdisjlr hc hk).elim
              have hklc : k ≠ lc := fun he2 => hksl (he2 ▸ hlc_sl)
              have hkm : k ≠ m := fun he2 => hksl (he2 ▸ hm_sl)
              rw [hget6 k hkg hkpg hklc hkm hkrc hksl,
                Heap.get?_set_ne h _ (fun he2 => hkrc he2.symm)]
          have hmsub6 : ReprNode h6 (some pg) Dir.Right (some m)
              (BTree.node (qF.fill tml) mv tr) (m :: (sE ++ sr)) :=
            ReprNode.node (some pg) Dir.Right m mv (some lc) (some rc)
              (qF.fill tml) tr sE sr hm6 hlcsub6 hrcsub6
          have hpath6 : ReprPath h6 none Dir.NoParent root q (some pg)
              Dir.Right (some m) sq := by
            have hw := ((hpath.write_slot (some m) rfl hndq hqne2 hgpg).2) rfl
            refine hw.mono_path ?_
            intro k hk
            by_cases hkpg : k = pg
            · subst hkpg
              rw [hpg6, Heap.get?_set_self h _ hpglt]
            · have hkg : k ≠ g := fun he2 => hg_nsq (he2 ▸ hk)
              have hknlr : k ∉ g :: (sl ++ sr) := fun hc =>
                (hdisj hk hc).elim
              have hksl : k ∉ sl := fun hc => hknlr
                (List.mem_cons_of_mem _ (List.mem_append.2 (Or.inl hc)))
              have hklc : k ≠ lc := fun he2 => hksl (he2 ▸ hlc_sl)
              have hkm : k ≠ m := fun he2 => hksl (he2 ▸ hm_sl)
              have hkrc : k ≠ rc := fun he2 => hknlr
                (List.mem_cons_of_mem _
                  (List.mem_append.2 (Or.inr (he2 ▸ hrc_sr))))
              rw [hget6 k hkg hkpg hklc hkm hkrc hksl,
                Heap.get?_set_ne h _ (fun he2 => hkpg he2.symm)]
          have hObmv : OBnd (q.holeBounds ((none : Option T), none)).1 mv
              (q.holeBounds ((none : Option T), none)).2 :=
            ⟨(hbtl.mem_bounds mv hmvmem).1,
             fun y hy => hmvlt.trans (hOv.2 y hy)⟩
          have htrB : BSTB (some mv)
              (q.holeBounds ((none : Option T), none)).2 tr := by
            refine hbtr.mono_bstb ?_ (ubLe_refl _)
            exact hmvlt.le
          have hbstFin : BST (q.fill (BTree.node (qF.fill tml) mv tr)) :=
            Path.bstb_fill hOk ⟨hObmv, hdropB, htrB⟩
          rcases hpath6.fill_repr hmsub6 with ⟨sFin, hrepFin, hpermFin⟩
          exact Or.inr ⟨⟨h6, root⟩,
            q.fill (BTree.node (qF.fill tml) mv tr), sFin, m, nmFin, hdel,
            rfl, hrepFin, hpermFin.nodup_iff.2 hnodupFin, hbstFin, hm6,
            rfl, rfl, hm_ne_g, hmvmem, hmvmax,
            Or.inr ⟨pg, npg, rfl, rfl, rfl, hgpg,
              Or.inr ⟨rfl, hpg6⟩⟩⟩

/-- Full simulation of Tree::delete on an invariant state: an absent value is
rejected with the state untouched; a present value either aborts the process
(only possible in the two-children branch) or returns true in a state that
again satisfies the representation invariant. -/
theorem delete_sim {h : Heap T} {root : Option Nat} {bt : BTree T}
    {s : List Nat} (v : T)
    (hrep : ReprNode h none Dir.NoParent root bt s) (hnd : s.Nodup)
    (hbst : BST bt) :
    (v ∉ bt.values ∧ Tree.delete ⟨h, root⟩ v = some (false, ⟨h, root⟩)) ∨
    (v ∈ bt.values ∧ Tree.delete ⟨h, root⟩ v = none) ∨
    (v ∈ bt.values ∧ ∃ t' bt' s',
        Tree.delete ⟨h, root⟩ v = some (true, t') ∧
        ReprNode t'.heap none Dir.NoParent t'.root bt' s' ∧
        s'.Nodup ∧ BST bt') := by
  rcases findValueFrom_spec v hrep hnd hbst with
    ⟨hfind, hroot, hbt⟩ |
    ⟨q, hp, hd, g, sq, sg, tl, tr, hfind, hfill, hpath, hnode, hperm, hmem⟩ |
    ⟨q, j, dj, sq, hfind, hfill, hpath, hperm, hobh, hqne, hdj, hnmem⟩
  · exact Or.inl ⟨by simp [hbt, BTree.values], by simp [Tree.delete, hfind]⟩
  -- value found at node g
  · rcases hnode.some_inv with
      ⟨v0, gl, gr, tl0, tr0, slg, srg, hteq, hsgeq, hgn, hlg, hrg⟩
    injection hteq with he1 he2 he3
    subst he1; subst he2; subst he3; subst hsgeq
    have hperm' : s.Perm (sq ++ g :: (slg ++ srg)) := hperm
    -- shared nodup bookkeeping
    have hnds : (sq ++ g :: (slg ++ srg)).Nodup := hperm'.nodup_iff.1 hnd
    have hdisj := List.disjoint_of_nodup_append hnds
    have hndq : sq.Nodup := hnds.of_append_left
    have hndtail : (g :: (slg ++ srg)).Nodup := hnds.of_append_right
    have hg_nmem : g ∉ slg ++ srg := (List.nodup_cons.1 hndtail).1
    have hndlr : (slg ++ srg).Nodup := (List.nodup_cons.1 hndtail).2
    have hndsl : slg.Nodup := hndlr.of_append_left
    have hdisjlr := List.disjoint_of_nodup_append hndlr
    have hg_nsl : g ∉ slg := fun hc => hg_nmem (List.mem_append.2 (Or.inl hc))
    have hg_nsq : g ∉ sq := fun hc => (hdisj hc (List.mem_cons_self _ _)).elim
    have hOk : Path.Ok (none : Option T) none q :=
      (Path.bstb_fill_inv (hfill ▸ hbst)).1
    have hsubB : BSTB (q.holeBounds ((none : Option T), none)).1
        (q.holeBounds ((none : Option T), none)).2 (BTree.node tl v tr) :=
      (Path.bstb_fill_inv (hfill ▸ hbst)).2
    obtain ⟨hOv, hbtl, hbtr⟩ := hsubB
    cases hgl : gl with
    | none =>
        subst hgl
        rcases hlg.none_inv with ⟨htl0, hsl0⟩
        subst htl0; subst hsl0
        cases hgr : gr with
        | none =>
            -- childless node
            subst hgr
            rcases hrg.none_inv with ⟨htr0, hsr0⟩
            subst htr0; subst hsr0
            rcases hpath.hole_cases with ⟨hq0, hhp0, hhd0, hc0, hsq0⟩ |
              ⟨pg, npg, hhp0, hpgq, hgpg, hslot⟩
            · -- the node is the root: nothing happens at all
              subst hq0; subst hsq0
              have hdel : Tree.delete ⟨h, root⟩ v =
                  some (true, ⟨h, root⟩) := by
                simp [Tree.delete, hfind, hgn, Node.leftRightTaken,
                  Node.takeChildFromParent, hhd0]
              exact Or.inr (Or.inr ⟨hmem, ⟨h, root⟩, bt, s, hdel,
                hrep, hnd, hbst⟩)
            · -- the node hangs off a parent slot
              subst hhp0
              have hqne2 : q ≠ Path.here := by
                intro he
                subst he
                cases hpath
              have hpg_ne_g : pg ≠ g := fun he => hg_nsq (he ▸ hpgq)
              have hpglt : pg < h.size := Heap.lt_size_of_get? hgpg
              rcases hslot with ⟨hhdL, hslotL⟩ | ⟨hhdR, hslotR⟩
              · -- left slot of the parent
                subst hhdL
                set npgN : Node T := { npg with left := none }
                  with hnpgN
                have hg0 : (h.set pg npgN).get? g =
                    some ⟨v, some pg, Dir.Left, none, none⟩ := by
                  rw [Heap.get?_set_ne h _ hpg_ne_g]
                  exact hgn
                set h1 : Heap T := (h.set pg npgN).set g
                  ⟨v, none, Dir.NoParent, none, none⟩ with hh1
                have htake : Node.takeLeftChild h pg = some (h1, some g) := by
                  simp [Node.takeLeftChild, hgpg, hslotL, Node.unsetParent,
                    ← hnpgN, hg0, ← hh1]
                have hdel : Tree.delete ⟨h, root⟩ v =
                    some (true, ⟨h1, root⟩) := by
                  simp [Tree.delete, hfind, hgn, Node.leftRightTaken,
                    Node.takeChildFromParent, htake]
                have hget1 : ∀ k, k ≠ pg → k ≠ g →
                    h1.get? k = h.get? k := by
                  intro k hkpg hkg
                  rw [hh1, Heap.get?_set_ne _ _ hkg.symm,
                    Heap.get?_set_ne _ _ hkpg.symm]
                have hpg1 : h1.get? pg = some npgN := by
                  rw [hh1, Heap.get?_set_ne _ _ hpg_ne_g.symm]
                  exact Heap.get?_set_self h _ hpglt
                have hpath1 : ReprPath h1 none Dir.NoParent root q
                    (some pg) Dir.Left none sq := by
                  have hw := ((hpath.write_slot none rfl hndq hqne2
                    hgpg).1) rfl
                  refine hw.mono_path ?_
                  intro k hk
                  by_cases hkpg : k = pg
                  · subst hkpg
                    rw [hpg1, Heap.get?_set_self h _ hpglt]
                  · have hkg : k ≠ g := fun he2 => hg_nsq (he2 ▸ hk)
                    rw [hget1 k hkpg hkg,
                      Heap.get?_set_ne h _ (fun he2 => hkpg he2.symm)]
                rcases hpath1.fill_repr
                  (ReprNode.leaf (h := h1) (some pg) Dir.Left) with
                  ⟨sF, hrepF, hpermF⟩
                refine Or.inr (Or.inr ⟨hmem, ⟨h1, root⟩, q.fill BTree.leaf,
                  sF, hdel, hrepF, ?_, Path.bstb_fill hOk trivial⟩)
                exact hpermF.nodup_iff.2 (by simpa using hndq)
              · -- right slot of the parent
                subst hhdR
                set npgN : Node T := { npg with right := none }
                  with hnpgN
                have hg0 : (h.set pg npgN).get? g =
                    some ⟨v, some pg, Dir.Right, none, none⟩ := by
                  rw [Heap.get?_set_ne h _ hpg_ne_g]
                  exact hgn
                set h1 : Heap T := (h.set pg npgN).set g
                  ⟨v, none, Dir.NoParent, none, none⟩ with hh1
                have htake : Node.takeRightChild h pg = some (h1, some g) := by
                  simp [Node.takeRightChild, hgpg, hslotR, Node.unsetParent,
                    ← hnpgN, hg0, ← hh1]
                have hdel : Tree.delete ⟨h, root⟩ v =
                    some (true, ⟨h1, root⟩) := by
                  simp [Tree.delete, hfind, hgn, Node.leftRightTaken,
                    Node.takeChildFromParent, htake]
                have hget1 : ∀ k, k ≠ pg → k ≠ g →
                    h1.get? k = h.get? k := by
                  intro k hkpg hkg
                  rw [hh1, Heap.get?_set_ne _ _ hkg.symm,
                    Heap.get?_set_ne _ _ hkpg.symm]
                have hpg1 : h1.get? pg = some npgN := by
                  rw [hh1, Heap.get?_set_ne _ _ hpg_ne_g.symm]
                  exact Heap.get?_set_self h _ hpglt
                have hpath1 : ReprPath h1 none Dir.NoParent root q
                    (some pg) Dir.Right none sq := by
                  have hw := ((hpath.write_slot none rfl hndq hqne2
                    hgpg).2) rfl
                  refine hw.mono_path ?_
                  intro k hk
                  by_cases hkpg : k = pg
                  · subst hkpg
                    rw [hpg1, Heap.get?_set_self h _ hpglt]
                  · have hkg : k ≠ g := fun he2 => hg_nsq (he2 ▸ hk)
                    rw [hget1 k hkpg hkg,
                      Heap.get?_set_ne h _ (fun he2 => hkpg he2.symm)]
                rcases hpath1.fill_repr
                  (ReprNode.leaf (h := h1) (some pg) Dir.Right) with
                  ⟨sF, hrepF, hpermF⟩
                refine Or.inr (Or.inr ⟨hmem, ⟨h1, root⟩, q.fill BTree.leaf,
                  sF, hdel, hrepF, ?_, Path.bstb_fill hOk trivial⟩)
                exact hpermF.nodup_iff.2 (by simpa using hndq)
        | some rc =>
            subst hgr
            rcases hrg.some_inv with
              ⟨rcv, rcl, rcr, tsubl, tsubr, ssubl, ssubr, htsubeq, hssubeq,
                hgc, hcl2, hcr2⟩
            have hc_ssub : rc ∈ srg := by
              rw [hssubeq]
              exact List.mem_cons_self _ _
            have hc_ne_g : rc ≠ g := fun he => hg_nmem
              (he ▸ (List.mem_append.2 (Or.inr hc_ssub)))
            have hndssub : srg.Nodup := hndlr.of_append_right
            set gnD : Node T := ⟨v, hp, hd, none, none⟩ with hgnD
            have hc0 : (h.set g gnD).get? rc =
                some ⟨rcv, some g, Dir.Right, rcl, rcr⟩ := by
              rw [Heap.get?_set_ne h _ (fun he => hc_ne_g he.symm)]
              exact hgc
            set h1 : Heap T := (h.set g gnD).set rc
              ⟨rcv, none, Dir.NoParent, rcl, rcr⟩ with hh1
            have htake : Node.takeRightChild h g = some (h1, some rc) := by
              simp [Node.takeRightChild, hgn, Node.unsetParent, ← hgnD, hc0, ← hh1]
            have hg1 : h1.get? g = some gnD := by
              rw [hh1, Heap.get?_set_ne _ _ hc_ne_g,
                Heap.get?_set_self h _ (Heap.lt_size_of_get? hgn)]
            have hc1 : h1.get? rc =
                some ⟨rcv, none, Dir.NoParent, rcl, rcr⟩ := by
              rw [hh1]
              exact Heap.get?_set_self _ _
                (by rw [Heap.size_set]; exact Heap.lt_size_of_get? hgc)
            have hget1 : ∀ k, k ≠ g → k ≠ rc → h1.get? k = h.get? k := by
              intro k hkg hkc
              rw [hh1, Heap.get?_set_ne _ _ hkc.symm,
                Heap.get?_set_ne _ _ hkg.symm]
            cases hhp : hp with
            | none =>
                subst hhp
                rcases hpath.noHoleParent_here with ⟨hq0, hhd0, hcur0, hsq0⟩
                subst hq0; subst hsq0
                have hsub1 : ReprNode h1 none Dir.NoParent (some rc)
                    tr srg := by
                  rcases hrg.reparent hndssub none Dir.NoParent with
                    ⟨v', l', r', hget', hrep'⟩
                  have he : (⟨rcv, some g, Dir.Right, rcl, rcr⟩ : Node T) =
                      ⟨v', some g, Dir.Right, l', r'⟩ :=
                    Option.some.inj (hgc.symm.trans hget')
                  injection he with e1 e2 e3 e4 e5
                  subst e1; subst e4; subst e5
                  refine hrep'.mono ?_
                  intro k hk
                  by_cases hkc : k = rc
                  · subst hkc
                    rw [hc1, Heap.get?_set_self h _ (Heap.lt_size_of_get? hgc)]
                  · have hkg : k ≠ g := fun he2 =>
                      hg_nmem (he2 ▸ (List.mem_append.2 (Or.inr hk)))
                    rw [hget1 k hkg hkc,
                      Heap.get?_set_ne h _ (fun he2 => hkc he2.symm)]
                have hlet : Node.letParentReplaceChildWith h1 g rc =
                    some (h1, none) := by
                  simp [Node.letParentReplaceChildWith, hg1, hgnD]
                have hdel : Tree.delete ⟨h, root⟩ v =
                    some (true, ⟨h1, some rc⟩) := by
                  simp [Tree.delete, hfind, hgn, Node.leftRightTaken, htake,
                    Tree.replaceFoundWithTakenChild, hlet]
                refine Or.inr (Or.inr ⟨hmem, ⟨h1, some rc⟩, tr, srg,
                  hdel, hsub1, hndssub, ?_⟩)
                show BSTB none none tr
                exact hbtr.mono_bstb trivial trivial
            | some pg =>
                subst hhp
                have hqne2 : q ≠ Path.here := by
                  intro he
                  subst he
                  cases hpath
                rcases hpath.hole_cases with ⟨hq0, _, _, _, _⟩ |
                  ⟨pg0, npg, hpg0, hpgq, hgpg, hslot⟩
                · exact absurd hq0 hqne2
                have hpgeq : pg = pg0 := Option.some.inj hpg0
                subst hpgeq
                have hpg_ne_g : pg ≠ g := fun he => hg_nsq (he ▸ hpgq)
                have hpg_nlr : pg ∉ ([] : List Nat) ++ srg := fun hc =>
                  (hdisj hpgq (List.mem_cons_of_mem _ hc)).elim
                have hpg_ne_c : pg ≠ rc := fun he => hpg_nlr
                  (he ▸ (List.mem_append.2 (Or.inr hc_ssub)))
                have hpglt : pg < h.size := Heap.lt_size_of_get? hgpg
                set h2a : Heap T := h1.set rc
                  ⟨rcv, some pg, hd, rcl, rcr⟩ with hh2a
                have hpg2a : h2a.get? pg = some npg := by
                  rw [hh2a, Heap.get?_set_ne _ _ hpg_ne_c.symm,
                    hget1 pg hpg_ne_g hpg_ne_c]
                  exact hgpg
                have hc2a : h2a.get? rc =
                    some ⟨rcv, some pg, hd, rcl, rcr⟩ := by
                  rw [hh2a]
                  refine Heap.get?_set_self h1 _ ?_
                  rw [hh1, Heap.size_set, Heap.size_set]
                  exact Heap.lt_size_of_get? hgc
                have hnodupF : (sq ++ srg).Nodup := by
                  refine List.Nodup.sublist ?_ hnds
                  refine List.Sublist.append_left ?_ sq
                  refine List.Sublist.trans ?_ (List.sublist_cons_self g _)
                  exact List.sublist_append_right ([] : List Nat) srg
                rcases hslot with ⟨hhdL2, hslotL2⟩ | ⟨hhdR2, hslotR2⟩
                · subst hhdL2
                  set npgN : Node T := { npg with left := some rc } with hnpgN
                  set h2b : Heap T := h2a.set pg npgN with hh2b
                  have hg2b : h2b.get? g = some gnD := by
                    rw [hh2b, Heap.get?_set_ne _ _ hpg_ne_g, hh2a,
                      Heap.get?_set_ne _ _ hc_ne_g]
                    exact hg1
                  set h2 : Heap T := h2b.set g ⟨v, none, Dir.NoParent, none, none⟩
                    with hh2
                  have hrepl : Node.replaceLeftChildWith h1 pg rc = some (h2, some g) := by
                    simp [Node.replaceLeftChildWith, Node.setParent, hc1, ← hh2a, hpg2a, hslotL2,
                      ← hnpgN, ← hh2b, Node.unsetParent, hg2b, hgnD, ← hh2]
                  have hlet : Node.letParentReplaceChildWith h1 g rc =
                      some (h2, some pg) := by
                    simp [Node.letParentReplaceChildWith, hg1, hgnD, hrepl]
                  have hdel : Tree.delete ⟨h, root⟩ v = some (true, ⟨h2, root⟩) := by
                    simp [Tree.delete, hfind, hgn, Node.leftRightTaken, htake,
                      Tree.replaceFoundWithTakenChild, hlet]
                  have hget2 : ∀ k, k ≠ g → k ≠ pg → k ≠ rc →
                      h2.get? k = h.get? k := by
                    intro k hkg hkpg hkc
                    rw [hh2, Heap.get?_set_ne _ _ hkg.symm, hh2b,
                      Heap.get?_set_ne _ _ hkpg.symm, hh2a,
                      Heap.get?_set_ne _ _ hkc.symm]
                    exact hget1 k hkg hkc
                  have hc2 : h2.get? rc =
                      some ⟨rcv, some pg, Dir.Left, rcl, rcr⟩ := by
                    rw [hh2, Heap.get?_set_ne _ _ hc_ne_g.symm, hh2b,
                      Heap.get?_set_ne _ _ hpg_ne_c]
                    exact hc2a
                  have hpg2 : h2.get? pg = some npgN := by
                    rw [hh2, Heap.get?_set_ne _ _ hpg_ne_g.symm, hh2b]
                    refine Heap.get?_set_self h2a _ ?_
                    rw [hh2a, Heap.size_set, hh1, Heap.size_set, Heap.size_set]
                    exact hpglt
                  have hsub2 : ReprNode h2 (some pg) Dir.Left (some rc)
                      tr srg := by
                    rcases hrg.reparent hndssub (some pg) Dir.Left with
                      ⟨v', l', r', hget', hrep'⟩
                    have he : (⟨rcv, some g, Dir.Right, rcl, rcr⟩ : Node T) =
                        ⟨v', some g, Dir.Right, l', r'⟩ :=
                      Option.some.inj (hgc.symm.trans hget')
                    injection he with e1 e2 e3 e4 e5
                    subst e1; subst e4; subst e5
                    refine hrep'.mono ?_
                    intro k hk
                    by_cases hkc : k = rc
                    · subst hkc
                      rw [hc2, Heap.get?_set_self h _ (Heap.lt_size_of_get? hgc)]
                    · have hkg : k ≠ g := fun he2 =>
                        hg_nmem (he2 ▸ (List.mem_append.2 (Or.inr hk)))
                      have hkpg : k ≠ pg := fun he2 =>
                        hpg_nlr (he2 ▸ (List.mem_append.2 (Or.inr hk)))
                      rw [hget2 k hkg hkpg hkc,
                        Heap.get?_set_ne h _ (fun he2 => hkc he2.symm)]
                  have hpath2 : ReprPath h2 none Dir.NoParent root q (some pg)
                      Dir.Left (some rc) sq := by
                    have hw := ((hpath.write_slot (some rc) rfl hndq hqne2
                      hgpg).1) rfl
                    refine hw.mono_path ?_
                    intro k hk
                    by_cases hkpg : k = pg
                    · subst hkpg
                      rw [hpg2, Heap.get?_set_self h _ hpglt]
                    · have hkg : k ≠ g := fun he2 => hg_nsq (he2 ▸ hk)
                      have hkc : k ≠ rc := fun he2 =>
                        (hdisj (he2 ▸ hk) (List.mem_cons_of_mem _
                          (List.mem_append.2 (Or.inr hc_ssub)))).elim
                      rw [hget2 k hkg hkpg hkc,
                        Heap.get?_set_ne h _ (fun he2 => hkpg he2.symm)]
                  rcases hpath2.fill_repr hsub2 with ⟨sF, hrepF, hpermF⟩
                  refine Or.inr (Or.inr ⟨hmem, ⟨h2, root⟩, q.fill tr, sF, hdel,
                    hrepF, hpermF.nodup_iff.2 hnodupF, ?_⟩)
                  have hlb2 : lbLe (q.holeBounds ((none : Option T), none)).1
                      (some v) := by
                    cases hlb : (q.holeBounds ((none : Option T), none)).1 with
                    | none => trivial
                    | some u => exact (hOv.1 u (by rw [hlb]; rfl)).le
                  exact Path.bstb_fill hOk (hbtr.mono_bstb hlb2 (ubLe_refl _))
                · subst hhdR2
                  set npgN : Node T := { npg with right := some rc } with hnpgN
                  set h2b : Heap T := h2a.set pg npgN with hh2b
                  have hg2b : h2b.get? g = some gnD := by
                    rw [hh2b, Heap.get?_set_ne _ _ hpg_ne_g, hh2a,
                      Heap.get?_set_ne _ _ hc_ne_g]
                    exact hg1
                  set h2 : Heap T := h2b.set g ⟨v, none, Dir.NoParent, none, none⟩
                    with hh2
                  have hrepl : Node.replaceRightChildWith h1 pg rc = some (h2, some g) := by
                    simp [Node.replaceRightChildWith, Node.setParent, hc1, ← hh2a, hpg2a, hslotR2,
                      ← hnpgN, ← hh2b, Node.unsetParent, hg2b, hgnD, ← hh2]
                  have hlet : Node.letParentReplaceChildWith h1 g rc =
                      some (h2, some pg) := by
                    simp [Node.letParentReplaceChildWith, hg1, hgnD, hrepl]
                  have hdel : Tree.delete ⟨h, root⟩ v = some (true, ⟨h2, root⟩) := by
                    simp [Tree.delete, hfind, hgn, Node.leftRightTaken, htake,
                      Tree.replaceFoundWithTakenChild, hlet]
                  have hget2 : ∀ k, k ≠ g → k ≠ pg → k ≠ rc →
                      h2.get? k = h.get? k := by
                    intro k hkg hkpg hkc
                    rw [hh2, Heap.get?_set_ne _ _ hkg.symm, hh2b,
                      Heap.get?_set_ne _ _ hkpg.symm, hh2a,
                      Heap.get?_set_ne _ _ hkc.symm]
                    exact hget1 k hkg hkc
                  have hc2 : h2.get? rc =
                      some ⟨rcv, some pg, Dir.Right, rcl, rcr⟩ := by
                    rw [hh2, Heap.get?_set_ne _ _ hc_ne_g.symm, hh2b,
                      Heap.get?_set_ne _ _ hpg_ne_c]
                    exact hc2a
                  have hpg2 : h2.get? pg = some npgN := by
                    rw [hh2, Heap.get?_set_ne _ _ hpg_ne_g.symm, hh2b]
                    refine Heap.get?_set_self h2a _ ?_
                    rw [hh2a, Heap.size_set, hh1, Heap.size_set, Heap.size_set]
                    exact hpglt
                  have hsub2 : ReprNode h2 (some pg) Dir.Right (some rc)
                      tr srg := by
                    rcases hrg.reparent hndssub (some pg) Dir.Right with
                      ⟨v', l', r', hget', hrep'⟩
                    have he : (⟨rcv, some g, Dir.Right, rcl, rcr⟩ : Node T) =
                        ⟨v', some g, Dir.Right, l', r'⟩ :=
                      Option.some.inj (hgc.symm.trans hget')
                    injection he with e1 e2 e3 e4 e5
                    subst e1; subst e4; subst e5
                    refine hrep'.mono ?_
                    intro k hk
                    by_cases hkc : k = rc
                    · subst hkc
                      rw [hc2, Heap.get?_set_self h _ (Heap.lt_size_of_get? hgc)]
                    · have hkg : k ≠ g := fun he2 =>
                        hg_nmem (he2 ▸ (List.mem_append.2 (Or.inr hk)))
                      have hkpg : k ≠ pg := fun he2 =>
                        hpg_nlr (he2 ▸ (List.mem_append.2 (Or.inr hk)))
                      rw [hget2 k hkg hkpg hkc,
                        Heap.get?_set_ne h _ (fun he2 => hkc he2.symm)]
                  have hpath2 : ReprPath h2 none Dir.NoParent root q (some pg)
                      Dir.Right (some rc) sq := by
                    have hw := ((hpath.write_slot (some rc) rfl hndq hqne2
                      hgpg).2) rfl
                    refine hw.mono_path ?_
                    intro k hk
                    by_cases hkpg : k = pg
                    · subst hkpg
                      rw [hpg2, Heap.get?_set_self h _ hpglt]
                    · have hkg : k ≠ g := fun he2 => hg_nsq (he2 ▸ hk)
                      have hkc : k ≠ rc := fun he2 =>
                        (hdisj (he2 ▸ hk) (List.mem_cons_of_mem _
                          (List.mem_append.2 (Or.inr hc_ssub)))).elim
                      rw [hget2 k hkg hkpg hkc,
                        Heap.get?_set_ne h _ (fun he2 => hkpg he2.symm)]
                  rcases hpath2.fill_repr hsub2 with ⟨sF, hrepF, hpermF⟩
                  refine Or.inr (Or.inr ⟨hmem, ⟨h2, root⟩, q.fill tr, sF, hdel,
                    hrepF, hpermF.nodup_iff.2 hnodupF, ?_⟩)
                  have hlb2 : lbLe (q.holeBounds ((none : Option T), none)).1
                      (some v) := by
                    cases hlb : (q.holeBounds ((none : Option T), none)).1 with
                    | none => trivial
                    | some u => exact (hOv.1 u (by rw [hlb]; rfl)).le
                  exact Path.bstb_fill hOk (hbtr.mono_bstb hlb2 (ubLe_refl _))
    | some lc =>
        subst hgl
        cases hgr : gr with
        | none =>
            subst hgr
            rcases hrg.none_inv with ⟨htr0, hsr0⟩
            subst htr0; subst hsr0
            rcases hlg.some_inv with
              ⟨lcv, lcl, lcr, tsubl, tsubr, ssubl, ssubr, htsubeq, hssubeq,
                hgc, hcl2, hcr2⟩
            have hc_ssub : lc ∈ slg := by
              rw [hssubeq]
              exact List.mem_cons_self _ _
            have hc_ne_g : lc ≠ g := fun he => hg_nmem
              (he ▸ (List.mem_append.2 (Or.inl hc_ssub)))
            have hndssub : slg.Nodup := hndlr.of_append_left
            set gnD : Node T := ⟨v, hp, hd, none, none⟩ with hgnD
            have hc0 : (h.set g gnD).get? lc =
                some ⟨lcv, some g, Dir.Left, lcl, lcr⟩ := by
              rw [Heap.get?_set_ne h _ (fun he => hc_ne_g he.symm)]
              exact hgc
            set h1 : Heap T := (h.set g gnD).set lc
              ⟨lcv, none, Dir.NoParent, lcl, lcr⟩ with hh1
            have htake : Node.takeLeftChild h g = some (h1, some lc) := by
              simp [Node.takeLeftChild, hgn, Node.unsetParent, ← hgnD, hc0, ← hh1]
            have hg1 : h1.get? g = some gnD := by
              rw [hh1, Heap.get?_set_ne _ _ hc_ne_g,
                Heap.get?_set_self h _ (Heap.lt_size_of_get? hgn)]
            have hc1 : h1.get? lc =
                some ⟨lcv, none, Dir.NoParent, lcl, lcr⟩ := by
              rw [hh1]
              exact Heap.get?_set_self _ _
                (by rw [Heap.size_set]; exact Heap.lt_size_of_get? hgc)
            have hget1 : ∀ k, k ≠ g → k ≠ lc → h1.get? k = h.get? k := by
              intro k hkg hkc
              rw [hh1, Heap.get?_set_ne _ _ hkc.symm,
                Heap.get?_set_ne _ _ hkg.symm]
            cases hhp : hp with
            | none =>
                subst hhp
                rcases hpath.noHoleParent_here with ⟨hq0, hhd0, hcur0, hsq0⟩
                subst hq0; subst hsq0
                have hsub1 : ReprNode h1 none Dir.NoParent (some lc)
                    tl slg := by
                  rcases hlg.reparent hndssub none Dir.NoParent with
                    ⟨v', l', r', hget', hrep'⟩
                  have he : (⟨lcv, some g, Dir.Left, lcl, lcr⟩ : Node T) =
                      ⟨v', some g, Dir.Left, l', r'⟩ :=
                    Option.some.inj (hgc.symm.trans hget')
                  injection he with e1 e2 e3 e4 e5
                  subst e1; subst e4; subst e5
                  refine hrep'.mono ?_
                  intro k hk
                  by_cases hkc : k = lc
                  · subst hkc
                    rw [hc1, Heap.get?_set_self h _ (Heap.lt_size_of_get? hgc)]
                  · have hkg : k ≠ g := fun he2 =>
                      hg_nmem (he2 ▸ (List.mem_append.2 (Or.inl hk)))
                    rw [hget1 k hkg hkc,
                      Heap.get?_set_ne h _ (fun he2 => hkc he2.symm)]
                have hlet : Node.letParentReplaceChildWith h1 g lc =
                    some (h1, none) := by
                  simp [Node.letParentReplaceChildWith, hg1, hgnD]
                have hdel : Tree.delete ⟨h, root⟩ v =
                    some (true, ⟨h1, some lc⟩) := by
                  simp [Tree.delete, hfind, hgn, Node.leftRightTaken, htake,
                    Tree.replaceFoundWithTakenChild, hlet]
                refine Or.inr (Or.inr ⟨hmem, ⟨h1, some lc⟩, tl, slg,
                  hdel, hsub1, hndssub, ?_⟩)
                show BSTB none none tl
                exact hbtl.mono_bstb trivial trivial
            | some pg =>
                subst hhp
                have hqne2 : q ≠ Path.here := by
                  intro he
                  subst he
                  cases hpath
                rcases hpath.hole_cases with ⟨hq0, _, _, _, _⟩ |
                  ⟨pg0, npg, hpg0, hpgq, hgpg, hslot⟩
                · exact absurd hq0 hqne2
                have hpgeq : pg = pg0 := Option.some.inj hpg0
                subst hpgeq
                have hpg_ne_g : pg ≠ g := fun he => hg_nsq (he ▸ hpgq)
                have hpg_nlr : pg ∉ slg ++ ([] : List Nat) := fun hc =>
                  (hdisj hpgq (List.mem_cons_of_mem _ hc)).elim
                have hpg_ne_c : pg ≠ lc := fun he => hpg_nlr
                  (he ▸ (List.mem_append.2 (Or.inl hc_ssub)))
                have hpglt : pg < h.size := Heap.lt_size_of_get? hgpg
                set h2a : Heap T := h1.set lc
                  ⟨lcv, some pg, hd, lcl, lcr⟩ with hh2a
                have hpg2a : h2a.get? pg = some npg := by
                  rw [hh2a, Heap.get?_set_ne _ _ hpg_ne_c.symm,
                    hget1 pg hpg_ne_g hpg_ne_c]
                  exact hgpg
                have hc2a : h2a.get? lc =
                    some ⟨lcv, some pg, hd, lcl, lcr⟩ := by
                  rw [hh2a]
                  refine Heap.get?_set_self h1 _ ?_
                  rw [hh1, Heap.size_set, Heap.size_set]
                  exact Heap.lt_size_of_get? hgc
                have hnodupF : (sq ++ slg).Nodup := by
                  refine List.Nodup.sublist ?_ hnds
                  refine List.Sublist.append_left ?_ sq
                  refine List.Sublist.trans ?_ (List.sublist_cons_self g _)
                  exact List.sublist_append_left slg []
                rcases hslot with ⟨hhdL2, hslotL2⟩ | ⟨hhdR2, hslotR2⟩
                · subst hhdL2
                  set npgN : Node T := { npg with left := some lc } with hnpgN
                  set h2b : Heap T := h2a.set pg npgN with hh2b
                  have hg2b : h2b.get? g = some gnD := by
                    rw [hh2b, Heap.get?_set_ne _ _ hpg_ne_g, hh2a,
                      Heap.get?_set_ne _ _ hc_ne_g]
                    exact hg1
                  set h2 : Heap T := h2b.set g ⟨v, none, Dir.NoParent, none, none⟩
                    with hh2
                  have hrepl : Node.replaceLeftChildWith h1 pg lc = some (h2, some g) := by
                    simp [Node.replaceLeftChildWith, Node.setParent, hc1, ← hh2a, hpg2a, hslotL2,
                      ← hnpgN, ← hh2b, Node.unsetParent, hg2b, hgnD, ← hh2]
                  have hlet : Node.letParentReplaceChildWith h1 g lc =
                      some (h2, some pg) := by
                    simp [Node.letParentReplaceChildWith, hg1, hgnD, hrepl]
                  have hdel : Tree.delete ⟨h, root⟩ v = some (true, ⟨h2, root⟩) := by
                    simp [Tree.delete, hfind, hgn, Node.leftRightTaken, htake,
                      Tree.replaceFoundWithTakenChild, hlet]
                  have hget2 : ∀ k, k ≠ g → k ≠ pg → k ≠ lc →
                      h2.get? k = h.get? k := by
                    intro k hkg hkpg hkc
                    rw [hh2, Heap.get?_set_ne _ _ hkg.symm, hh2b,
                      Heap.get?_set_ne _ _ hkpg.symm, hh2a,
                      Heap.get?_set_ne _ _ hkc.symm]
                    exact hget1 k hkg hkc
                  have hc2 : h2.get? lc =
                      some ⟨lcv, some pg, Dir.Left, lcl, lcr⟩ := by
                    rw [hh2, Heap.get?_set_ne _ _ hc_ne_g.symm, hh2b,
                      Heap.get?_set_ne _ _ hpg_ne_c]
                    exact hc2a
                  have hpg2 : h2.get? pg = some npgN := by
                    rw [hh2, Heap.get?_set_ne _ _ hpg_ne_g.symm, hh2b]
                    refine Heap.get?_set_self h2a _ ?_
                    rw [hh2a, Heap.size_set, hh1, Heap.size_set, Heap.size_set]
                    exact hpglt
                  have hsub2 : ReprNode h2 (some pg) Dir.Left (some lc)
                      tl slg := by
                    rcases hlg.reparent hndssub (some pg) Dir.Left with
                      ⟨v', l', r', hget', hrep'⟩
                    have he : (⟨lcv, some g, Dir.Left, lcl, lcr⟩ : Node T) =
                        ⟨v', some g, Dir.Left, l', r'⟩ :=
                      Option.some.inj (hgc.symm.trans hget')
                    injection he with e1 e2 e3 e4 e5
                    subst e1; subst e4; subst e5
                    refine hrep'.mono ?_
                    intro k hk
                    by_cases hkc : k = lc
                    · subst hkc
                      rw [hc2, Heap.get?_set_self h _ (Heap.lt_size_of_get? hgc)]
                    · have hkg : k ≠ g := fun he2 =>
                        hg_nmem (he2 ▸ (List.mem_append.2 (Or.inl hk)))
                      have hkpg : k ≠ pg := fun he2 =>
                        hpg_nlr (he2 ▸ (List.mem_append.2 (Or.inl hk)))
                      rw [hget2 k hkg hkpg hkc,
                        Heap.get?_set_ne h _ (fun he2 => hkc he2.symm)]
                  have hpath2 : ReprPath h2 none Dir.NoParent root q (some pg)
                      Dir.Left (some lc) sq := by
                    have hw := ((hpath.write_slot (some lc) rfl hndq hqne2
                      hgpg).1) rfl
                    refine hw.mono_path ?_
                    intro k hk
                    by_cases hkpg : k = pg
                    · subst hkpg
                      rw [hpg2, Heap.get?_set_self h _ hpglt]
                    · have hkg : k ≠ g := fun he2 => hg_nsq (he2 ▸ hk)
                      have hkc : k ≠ lc := fun he2 =>
                        (hdisj (he2 ▸ hk) (List.mem_cons_of_mem _
                          (List.mem_append.2 (Or.inl hc_ssub)))).elim
                      rw [hget2 k hkg hkpg hkc,
                        Heap.get?_set_ne h _ (fun he2 => hkpg he2.symm)]
                  rcases hpath2.fill_repr hsub2 with ⟨sF, hrepF, hpermF⟩
                  refine Or.inr (Or.inr ⟨hmem, ⟨h2, root⟩, q.fill tl, sF, hdel,
                    hrepF, hpermF.nodup_iff.2 hnodupF, ?_⟩)
                  have hub2 : ubLe (some v)
                      (q.holeBounds ((none : Option T), none)).2 := by
                    cases hub : (q.holeBounds ((none : Option T), none)).2 with
                    | none => trivial
                    | some u => exact (hOv.2 u (by rw [hub]; rfl)).le
                  exact Path.bstb_fill hOk (hbtl.mono_bstb (lbLe_refl _) hub2)
                · subst hhdR2
                  set npgN : Node T := { npg with right := some lc } with hnpgN
                  set h2b : Heap T := h2a.set pg npgN with hh2b
                  have hg2b : h2b.get? g = some gnD := by
                    rw [hh2b, Heap.get?_set_ne _ _ hpg_ne_g, hh2a,
                      Heap.get?_set_ne _ _ hc_ne_g]
                    exact hg1
                  set h2 : Heap T := h2b.set g ⟨v, none, Dir.NoParent, none, none⟩
                    with hh2
                  have hrepl : Node.replaceRightChildWith h1 pg lc = some (h2, some g) := by
                    simp [Node.replaceRightChildWith, Node.setParent, hc1, ← hh2a, hpg2a, hslotR2,
                      ← hnpgN, ← hh2b, Node.unsetParent, hg2b, hgnD, ← hh2]
                  have hlet : Node.letParentReplaceChildWith h1 g lc =
                      some (h2, some pg) := by
                    simp [Node.letParentReplaceChildWith, hg1, hgnD, hrepl]
                  have hdel : Tree.delete ⟨h, root⟩ v = some (true, ⟨h2, root⟩) := by
                    simp [Tree.delete, hfind, hgn, Node.leftRightTaken, htake,
                      Tree.replaceFoundWithTakenChild, hlet]
                  have hget2 : ∀ k, k ≠ g → k ≠ pg → k ≠ lc →
                      h2.get? k = h.get? k := by
                    intro k hkg hkpg hkc
                    rw [hh2, Heap.get?_set_ne _ _ hkg.symm, hh2b,
                      Heap.get?_set_ne _ _ hkpg.symm, hh2a,
                      Heap.get?_set_ne _ _ hkc.symm]
                    exact hget1 k hkg hkc
                  have hc2 : h2.get? lc =
                      some ⟨lcv, some pg, Dir.Right, lcl, lcr⟩ := by
                    rw [hh2, Heap.get?_set_ne _ _ hc_ne_g.symm, hh2b,
                      Heap.get?_set_ne _ _ hpg_ne_c]
                    exact hc2a
                  have hpg2 : h2.get? pg = some npgN := by
                    rw [hh2, Heap.get?_set_ne _ _ hpg_ne_g.symm, hh2b]
                    refine Heap.get?_set_self h2a _ ?_
                    rw [hh2a, Heap.size_set, hh1, Heap.size_set, Heap.size_set]
                    exact hpglt
                  have hsub2 : ReprNode h2 (some pg) Dir.Right (some lc)
                      tl slg := by
                    rcases hlg.reparent hndssub (some pg) Dir.Right with
                      ⟨v', l', r', hget', hrep'⟩
                    have he : (⟨lcv, some g, Dir.Left, lcl, lcr⟩ : Node T) =
                        ⟨v', some g, Dir.Left, l', r'⟩ :=
                      Option.some.inj (hgc.symm.trans hget')
                    injection he with e1 e2 e3 e4 e5
                    subst e1; subst e4; subst e5
                    refine hrep'.mono ?_
                    intro k hk
                    by_cases hkc : k = lc
                    · subst hkc
                      rw [hc2, Heap.get?_set_self h _ (Heap.lt_size_of_get? hgc)]
                    · have hkg : k ≠ g := fun he2 =>
                        hg_nmem (he2 ▸ (List.mem_append.2 (Or.inl hk)))
                      have hkpg : k ≠ pg := fun he2 =>
                        hpg_nlr (he2 ▸ (List.mem_append.2 (Or.inl hk)))
                      rw [hget2 k hkg hkpg hkc,
                        Heap.get?_set_ne h _ (fun he2 => hkc he2.symm)]
                  have hpath2 : ReprPath h2 none Dir.NoParent root q (some pg)
                      Dir.Right (some lc) sq := by
                    have hw := ((hpath.write_slot (some lc) rfl hndq hqne2
                      hgpg).2) rfl
                    refine hw.mono_path ?_
                    intro k hk
                    by_cases hkpg : k = pg
                    · subst hkpg
                      rw [hpg2, Heap.get?_set_self h _ hpglt]
                    · have hkg : k ≠ g := fun he2 => hg_nsq (he2 ▸ hk)
                      have hkc : k ≠ lc := fun he2 =>
                        (hdisj (he2 ▸ hk) (List.mem_cons_of_mem _
                          (List.mem_append.2 (Or.inl hc_ssub)))).elim
                      rw [hget2 k hkg hkpg hkc,
                        Heap.get?_set_ne h _ (fun he2 => hkpg he2.symm)]
                  rcases hpath2.fill_repr hsub2 with ⟨sF, hrepF, hpermF⟩
                  refine Or.inr (Or.inr ⟨hmem, ⟨h2, root⟩, q.fill tl, sF, hdel,
                    hrepF, hpermF.nodup_iff.2 hnodupF, ?_⟩)
                  have hub2 : ubLe (some v)
                      (q.holeBounds ((none : Option T), none)).2 := by
                    cases hub : (q.holeBounds ((none : Option T), none)).2 with
                    | none => trivial
                    | some u => exact (hOv.2 u (by rw [hub]; rfl)).le
                  exact Path.bstb_fill hOk (hbtl.mono_bstb (lbLe_refl _) hub2)
        | some rc =>
            subst hgr
            rcases delete_two_spec hfind hpath hgn hlg hrg hfill hperm' hnd
              hbst with
              ⟨nlcx, hnlcx, hnlcrx, habort⟩ |
              ⟨t', bt', s', m, nm, hdel, hroot', hrep', hnd', hbst', hrest⟩
            · exact Or.inr (Or.inl ⟨hmem, habort⟩)
            · exact Or.inr (Or.inr ⟨hmem, t', bt', s', hdel, hrep', hnd',
                hbst'⟩)
  · exact Or.inl ⟨hnmem, by simp [Tree.delete, hfind]⟩

end DeleteTwo

/-! ## Level-order traversal -/

/-- Concatenating represented traversal queues. -/
theorem ReprQueue.append {h : Heap T} {is1 is2 : List Nat}
    {ts1 ts2 : List (BTree T)} {ss1 ss2 : List Nat}
    (h1 : ReprQueue h is1 ts1 ss1) (h2 : ReprQueue h is2 ts2 ss2) :
    ReprQueue h (is1 ++ is2) (ts1 ++ ts2) (ss1 ++ ss2) := by
  induction h1 with
  | nil => simpa using h2
  | cons p d i t s is ts ss hrep hq ih =>
      rw [List.cons_append, List.cons_append, List.append_assoc]
      exact ReprQueue.cons p d i t s (is ++ is2) (ts ++ ts2) (ss ++ ss2)
        hrep ih

/-- A singleton represented queue. -/
theorem ReprQueue.single {h : Heap T} {p : Option Nat} {d : Dir} {i : Nat}
    {t : BTree T} {s : List Nat} (hrep : ReprNode h p d (some i) t s) :
    ReprQueue h [i] [t] s := by
  have hbase := ReprQueue.cons p d i t s [] [] [] hrep ReprQueue.nil
  simpa using hbase

/-- Driving the imperative iterator over a represented queue collects, up to
order, the concatenation of the in-order value sequences of the queued
subtrees; the fuel needed is the total number of queued nodes. -/
theorem collect_spec {h : Heap T} :
    ∀ (fuel : Nat) (is : List Nat) (ts : List (BTree T)) (ss : List Nat),
      ReprQueue h is ts ss → (ts.map BTree.size).sum ≤ fuel →
      ∃ out, IterShared.collect h fuel ⟨is⟩ = some out ∧
        out.Perm (ts.map BTree.values).join := by
  intro fuel
  induction fuel with
  | zero =>
      intro is ts ss hq hfuel
      cases hq with
      | nil => exact ⟨[], rfl, by simp⟩
      | cons p d i t s is0 ts0 ss0 hrep hq0 =>
          rcases hrep.some_inv with ⟨v, l, r, tl, tr, sl, sr, hteq, _, _, _, _⟩
          subst hteq
          simp only [List.map_cons, List.sum_cons, BTree.size] at hfuel
          omega
  | succ f ih =>
      intro is ts ss hq hfuel
      cases hq with
      | nil =>
          refine ⟨[], ?_, by simp⟩
          simp [IterShared.collect, IterShared.next]
      | cons p d i t s is0 ts0 ss0 hrep hq0 =>
          rcases hrep.some_inv with
            ⟨v, l, r, tl, tr, sl, sr, hteq, hseq, hget, hlrep, hrrep⟩
          subst hteq
          simp only [List.map_cons, List.sum_cons, BTree.size] at hfuel
          cases l with
          | none =>
              rcases hlrep.none_inv with ⟨htl, hsl⟩
              subst htl; subst hsl
              cases r with
              | none =>
                  rcases hrrep.none_inv with ⟨htr, hsr⟩
                  subst htr; subst hsr
                  rcases ih is0 ts0 ss0 hq0
                      (by simp only [BTree.size] at hfuel; omega) with
                    ⟨out0, hcoll0, hperm0⟩
                  refine ⟨v :: out0, ?_, ?_⟩
                  · simp [IterShared.collect, IterShared.next, hget, hcoll0]
                  · simp only [List.map_cons, List.join_cons, BTree.values,
                      List.nil_append, List.cons_append, List.append_nil,
                      List.append_assoc]
                    exact hperm0.cons v
              | some rc =>
                  have hq1 : ReprQueue h (is0 ++ [rc]) (ts0 ++ [tr])
                      (ss0 ++ sr) := hq0.append (ReprQueue.single hrrep)
                  have hfuel1 : ((ts0 ++ [tr]).map BTree.size).sum ≤ f := by
                    simp only [List.map_append, List.sum_append,
                      List.map_cons, List.sum_cons, List.map_nil,
                      List.sum_nil, BTree.size] at hfuel ⊢
                    omega
                  rcases ih (is0 ++ [rc]) (ts0 ++ [tr]) (ss0 ++ sr)
                      hq1 hfuel1 with ⟨out0, hcoll0, hperm0⟩
                  have hperm1 : out0.Perm
                      ((ts0.map BTree.values).join ++ tr.values) := by
                    have hx := hperm0
                    simp only [List.map_append, List.join_append,
                      List.map_cons, List.map_nil, List.join_cons,
                      List.join_nil, List.append_nil] at hx
                    exact hx
                  refine ⟨v :: out0, ?_, ?_⟩
                  · simp [IterShared.collect, IterShared.next, hget, hcoll0]
                  · simp only [List.map_cons, List.join_cons, BTree.values,
                      List.nil_append, List.cons_append, List.append_nil,
                      List.append_assoc]
                    exact (hperm1.cons v).trans
                      ((List.perm_append_comm).cons v)
          | some lc =>
              cases r with
              | none =>
                  rcases hrrep.none_inv with ⟨htr, hsr⟩
                  subst htr; subst hsr
                  have hq1 : ReprQueue h (is0 ++ [lc]) (ts0 ++ [tl])
                      (ss0 ++ sl) := hq0.append (ReprQueue.single hlrep)
                  have hfuel1 : ((ts0 ++ [tl]).map BTree.size).sum ≤ f := by
                    simp only [List.map_append, List.sum_append,
                      List.map_cons, List.sum_cons, List.map_nil,
                      List.sum_nil, BTree.size] at hfuel ⊢
                    omega
                  rcases ih (is0 ++ [lc]) (ts0 ++ [tl]) (ss0 ++ sl)
                      hq1 hfuel1 with ⟨out0, hcoll0, hperm0⟩
                  have hperm1 : out0.Perm
                      ((ts0.map BTree.values).join ++ tl.values) := by
                    have hx := hperm0
                    simp only [List.map_append, List.join_append,
                      List.map_cons, List.map_nil, List.join_cons,
                      List.join_nil, List.append_nil] at hx
                    exact hx
                  refine ⟨v :: out0, ?_, ?_⟩
                  · simp [IterShared.collect, IterShared.next, hget, hcoll0]
                  · simp only [List.map_cons, List.join_cons, BTree.values,
                      List.nil_append, List.cons_append, List.append_nil,
                      List.append_assoc]
                    exact ((hperm1.cons v).trans
                      ((List.perm_append_comm).cons v)).trans
                      List.perm_middle.symm
              | some rc =>
                  have hq1 : ReprQueue h (is0 ++ [lc] ++ [rc])
                      (ts0 ++ [tl] ++ [tr]) (ss0 ++ sl ++ sr) :=
                    (hq0.append (ReprQueue.single hlrep)).append
                      (ReprQueue.single hrrep)
                  have hfuel1 :
                      ((ts0 ++ [tl] ++ [tr]).map BTree.size).sum ≤ f := by
                    simp only [List.map_append, List.sum_append,
                      List.map_cons, List.sum_cons, List.map_nil,
                      List.sum_nil, BTree.size] at hfuel ⊢
                    omega
                  rcases ih (is0 ++ [lc] ++ [rc]) (ts0 ++ [tl] ++ [tr])
                      (ss0 ++ sl ++ sr) hq1 hfuel1 with
                    ⟨out0, hcoll0, hperm0⟩
                  have hperm1 : out0.Perm
                      ((ts0.map BTree.values).join ++
                        (tl.values ++ tr.values)) := by
                    have hx := hperm0
                    simp only [List.map_append, List.join_append,
                      List.map_cons, List.map_nil, List.join_cons,
                      List.join_nil, List.append_nil,
                      List.append_assoc] at hx
                    exact hx
                  simp only [List.append_assoc, List.cons_append,
                    List.nil_append] at hcoll0
                  refine ⟨v :: out0, ?_, ?_⟩
                  · simp [IterShared.collect, IterShared.next, hget, hcoll0]
                  · simp only [List.map_cons, List.join_cons, BTree.values,
                      List.nil_append, List.cons_append, List.append_nil,
                      List.append_assoc]
                    have hstep1 : (v :: out0).Perm
                        (v :: ((tl.values ++ tr.values) ++
                          (ts0.map BTree.values).join)) :=
                      (hperm1.cons v).trans ((List.perm_append_comm).cons v)
                    have hstep2 : (v :: ((tl.values ++ tr.values) ++
                        (ts0.map BTree.values).join)).Perm
                        (tl.values ++ v :: (tr.values ++
                          (ts0.map BTree.values).join)) := by
                      rw [List.append_assoc]
                      exact List.perm_middle.symm
                    exact hstep1.trans hstep2

/-! ## The invariant holds in every reachable state -/

/-- Every state reachable through the public surface satisfies the whole-tree
invariant. -/
theorem reachable_inv {T : Type} [LinearOrder T] {t : Tree T}
    (hre : Reachable t) : Tree.Inv t := by
  induction hre with
  | empty =>
      exact ⟨BTree.leaf, [], ReprNode.leaf none Dir.NoParent,
        List.nodup_nil, trivial⟩
  | add t0 t1 b v hre0 hstep ih =>
      rcases ih with ⟨bt, s, hrep, hnd, hbst⟩
      rcases add_sim v hrep hnd hbst with ⟨_, heq⟩ |
        ⟨_, t2, bt', s', heq, hrep', hnd', hbst', _, _, _⟩
      · have heq2 : t0.add v = some (false, ⟨t0.heap, t0.root⟩) := heq
        rw [hstep] at heq2
        injection heq2 with hpair
        injection hpair with hb ht
        subst ht
        exact ⟨bt, s, hrep, hnd, hbst⟩
      · have heq2 : t0.add v = some (true, t2) := heq
        rw [hstep] at heq2
        injection heq2 with hpair
        injection hpair with hb ht
        subst ht
        exact ⟨bt', s', hrep', hnd', hbst'⟩
  | delete t0 t1 b v hre0 hstep ih =>
      rcases ih with ⟨bt, s, hrep, hnd, hbst⟩
      rcases delete_sim v hrep hnd hbst with ⟨_, heq⟩ | ⟨_, heq⟩ |
        ⟨_, t2, bt', s', heq, hrep', hnd', hbst'⟩
      · have heq2 : t0.delete v = some (false, ⟨t0.heap, t0.root⟩) := heq
        rw [hstep] at heq2
        injection heq2 with hpair
        injection hpair with hb ht
        subst ht
        exact ⟨bt, s, hrep, hnd, hbst⟩
      · have heq2 : t0.delete v = none := heq
        rw [hstep] at heq2
        exact absurd heq2 (by simp)
      · have heq2 : t0.delete v = some (true, t2) := heq
        rw [hstep] at heq2
        injection heq2 with hpair
        injection hpair with hb ht
        subst ht
        exact ⟨bt', s', hrep', hnd', hbst'⟩

/-- Building a tree from a value sequence only uses the public surface, so
the result is reachable. -/
theorem ofListAux_reachable {T : Type} [LinearOrder T] {t t' : Tree T}
    {vs : List T} (hre : Reachable t)
    (heq : Tree.ofListAux t vs = some t') : Reachable t' := by
  induction vs generalizing t with
  | nil =>
      simp [Tree.ofListAux] at heq
      exact heq ▸ hre
  | cons v vs ih =>
      rw [Tree.ofListAux] at heq
      cases hadd : t.add v with
      | none => rw [hadd] at heq; exact absurd heq (by simp)
      | some p =>
          obtain ⟨b1, t1⟩ := p
          rw [hadd] at heq
          exact ih (Reachable.add t t1 b1 v hre hadd) heq

/-- Trees produced by Tree.ofList are reachable. -/
theorem ofList_reachable {T : Type} [LinearOrder T] {t' : Tree T}
    {vs : List T} (heq : Tree.ofList vs = some t') : Reachable t' :=
  ofListAux_reachable Reachable.empty heq

/-! ## The computable checks hold on represented states -/

/-- In-order collection over a represented subtree succeeds with exactly the
abstract value sequence. -/
theorem collectInFuel_repr {h : Heap T} {p : Option Nat} {d : Dir}
    {oi : Option Nat} {t : BTree T} {s : List Nat}
    (hrep : ReprNode h p d oi t s) :
    ∀ fuel, t.size ≤ fuel → collectInFuel h fuel oi = some t.values := by
  induction hrep with
  | leaf p d =>
      intro fuel _
      cases fuel <;> simp [collectInFuel, BTree.values]
  | node p d i v l r tl tr sl sr hget hl hr ihl ihr =>
      intro fuel hfuel
      simp only [BTree.size] at hfuel
      cases fuel with
      | zero => omega
      | succ f =>
          have hfl : tl.size ≤ f := by omega
          have hfr : tr.size ≤ f := by omega
          simp [collectInFuel, hget, ihl f hfl, ihr f hfr, BTree.values]

/-- The node-local ordering check passes on every represented,
bounded-ordered subtree. -/
theorem bstOkFuel_repr {T : Type} [LinearOrder T] {h : Heap T}
    {p : Option Nat} {d : Dir} {oi : Option Nat} {t : BTree T} {s : List Nat}
    (hrep : ReprNode h p d oi t s) :
    ∀ lo hi fuel, BSTB lo hi t → t.size ≤ fuel →
      bstOkFuel h fuel oi = some true := by
  induction hrep with
  | leaf p d =>
      intro lo hi fuel _ _
      cases fuel <;> simp [bstOkFuel]
  | node p d i v l r tl tr sl sr hget hl hr ihl ihr =>
      intro lo hi fuel hbst hfuel
      simp only [BTree.size] at hfuel
      rcases hbst with ⟨hob, hbl, hbr⟩
      cases fuel with
      | zero => omega
      | succ f =>
          have hfl : tl.size ≤ f := by omega
          have hfr : tr.size ≤ f := by omega
          have hall_l : tl.values.all (fun x => decide (x < v)) = true := by
            rw [List.all_eq_true]
            intro x hx
            exact decide_eq_true ((BSTB.mem_bounds hbl x hx).2 v rfl)
          have hall_r : tr.values.all (fun y => decide (v < y)) = true := by
            rw [List.all_eq_true]
            intro y hy
            exact decide_eq_true ((BSTB.mem_bounds hbr y hy).1 v rfl)
          simp [bstOkFuel, hget, collectInFuel_repr hl f hfl,
            collectInFuel_repr hr f hfr, ihl lo (some v) f hbl hfl,
            ihr (some v) hi f hbr hfr, hall_l, hall_r]

/-- The link-consistency check passes on every represented subtree: the
representation relation forces every back-reference. -/
theorem linkOkFuel_repr {h : Heap T} {p : Option Nat} {d : Dir}
    {oi : Option Nat} {t : BTree T} {s : List Nat}
    (hrep : ReprNode h p d oi t s) :
    ∀ fuel, t.size ≤ fuel → linkOkFuel h fuel oi = some true := by
  induction hrep with
  | leaf p d =>
      intro fuel _
      cases fuel <;> simp [linkOkFuel]
  | node p d i v l r tl tr sl sr hget hl hr ihl ihr =>
      intro fuel hfuel
      simp only [BTree.size] at hfuel
      cases fuel with
      | zero => omega
      | succ f =>
          have hfl : tl.size ≤ f := by omega
          have hfr : tr.size ≤ f := by omega
          have hokl : linkChildOk h i Dir.Left l = some true := by
            cases l with
            | none => rfl
            | some lc =>
                rcases hl.some_inv with
                  ⟨lv, ll, lr, _, _, _, _, _, _, hglc, _, _⟩
                simp [linkChildOk, hglc]
          have hokr : linkChildOk h i Dir.Right r = some true := by
            cases r with
            | none => rfl
            | some rc =>
                rcases hr.some_inv with
                  ⟨rv, rl, rr, _, _, _, _, _, _, hgrc, _, _⟩
                simp [linkChildOk, hgrc]
          simp [linkOkFuel, hget, hokl, hokr, ihl f hfl, ihr f hfr]

/-- On an invariant state the whole-tree ordering check passes. -/
theorem Tree.bstOk_of_inv {T : Type} [LinearOrder T] {t : Tree T}
    (hinv : Tree.Inv t) : t.bstOk = some true := by
  rcases hinv with ⟨bt, s, hrep, hnd, hbst⟩
  exact bstOkFuel_repr hrep none none t.heap.size hbst (hrep.size_le hnd)

/-- On an invariant state the whole-tree link check passes. -/
theorem Tree.linkOk_of_inv {T : Type} [LinearOrder T] {t : Tree T}
    (hinv : Tree.Inv t) : t.linkOk = some true := by
  rcases hinv with ⟨bt, s, hrep, hnd, hbst⟩
  cases hroot : t.root with
  | none => simp [Tree.linkOk, hroot]
  | some r =>
      rw [hroot] at hrep
      rcases hrep.some_inv with
        ⟨v, l, rr, tl, tr, sl, sr, hteq, hseq, hget, hlrep, hrrep⟩
      have hlink := linkOkFuel_repr hrep t.heap.size (hrep.size_le hnd)
      simp [Tree.linkOk, hroot, hget, hlink]


/-! ## Claims -/

/-- Filling any hole with a nonempty tree gives a nonempty tree. -/
theorem Path.fill_node_ne_leaf (q : Path T) (l : BTree T) (v : T)
    (r : BTree T) : q.fill (BTree.node l v r) ≠ BTree.leaf := by
  cases q <;> simp [Path.fill]

/-- C1: refuted by the code as written.  Two executions through the public
surface: deleting the only value 5 of a one-node tree reports success, yet
contains 5 still answers true afterwards; deleting the root 3 of the tree
built from 3, 1, 2, 4 reports success, yet the previously present value 1 is
no longer reported by contains.  Both contradict the claim that after a
successful delete the value is gone and every other value is preserved. -/
theorem C1_delete_breaks_contains :
    ((Tree.ofList [(5 : Int)]).bind fun t => (t.delete 5).bind fun p =>
      (p.2.contains 5).map fun c => (p.1, c)) = some (true, true) ∧
    ((Tree.ofList [(3 : Int), 1, 2, 4]).bind fun t =>
      (t.delete 3).bind fun p =>
      (p.2.contains 1).map fun c => (p.1, c)) = some (true, false) := by
  exact ⟨rfl, rfl⟩

/-- C2, counterexample: deleting the two-children root 3 of the tree built
from 3, 1, 2, 4 returns true, but the replacement (the in-order predecessor
2) is never installed into the tree root slot: the root reference still
points at arena slot 0, which now holds the deleted value 3 as a childless
node, and a traversal of the resulting tree yields just that stale value. -/
theorem C2_counterexample :
    ((Tree.ofList [(3 : Int), 1, 2, 4]).bind fun t =>
      (t.delete 3).map fun p => (p.1, p.2.root, p.2.heap.get? 0)) =
      some (true, some 0,
        some ⟨3, none, Dir.NoParent, none, none⟩) ∧
    ((Tree.ofList [(3 : Int), 1, 2, 4]).bind fun t =>
      (t.delete 3).bind fun p => p.2.iterAll) = some [3] := by
  exact ⟨rfl, rfl⟩

/-- C2, amended: the claimed two-children mechanism does hold whenever the
deleted node is not the root and its detached left child has a right child
(so the predecessor extraction succeeds): delete returns true, the root
reference is unchanged, and the maximum-valued node of the detached left
subtree is installed with the two detached subtrees as its children into the
parent slot the deleted node occupied. -/
theorem C2_amended {T : Type} [LinearOrder T] {t : Tree T}
    (hre : Reachable t) (v : T) (g : Nat) (gn : Node T) (lc rc : Nat)
    (ln : Node T)
    (hfind : Tree.findValueFrom t.heap t.root v =
      some (SearchResult.Found g))
    (hgn : t.heap.get? g = some gn)
    (hlc : gn.left = some lc) (hrc : gn.right = some rc)
    (hln : t.heap.get? lc = some ln) (hlr : ln.right ≠ none)
    (hnotroot : t.root ≠ some g) :
    ∃ t' m nm, t.delete v = some (true, t') ∧ t'.root = t.root ∧
      t'.heap.get? m = some nm ∧ m ≠ g ∧
      nm.left = some lc ∧ nm.right = some rc ∧
      (∃ lvs, collectInFuel t.heap t.heap.size gn.left = some lvs ∧
        nm.value ∈ lvs ∧ ∀ x ∈ lvs, x ≤ nm.value) ∧
      (∃ pg npg, gn.parent = some pg ∧ nm.parent = some pg ∧
        nm.dirToParent = gn.dirToParent ∧ t.heap.get? pg = some npg ∧
        ((gn.dirToParent = Dir.Left ∧
            t'.heap.get? pg = some { npg with left := some m }) ∨
         (gn.dirToParent = Dir.Right ∧
            t'.heap.get? pg = some { npg with right := some m }))) := by
  rcases reachable_inv hre with ⟨bt, s, hrep, hnd, hbst⟩
  rcases findValueFrom_spec v hrep hnd hbst with
    ⟨hfind0, _, _⟩ |
    ⟨q, hp, hd, g', sq, sg, tl, tr, hfind0, hfill, hpath, hnode, hperm, _⟩ |
    ⟨q, j, dj, sq, hfind0, _⟩
  · rw [hfind] at hfind0
    exact absurd hfind0 (by simp)
  · rw [hfind] at hfind0
    have hgg : g = g' := by
      injection hfind0 with hx
      injection hx
    subst hgg
    rcases hnode.some_inv with
      ⟨v0, l0, r0, tl0, tr0, slg, srg, hteq, hsgeq, hg, hlg, hrg⟩
    injection hteq with he1 he2 he3
    subst he1; subst he2; subst he3
    have hgneq : gn = ⟨v, hp, hd, l0, r0⟩ :=
      Option.some.inj (hgn.symm.trans hg)
    subst hgneq
    have hl0 : l0 = some lc := hlc
    have hr0 : r0 = some rc := hrc
    subst hl0; subst hr0
    have hperm2 : s.Perm (sq ++ g :: (slg ++ srg)) := by
      rw [hsgeq] at hperm; exact hperm
    rcases delete_two_spec hfind hpath hg hlg hrg hfill hperm2 hnd hbst with
      ⟨nlc, hglc2, hnlcr, _⟩ |
      ⟨t', bt', s', m, nm, hdel, hroot', hrep', hnd', hbst', hgm,
        hnml, hnmr, hmneg, hmvmem, hmvmax, hcase⟩
    · have hlneq : ln = nlc := Option.some.inj (hln.symm.trans hglc2)
      exact absurd (hlneq ▸ hnlcr) hlr
    · have hnds : (sq ++ g :: (slg ++ srg)).Nodup := hperm2.nodup_iff.1 hnd
      have hndtail : (g :: (slg ++ srg)).Nodup := hnds.of_append_right
      have hndslg : slg.Nodup :=
        ((List.nodup_cons.1 hndtail).2).of_append_left
      have hcoll : collectInFuel t.heap t.heap.size (some lc) =
          some tl.values :=
        collectInFuel_repr hlg t.heap.size (hlg.size_le hndslg)
      rcases hcase with ⟨_, hrooteq, _⟩ |
        ⟨pg, npg, hhp, hnmp, hnmd, hgpg, hsub⟩
      · exact absurd hrooteq hnotroot
      · exact ⟨t', m, nm, hdel, hroot', hgm, hmneg, hnml, hnmr,
          ⟨tl.values, hcoll, hmvmem, hmvmax⟩,
          ⟨pg, npg, hhp, hnmp, hnmd, hgpg, hsub⟩⟩
  · rw [hfind] at hfind0
    exact absurd hfind0 (by simp)

/-- C2, witness for the amended claim at a concrete input: in the tree built
from 10, 5, 3, 7, 4, 15, deleting the non-root two-children node 5 installs
the predecessor node (value 4) with the detached subtrees (rooted at slots 2
and 3) as its children. -/
theorem C2_amended_witness :
    ∃ (t' : Tree Int) (m : Nat) (nm : Node Int),
      Tree.delete
        ⟨⟨[⟨10, none, Dir.NoParent, some 1, some 5⟩,
           ⟨5, some 0, Dir.Left, some 2, some 3⟩,
           ⟨3, some 1, Dir.Left, none, some 4⟩,
           ⟨7, some 1, Dir.Right, none, none⟩,
           ⟨4, some 2, Dir.Right, none, none⟩,
           ⟨15, some 0, Dir.Right, none, none⟩]⟩, some 0⟩ 5 =
        some (true, t') ∧
      t'.root = some 0 ∧ t'.heap.get? m = some nm ∧
      nm.left = some 2 ∧ nm.right = some 3 ∧ nm.value = 4 := by
  have hre : Reachable
      (⟨⟨[⟨10, none, Dir.NoParent, some 1, some 5⟩,
          ⟨5, some 0, Dir.Left, some 2, some 3⟩,
          ⟨3, some 1, Dir.Left, none, some 4⟩,
          ⟨7, some 1, Dir.Right, none, none⟩,
          ⟨4, some 2, Dir.Right, none, none⟩,
          ⟨15, some 0, Dir.Right, none, none⟩]⟩, some 0⟩ : Tree Int) :=
    @ofList_reachable Int _ _ [10, 5, 3, 7, 4, 15] rfl
  rcases C2_amended hre 5 1 ⟨5, some 0, Dir.Left, some 2, some 3⟩ 2 3
      ⟨3, some 1, Dir.Left, none, some 4⟩ rfl rfl rfl rfl rfl (by simp)
      (by simp) with
    ⟨t', m, nm, hdel, hroot, hgm, hmne, hnml, hnmr, hlvs, hpar⟩
  refine ⟨t', m, nm, hdel, by rw [hroot], hgm, hnml, hnmr, ?_⟩
  rcases hlvs with ⟨lvs, hcoll, hmem, hmax⟩
  have hlvseq : lvs = [3, 4] := by
    have hcoll2 : some lvs = some [(3 : Int), 4] := by rw [← hcoll]; rfl
    exact Option.some.inj hcoll2
  subst hlvseq
  have h4 : (4 : Int) ≤ nm.value := hmax 4 (by simp)
  have hmem2 : nm.value = 3 ∨ nm.value = 4 := by simpa using hmem
  rcases hmem2 with hmem2 | hmem2
  · rw [hmem2] at h4; omega
  · exact hmem2

/-- C3: refuted by the code as written.  A sequence of public operations
(building the tree from 100, 25, 10, 30 and then deleting the two-children
node 25, whose detached left child 10 has no right child) reaches the abort:
the predecessor extraction comes back empty where the delete branch requires
a node, modelled as the whole delete call returning none. -/
theorem C3_public_abort :
    ((Tree.ofList [(100 : Int), 25, 10, 30]).bind fun t =>
      t.delete 25) = none := by
  exact rfl


/-- C4: add rejects a present value without touching the state, and plants
an absent value as a fresh leaf in the missing child slot the comparison
descent reached (or as the root of an empty tree), returning true. -/
theorem C4_add_spec {T : Type} [LinearOrder T] {t : Tree T}
    (hre : Reachable t) (v : T) :
    (t.contains v = some true → t.add v = some (false, t)) ∧
    (t.contains v = some false →
      ∃ t', t.add v = some (true, t') ∧
        t'.heap.size = t.heap.size + 1 ∧ t'.contains v = some true ∧
        ((t.root = none ∧ t'.root = some t.heap.size ∧
            t'.heap.get? t.heap.size = some (Node.mkNew v)) ∨
         (∃ j dj nj, t'.root = t.root ∧
            Tree.findValueFrom t.heap t.root v =
              some (SearchResult.ClosestToValue j dj) ∧
            t.heap.get? j = some nj ∧
            ((dj = Dir.Left ∧ nj.left = none ∧
                t'.heap.get? t.heap.size =
                  some ⟨v, some j, Dir.Left, none, none⟩ ∧
                t'.heap.get? j =
                  some { nj with left := some t.heap.size }) ∨
             (dj = Dir.Right ∧ nj.right = none ∧
                t'.heap.get? t.heap.size =
                  some ⟨v, some j, Dir.Right, none, none⟩ ∧
                t'.heap.get? j =
                  some { nj with right := some t.heap.size }))))) := by
  rcases reachable_inv hre with ⟨bt, s, hrep, hnd, hbst⟩
  have hcont : t.contains v = some (decide (v ∈ bt.values)) :=
    contains_spec v hrep hnd hbst
  constructor
  · intro htrue
    have hmem : v ∈ bt.values := by
      rw [hcont] at htrue
      simpa using htrue
    rcases add_sim v hrep hnd hbst with ⟨_, heq⟩ | ⟨hnmem, _⟩
    · exact heq
    · exact absurd hmem hnmem
  · intro hfalse
    have hnmem : v ∉ bt.values := by
      rw [hcont] at hfalse
      simpa using hfalse
    rcases add_sim v hrep hnd hbst with ⟨hmem, _⟩ |
      ⟨_, t2, bt', s', heq, hrep', hnd', hbst', hpermv, hsize, hdetail⟩
    · exact absurd hmem hnmem
    · have hmem' : v ∈ bt'.values :=
        hpermv.mem_iff.2 (List.mem_cons_self _ _)
      have hcont2 : t2.contains v = some (decide (v ∈ bt'.values)) :=
        contains_spec v hrep' hnd' hbst'
      refine ⟨t2, heq, hsize, ?_, hdetail⟩
      rw [hcont2]
      simp [hmem']

/-- C4, witness: adding the absent value 3 to the one-node tree holding 5
succeeds and 3 is contained afterwards. -/
theorem C4_add_spec_witness :
    ∃ t' : Tree Int,
      Tree.add (⟨⟨[⟨5, none, Dir.NoParent, none, none⟩]⟩, some 0⟩ : Tree Int)
        3 = some (true, t') ∧ t'.contains 3 = some true := by
  have hre : Reachable
      (⟨⟨[⟨5, none, Dir.NoParent, none, none⟩]⟩, some 0⟩ : Tree Int) :=
    @ofList_reachable Int _ _ [5] rfl
  rcases (C4_add_spec hre 3).2 rfl with ⟨t', h1, h2, h3, h4⟩
  exact ⟨t', h1, h3⟩

/-- C5: delete of an absent value returns false and gives back the state
untouched: the same heap and the same root reference. -/
theorem C5_delete_absent {T : Type} [LinearOrder T] {t : Tree T}
    (hre : Reachable t) (v : T) (habs : t.contains v = some false) :
    t.delete v = some (false, t) := by
  rcases reachable_inv hre with ⟨bt, s, hrep, hnd, hbst⟩
  have hcont : t.contains v = some (decide (v ∈ bt.values)) :=
    contains_spec v hrep hnd hbst
  have hnmem : v ∉ bt.values := by
    rw [hcont] at habs
    simpa using habs
  rcases delete_sim v hrep hnd hbst with ⟨_, heq⟩ | ⟨hmem, _⟩ | ⟨hmem, _⟩
  · exact heq
  · exact absurd hmem hnmem
  · exact absurd hmem hnmem

/-- C5, witness: deleting the absent value 7 from the one-node tree holding
5 returns false with the identical state. -/
theorem C5_delete_absent_witness :
    Tree.delete (⟨⟨[⟨5, none, Dir.NoParent, none, none⟩]⟩, some 0⟩ : Tree Int)
      7 = some (false, ⟨⟨[⟨5, none, Dir.NoParent, none, none⟩]⟩, some 0⟩) := by
  have hre : Reachable
      (⟨⟨[⟨5, none, Dir.NoParent, none, none⟩]⟩, some 0⟩ : Tree Int) :=
    @ofList_reachable Int _ _ [5] rfl
  exact C5_delete_absent hre 7 rfl

/-- C6: in every reachable state the node-local BST ordering check passes:
at every node, every value in the left subtree is smaller and every value in
the right subtree is larger than the node value. -/
theorem C6_bst_invariant {T : Type} [LinearOrder T] {t : Tree T}
    (hre : Reachable t) : t.bstOk = some true :=
  Tree.bstOk_of_inv (reachable_inv hre)

/-- C6, witness at the reachable three-node tree built from 2, 1, 3. -/
theorem C6_bst_invariant_witness :
    Tree.bstOk (⟨⟨[⟨2, none, Dir.NoParent, some 1, some 2⟩,
        ⟨1, some 0, Dir.Left, none, none⟩,
        ⟨3, some 0, Dir.Right, none, none⟩]⟩, some 0⟩ : Tree Int) =
      some true := by
  have hre : Reachable (⟨⟨[⟨2, none, Dir.NoParent, some 1, some 2⟩,
      ⟨1, some 0, Dir.Left, none, none⟩,
      ⟨3, some 0, Dir.Right, none, none⟩]⟩, some 0⟩ : Tree Int) :=
    @ofList_reachable Int _ _ [2, 1, 3] rfl
  exact C6_bst_invariant hre

/-- C7: in every reachable state the link-consistency check passes: every
stored child link is answered by the child's parent back-reference and
matching direction tag, and the root carries no parent and the NoParent
direction. -/
theorem C7_link_invariant {T : Type} [LinearOrder T] {t : Tree T}
    (hre : Reachable t) : t.linkOk = some true :=
  Tree.linkOk_of_inv (reachable_inv hre)

/-- C7, witness at the reachable three-node tree built from 2, 1, 3. -/
theorem C7_link_invariant_witness :
    Tree.linkOk (⟨⟨[⟨2, none, Dir.NoParent, some 1, some 2⟩,
        ⟨1, some 0, Dir.Left, none, none⟩,
        ⟨3, some 0, Dir.Right, none, none⟩]⟩, some 0⟩ : Tree Int) =
      some true := by
  have hre : Reachable (⟨⟨[⟨2, none, Dir.NoParent, some 1, some 2⟩,
      ⟨1, some 0, Dir.Left, none, none⟩,
      ⟨3, some 0, Dir.Right, none, none⟩]⟩, some 0⟩ : Tree Int) :=
    @ofList_reachable Int _ _ [2, 1, 3] rfl
  exact C7_link_invariant hre

/-- C8: on a represented ordered subtree, extract_greatest_node_from returns
the empty answer exactly when the subtree root has no right child (then the
heap is untouched); otherwise it returns the greatest right-descendant as an
orphan with no parent and no children, having promoted that node's own left
child (or nothing) into the vacated parent slot, and the extracted value is
the maximum of the whole subtree, which is distinct from the subtree root. -/
theorem C8_extract_spec {T : Type} [LinearOrder T] {h : Heap T}
    {p : Option Nat} {d : Dir} {i : Nat} {t : BTree T} {s : List Nat}
    {lo hi : Option T}
    (hrep : ReprNode h p d (some i) t s) (hnd : s.Nodup)
    (hbst : BSTB lo hi t) :
    (∀ n, h.get? i = some n → n.right = none →
       Node.extractGreatestNodeFrom h i = some (h, none)) ∧
    (∀ n rc, h.get? i = some n → n.right = some rc →
       ∃ hF m mv pm npm oml,
         Node.extractGreatestNodeFrom h i = some (hF, some m) ∧ m ≠ i ∧
         h.get? m = some ⟨mv, some pm, Dir.Right, oml, none⟩ ∧
         hF.get? m = some ⟨mv, none, Dir.NoParent, none, none⟩ ∧
         h.get? pm = some npm ∧ npm.right = some m ∧
         hF.get? pm = some { npm with right := oml } ∧
         hF.size = h.size ∧
         (∃ vs, collectInFuel h h.size (some i) = some vs ∧
            mv ∈ vs ∧ ∀ x ∈ vs, x ≤ mv)) := by
  rcases extract_sim hrep hnd with
    ⟨n0, hget0, hr0, hres⟩ |
    ⟨hF, m, mv, qFull, tml, s', pm, npm, oml, hres, hfillT, hro, hqne,
      hrepF, hpermS, hndS, hmS, hmne, hgFm, hszF, hframe, hgm, hgpm,
      hpmr, hgFpm, hpmS⟩
  · constructor
    · intro n hget hrn
      exact hres
    · intro n rc hget hrc
      have hne : n = n0 := Option.some.inj (hget.symm.trans hget0)
      rw [hne, hr0] at hrc
      exact absurd hrc (by simp)
  · constructor
    · intro n hget hrn
      exfalso
      rcases hrep.some_inv with
        ⟨w0, l0, r0, tl0, tr0, sl0, sr0, hteq, hseq, hgi, hl0rep, hr0rep⟩
      have hneq : n = ⟨w0, p, d, l0, r0⟩ :=
        Option.some.inj (hget.symm.trans hgi)
      rw [hneq] at hrn
      have hr0n : r0 = none := hrn
      rw [hr0n] at hr0rep
      rcases hr0rep.none_inv with ⟨htr0, _⟩
      cases qFull with
      | here => exact hqne rfl
      | left pv pr rest => simp [Path.rightOnly] at hro
      | right pl pv rest =>
          rw [hteq] at hfillT
          simp only [Path.fill] at hfillT
          injection hfillT with hf1 hf2 hf3
          rw [htr0] at hf3
          exact Path.fill_node_ne_leaf rest tml mv BTree.leaf hf3.symm
    · intro n rc hget hrc
      have hmax : ∀ x ∈ t.values, x ≤ mv := by
        rw [hfillT]
        exact Path.le_max_of_fill_right hro (hfillT ▸ hbst)
      have hmvmem : mv ∈ t.values := by
        rw [hfillT]
        rw [(Path.values_fill_perm qFull _).mem_iff]
        exact List.mem_append.2 (Or.inr (by simp [BTree.values]))
      exact ⟨hF, m, mv, pm, npm, oml, hres, hmne, hgm, hgFm, hgpm,
        hpmr, hgFpm, hszF,
        ⟨t.values, collectInFuel_repr hrep h.size (hrep.size_le hnd),
          hmvmem, hmax⟩⟩

/-- C8, witness: on the three-node heap for 2, 1, 3 rooted at slot 0, the
extraction detaches the greatest descendant, which holds the value 3, as a
parentless childless orphan. -/
theorem C8_extract_spec_witness :
    ∃ (hF : Heap Int) (m : Nat),
      Node.extractGreatestNodeFrom
        (⟨[⟨2, none, Dir.NoParent, some 1, some 2⟩,
           ⟨1, some 0, Dir.Left, none, none⟩,
           ⟨3, some 0, Dir.Right, none, none⟩]⟩ : Heap Int) 0 =
        some (hF, some m) ∧ m ≠ 0 ∧
      hF.get? m = some ⟨3, none, Dir.NoParent, none, none⟩ := by
  have hrep : ReprNode
      (⟨[⟨2, none, Dir.NoParent, some 1, some 2⟩,
         ⟨1, some 0, Dir.Left, none, none⟩,
         ⟨3, some 0, Dir.Right, none, none⟩]⟩ : Heap Int)
      none Dir.NoParent (some 0)
      (BTree.node (BTree.node BTree.leaf 1 BTree.leaf) 2
        (BTree.node BTree.leaf 3 BTree.leaf))
      (0 :: ((1 :: ([] ++ [])) ++ (2 :: ([] ++ [])))) :=
    ReprNode.node none Dir.NoParent 0 2 (some 1) (some 2)
      (BTree.node BTree.leaf 1 BTree.leaf)
      (BTree.node BTree.leaf 3 BTree.leaf)
      (1 :: ([] ++ [])) (2 :: ([] ++ [])) rfl
      (ReprNode.node (some 0) Dir.Left 1 1 none none BTree.leaf BTree.leaf
        [] [] rfl (ReprNode.leaf (some 1) Dir.Left)
        (ReprNode.leaf (some 1) Dir.Right))
      (ReprNode.node (some 0) Dir.Right 2 3 none none BTree.leaf BTree.leaf
        [] [] rfl (ReprNode.leaf (some 2) Dir.Left)
        (ReprNode.leaf (some 2) Dir.Right))
  have hnd : (0 :: ((1 :: ([] ++ [])) ++ (2 :: ([] ++ [])))).Nodup := by
    decide
  have hbst : BSTB (none : Option Int) none
      (BTree.node (BTree.node BTree.leaf 1 BTree.leaf) 2
        (BTree.node BTree.leaf 3 BTree.leaf)) := by
    simp [BSTB, OBnd]
  rcases (C8_extract_spec hrep hnd hbst).2
      ⟨2, none, Dir.NoParent, some 1, some 2⟩ 2 rfl rfl with
    ⟨hF, m, mv, pm, npm, oml, hres, hmne, hgm, hgFm, hgpm, hpmr,
      hgFpm, hszF, hvs⟩
  rcases hvs with ⟨vs, hcoll, hmvmem, hmax⟩
  have hvseq : vs = [1, 2, 3] := by
    have hcoll2 : some vs = some [(1 : Int), 2, 3] := by rw [← hcoll]; rfl
    exact Option.some.inj hcoll2
  subst hvseq
  have h3 : (3 : Int) ≤ mv := hmax 3 (by simp)
  have hmv3 : mv = 3 := by
    have hcases : mv = 1 ∨ mv = 2 ∨ mv = 3 := by simpa using hmvmem
    rcases hcases with hx | hx | hx <;> omega
  subst hmv3
  exact ⟨hF, m, hres, hmne, hgFm⟩

/-- C9: in every reachable state the level-order traversal terminates,
yields a duplicate-free sequence, and its members are exactly the values
contains reports as present: the traversal realises the stored value set. -/
theorem C9_traversal {T : Type} [LinearOrder T] {t : Tree T}
    (hre : Reachable t) :
    ∃ out, t.iterAll = some out ∧ out.Nodup ∧
      ∀ v, v ∈ out ↔ t.contains v = some true := by
  rcases reachable_inv hre with ⟨bt, s, hrep, hnd, hbst⟩
  have hcont : ∀ v, t.contains v = some (decide (v ∈ bt.values)) :=
    fun v => contains_spec v hrep hnd hbst
  cases hroot : t.root with
  | none =>
      rw [hroot] at hrep
      rcases hrep.none_inv with ⟨hbtleaf, _⟩
      have hcoll : IterShared.collect t.heap t.heap.size ⟨[]⟩ = some [] := by
        cases hsz : t.heap.size <;>
          simp [IterShared.collect, IterShared.next]
      refine ⟨[], ?_, List.nodup_nil, ?_⟩
      · simp only [Tree.iterAll, Tree.iterShared, hroot]
        exact hcoll
      · intro v
        simp [hcont v, hbtleaf, BTree.values]
  | some r =>
      rw [hroot] at hrep
      have hq : ReprQueue t.heap [r] [bt] s := ReprQueue.single hrep
      have hfuel : (([bt] : List (BTree T)).map BTree.size).sum ≤
          t.heap.size := by
        simpa using hrep.size_le hnd
      rcases collect_spec t.heap.size [r] [bt] s hq hfuel with
        ⟨out, hcoll, hperm⟩
      have hperm' : out.Perm bt.values := by simpa using hperm
      refine ⟨out, ?_, hperm'.nodup_iff.2 (BST.nodup_values hbst), ?_⟩
      · simp only [Tree.iterAll, Tree.iterShared, hroot]
        exact hcoll
      · intro v
        rw [hperm'.mem_iff, hcont v]
        simp

/-- C9, witness at the reachable three-node tree built from 2, 1, 3. -/
theorem C9_traversal_witness :
    ∃ out, Tree.iterAll (⟨⟨[⟨2, none, Dir.NoParent, some 1, some 2⟩,
        ⟨1, some 0, Dir.Left, none, none⟩,
        ⟨3, some 0, Dir.Right, none, none⟩]⟩, some 0⟩ : Tree Int) =
        some out ∧ out.Nodup ∧
      ∀ v, v ∈ out ↔
        Tree.contains (⟨⟨[⟨2, none, Dir.NoParent, some 1, some 2⟩,
          ⟨1, some 0, Dir.Left, none, none⟩,
          ⟨3, some 0, Dir.Right, none, none⟩]⟩, some 0⟩ : Tree Int) v =
          some true := by
  have hre : Reachable (⟨⟨[⟨2, none, Dir.NoParent, some 1, some 2⟩,
      ⟨1, some 0, Dir.Left, none, none⟩,
      ⟨3, some 0, Dir.Right, none, none⟩]⟩, some 0⟩ : Tree Int) :=
    @ofList_reachable Int _ _ [2, 1, 3] rfl
  exact C9_traversal hre

/-- C10: on the one-value tree holding 5, delete 5 reports success but the
root reference is not cleared: the root still points at slot 0, contains 5
still answers true, and a fresh traversal still yields 5. -/
theorem C10_single_value_delete :
    ((Tree.ofList [(5 : Int)]).bind fun t => (t.delete 5).bind fun p =>
      (p.2.contains 5).bind fun c =>
      (p.2.iterAll).map fun o => (p.1, p.2.root, c, o)) =
      some (true, some 0, true, [5]) := by
  exact rfl

end TreeOfMadness
